import Mathlib

/-!
# Verification of the `foam` snapshot/restore engine (`src/foam/cli.py`)

Shallow embedding of the core of `foam`: the path-remapping scheme
(`BACKUP_DIR / anchor / relative_path`), the snapshot operation `track`, the
restore operation `reset`, and the registry operations `list_tracked_folders`
and `undo_tracking`.

## The filesystem model

A filesystem is an association list from absolute paths (lists of path
segments, as produced by `pathlib.PurePath.parts` without the anchor) to
nodes.  A node is a regular file (content bytes, permission mode, mtime),
a directory (permission mode), or a symlink (target string).  Lookup takes
the first matching entry.  The empty path `[]` denotes the filesystem root
`/`, which is implicitly always a directory and never stored as an entry.

Abstractions (deliberate, documented here once):
* Symlink semantics.  `lstat`-level predicates (`existsAt`, `isDirAt`,
  `isLeafAt`, `lookupFS`) are structural: a symlink is a leaf node.
  Operations that follow symlinks are modelled by `resolveTip`-based
  predicates (`existsFollow` for `Path.exists()` at cli.py:159, `isDirFollow`
  for the `is_dir()` calls of the two-level walk, the top-path resolution of
  `rglob`, and the `copy2` write-through in the restore step).  A symlink
  *target string* is interpreted as a single component relative to the
  link's parent directory (a sibling reference, the shape `track` itself
  produces for intra-tree links); targets containing separators, `..`, or
  absolute anchors name no path of the model, so a link carrying one
  resolves to a missing sibling — theorems about restore therefore carry
  explicit hypotheses that the symlinks they cover resolve, and never
  assert anything about out-of-tree targets.  A symlink appearing as a
  strict *prefix* of a used path (a symlinked directory being traversed
  through) is likewise outside the modelled domain; the store root and the
  folder arguments of `track`/`reset` are assumed to be plain paths, so the
  store-existence and folder-argument checks keep the structural predicate.
* `Path.rglob('*')` does not recurse *into* symlinked directories (CPython
  `**` behaviour), so below its — resolved — top path the structural
  subtree is the faithful enumeration.
* OS-level I/O failures are modelled by explicit failure oracles
  (`eCopy`, `eRemove`, `eRestore`): an oracle returning `true` for a path
  means the corresponding `try:`-protected operation raised there.
* `shutil.rmtree` with `onerror=remove_readonly` is modelled as complete
  deletion (the warning path for undeletable files is an OS-level failure).
* `Path.resolve()` is modelled as the identity on already-absolute paths.
* `os.scandir`/`Path.iterdir` ordering is modelled as the entry order of the
  association list; `Path.rglob('*')` is modelled as the strict subtree
  sorted ancestors-first (stable insertion sort by path length), which is a
  representative of the real traversal orders: `rglob` always yields a
  directory before anything inside it, with OS-dependent sibling order.
-/

set_option linter.unusedVariables false

namespace Foam

/-- A path segment (one `pathlib` component). -/
abbrev Seg := String

/-- An absolute path: the list of components below the anchor. -/
abbrev FPath := List Seg

/-- One filesystem object: regular file (content, mode, mtime), directory
(mode), or symbolic link (target text, as returned by `os.readlink`). -/
inductive Node where
  | file (content : List Nat) (mode : Nat) (mtime : Nat)
  | dir (mode : Nat)
  | symlink (target : String)
deriving DecidableEq, Repr

/-- A filesystem state: association list from paths to nodes. -/
abbrev FS := List (FPath × Node)

/-- First-match lookup of a path in a filesystem. -/
def lookupFS : FS → FPath → Option Node
  | [], _ => none
  | e :: rest, p => if e.1 = p then some e.2 else lookupFS rest p

/-- `hasBase b p`: `b` is an initial segment of `p` (so `p` is `b` itself or
lies beneath `b`). -/
def hasBase : FPath → FPath → Bool
  | [], _ => true
  | _ :: _, [] => false
  | a :: as, b :: bs => if a = b then hasBase as bs else false

/-- Drop an initial segment: `dropBase b p` is `p` with `b.length` leading
segments removed (the `relative_to` coordinate). -/
def dropBase : FPath → FPath → FPath
  | [], p => p
  | _ :: _, [] => []
  | _ :: as, _ :: bs => dropBase as bs

/-- The strict nonempty initial segments of a path, shortest first
(for `p = [a,b,c]` this is `[[a], [a,b]]`). -/
def strictBases : FPath → List FPath
  | [] => []
  | [_] => []
  | s :: rest => [s] :: (strictBases rest).map (fun q => s :: q)

/-- `Path.exists()` (structural). -/
def existsAt (fs : FS) (p : FPath) : Bool := (lookupFS fs p).isSome

/-- Is this node a directory? -/
def nodeIsDir : Node → Bool
  | .dir _ => true
  | _ => false

/-- Is this node a regular file or a symlink (`is_file() or is_symlink()`,
structurally)? -/
def nodeIsLeaf : Node → Bool
  | .dir _ => false
  | _ => true

/-- `Path.is_dir()` (structural); the filesystem root `[]` is a directory. -/
def isDirAt (fs : FS) (p : FPath) : Bool :=
  match p with
  | [] => true
  | _ =>
    match lookupFS fs p with
    | some n => nodeIsDir n
    | none => false

/-- `Path.is_file() or Path.is_symlink()` (structural). -/
def isLeafAt (fs : FS) (p : FPath) : Bool :=
  match lookupFS fs p with
  | some n => nodeIsLeaf n
  | none => false

/-- Is this node a symlink (`Path.is_symlink()`, an `lstat` check)? -/
def nodeIsSymlink : Node → Bool
  | .symlink _ => true
  | _ => false

/-- Follow the chain of symlinks at the *final* component of `p`: a symlink
target is interpreted as a single component relative to the link's parent.
Returns the first path holding a non-symlink node (or holding nothing: the
place the OS would create/report), `none` once the fuel runs out (the
`ELOOP` case, which every `Path` predicate reports as nonexistence). -/
def resolveTip (fs : FS) : Nat → FPath → Option FPath
  | 0, _ => none
  | fuel + 1, p =>
    match lookupFS fs p with
    | some (Node.symlink t) => resolveTip fs fuel (p.dropLast ++ [t])
    | _ => some p

/-- Resolution with enough fuel for any acyclic chain in `fs`. -/
def resolveFS (fs : FS) (p : FPath) : Option FPath :=
  resolveTip fs (fs.length + 1) p

/-- `Path.exists()` (follows symlinks, cli.py line 159): the resolved tip
holds a node. -/
def existsFollow (fs : FS) (p : FPath) : Bool :=
  match resolveFS fs p with
  | some q => existsAt fs q
  | none => false

/-- `Path.is_dir()` (follows symlinks, cli.py lines 124/126/150/199/201):
the resolved tip is a directory. -/
def isDirFollow (fs : FS) (p : FPath) : Bool :=
  match resolveFS fs p with
  | some q => isDirAt fs q
  | none => false

/-- Remove the entry with exactly key `p` (`Path.unlink`). -/
def eraseKey : FS → FPath → FS
  | [], _ => []
  | e :: rest, p => if e.1 = p then eraseKey rest p else e :: eraseKey rest p

/-- Remove every entry at or beneath `p` (`shutil.rmtree`, with
read-only-tolerant deletion modelled as always succeeding). -/
def removeTree : FS → FPath → FS
  | [], _ => []
  | e :: rest, p => if hasBase p e.1 then removeTree rest p else e :: removeTree rest p

/-- Write a node at a path, replacing any previous entry. -/
def setNode (fs : FS) (p : FPath) (n : Node) : FS := (p, n) :: eraseKey fs p

/-- Mode given to directories created by a bare `mkdir` (no mode argument):
`0o755` as a representative default. -/
def defaultDirMode : Nat := 493

/-- Walk the nonempty initial segments of `base ++ segs`, creating each
missing one as a directory; fail (exception) if one exists as a non-directory.
Helper for `mkdirAll`. -/
def mkdirAllAux (fs : FS) (base : FPath) : List Seg → Option FS
  | [] => some fs
  | s :: rest =>
    let q := base ++ [s]
    match lookupFS fs q with
    | some (Node.dir _) => mkdirAllAux fs q rest
    | some _ => none
    | none => mkdirAllAux (setNode fs q (Node.dir defaultDirMode)) q rest

/-- `Path(p).mkdir(parents=True, exist_ok=True)`: create `p` and all of its
missing ancestors as directories; `none` models the raised exception when a
prefix of `p` exists as a non-directory. -/
def mkdirAll (fs : FS) (p : FPath) : Option FS := mkdirAllAux fs [] p

/-- `stat.S_IWUSR` (`0o200`), the write-permission bit forced by
`copy_with_permissions` (cli.py line 41/95). -/
def WRITE_PERMISSION : Nat := 128

/-- How one source node appears in the backup store after
`shutil.copytree(src, dst, symlinks=True, copy_function=copy_with_permissions)`
(cli.py lines 88-102):
* a symlink is recreated as a symlink with the same target (`symlinks=True`),
  and never `chmod`ed (line 94);
* a regular file is copied by `shutil.copy2` (content, mode, mtime) and then
  `chmod`ed with `st_mode | WRITE_PERMISSION` (line 95);
* a directory is recreated by `copytree` itself (`makedirs` + `copystat`),
  which copies the source mode verbatim — `copy_function` is only invoked on
  regular files, so no write bit is forced on directories. -/
def captureNode : Node → Node
  | .file c m t => .file c (m ||| WRITE_PERMISSION) t
  | .dir m => .dir m
  | .symlink t => .symlink t

/-- The entries written by `shutil.copytree(src, dst, ...)`: every node at or
beneath `src`, re-rooted at `dst` and transported by `captureNode`. -/
def captureEntries (fs : FS) (src dst : FPath) : List (FPath × Node) :=
  fs.filterMap (fun e =>
    if hasBase src e.1 then some (dst ++ dropBase src e.1, captureNode e.2) else none)

/-- Denotation of `shutil.copytree(folder_path, dest, copy_function=
copy_with_permissions, symlinks=True)` (cli.py lines 97-102) on the
filesystem state: fails (raises `FileExistsError` from `os.makedirs`) if the
destination already exists, otherwise produces an exact `captureNode`-copy of
the source subtree at `dst`.  (The `removeTree` is vacuous in the success
branch — `dst` has just been checked absent — and only keeps keys unique.) -/
def copytreeFS (fs : FS) (src dst : FPath) : Option FS :=
  if existsAt fs dst then none
  else some (captureEntries fs src dst ++ removeTree fs dst)

/-- Messages printed by the tool (the excluded CLI rendering layer), one
constructor per `print` site that the claims mention. -/
inductive Msg where
  | trackedFolder (p : FPath)
  | trackFailed (p : FPath)
  | folderInvalid (p : FPath)
  | foldersTracked
  | noTrackedReset
  | resetRefuseArgs
  | resetSummary (dirs : Int) (files : Nat) (errors : Nat)
  | listHeader
  | listNone
  | listEntry (p : FPath)
  | undoDone
  | undoNone
deriving DecidableEq, Repr

/-- Result of a `track` call: final filesystem, printed messages, and whether
an uncaught exception escaped (only the two `mkdir` sites outside any
`try:` can raise one: cli.py lines 47 and 86). -/
structure TrackOut where
  fs : FS
  msgs : List Msg
  crashed : Bool
deriving DecidableEq, Repr

/-- One iteration of the `for folder in folders:` loop of `track`
(cli.py lines 70-107), on the posix platform:
* `folder_path.exists() and folder_path.is_dir()` else report and skip;
* (`relative_to(anchor)` cannot raise for an absolute posix path, and the
  posix anchor segment `''` is dropped by `pathlib` joining, so
  `dest = BACKUP_DIR / folder`);
* `dest.parent.mkdir(parents=True, exist_ok=True)` — outside the `try:`, so
  a failure here is an uncaught exception aborting the whole command;
* the `try:`-protected `copytree` — `eCopy folder = true` models an I/O
  failure inside it; on failure report and continue with the next folder. -/
def trackStep (bdir : FPath) (eCopy : FPath → Bool) (s : TrackOut) (folder : FPath) :
    TrackOut :=
  if s.crashed then s
  else if existsAt s.fs folder && isDirAt s.fs folder then
    let dest := bdir ++ folder
    match mkdirAll s.fs dest.dropLast with
    | none => { s with crashed := true }
    | some fs1 =>
      if eCopy folder then
        { fs := fs1, msgs := s.msgs ++ [.trackFailed folder], crashed := false }
      else
        match copytreeFS fs1 folder dest with
        | none => { fs := fs1, msgs := s.msgs ++ [.trackFailed folder], crashed := false }
        | some fs2 =>
          { fs := fs2, msgs := s.msgs ++ [.trackedFolder folder], crashed := false }
  else { s with msgs := s.msgs ++ [.folderInvalid folder] }

/-- `track(folders)` (cli.py lines 60-109): delete any existing backup store,
recreate it empty, then process each folder in order. -/
def track (bdir : FPath) (eCopy : FPath → Bool) (fs : FS) (folders : List FPath) :
    TrackOut :=
  let fs0 := if existsAt fs bdir then removeTree fs bdir else fs
  match mkdirAll fs0 bdir with
  | none => ⟨fs0, [], true⟩
  | some fs1 =>
    let out := folders.foldl (trackStep bdir eCopy) ⟨fs1, [], false⟩
    if out.crashed then out else { out with msgs := out.msgs ++ [.foldersTracked] }

/-- The children of `p` that `is_dir()` accepts, in entry order
(`for x in p.iterdir(): if x.is_dir():`); `is_dir()` follows symlinks, so a
symlink child whose chain resolves to a directory is included. -/
def childrenDirsOf (fs : FS) (p : FPath) : List FPath :=
  fs.filterMap (fun e =>
    if e.1.length = p.length + 1 ∧ hasBase p e.1 ∧ isDirFollow fs e.1 then some e.1 else none)

/-- Every entry strictly beneath `p`, keyed by its path relative to `p`. -/
def strictSubAt (fs : FS) (p : FPath) : List (FPath × Node) :=
  fs.filterMap (fun e =>
    if hasBase p e.1 ∧ p.length < e.1.length then some (dropBase p e.1, e.2) else none)

/-- Ordering used to model `rglob`: by relative-path length (ancestors
strictly first; sibling order is OS-dependent and kept stable). -/
def lenLE (a b : FPath × Node) : Prop := a.1.length ≤ b.1.length

instance : DecidableRel lenLE := fun a b => Nat.decLe a.1.length b.1.length

instance : IsTotal (FPath × Node) lenLE :=
  ⟨fun a b => Nat.le_total a.1.length b.1.length⟩

instance : IsTrans (FPath × Node) lenLE :=
  ⟨fun _ _ _ h h' => Nat.le_trans h h'⟩

/-- `backup_folder_path.rglob('*')` (cli.py line 145): `glob` resolves the
top path itself (so calling it on a symlink-to-directory lists the target's
contents, keyed relative to the given path), then yields the strict subtree
without recursing into symlinked directories, each entry paired with the
node found there at enumeration time, ancestors before descendants. -/
def rglob (fs : FS) (p : FPath) : List (FPath × Node) :=
  match resolveFS fs p with
  | some q => (strictSubAt fs q).insertionSort lenLE
  | none => []

/-- The two-level walk enumerating TrackedRoots (cli.py lines 123-133, posix
branch): for each first-level directory and each of its directory children,
the pair (original root path `Path('/') / anchor-parts`, backup folder path).
On posix the anchor segment is empty, so the original path is exactly the two
segments below the store root. -/
def trackedRoots (bdir : FPath) (fs : FS) : List (FPath × FPath) :=
  ((childrenDirsOf fs bdir).map
    (fun c1 => (childrenDirsOf fs c1).map (fun c2 => (dropBase bdir c2, c2)))).flatten

/-- The `paths_to_reset` list (cli.py lines 142-148): for each tracked root,
each `rglob` entry as a triple `(root_path, original_path, backup_path)`. -/
def resetEnum (bdir : FPath) (fs : FS) : List (FPath × FPath × FPath) :=
  ((trackedRoots bdir fs).map
    (fun rc => (rglob fs rc.2).map (fun e => (rc.1, rc.1 ++ e.1, rc.2 ++ e.1)))).flatten

/-- Insert into a set-as-list if absent (`set.add`). -/
def insertAbsent (x : FPath) (l : List FPath) : List FPath :=
  if x ∈ l then l else l ++ [x]

/-- The `stats` bookkeeping of the enumeration loop (cli.py lines 135-153):
`(directories, root_dirs, files)` where `directories` is the set of original
paths whose backup entry is a non-symlink directory, `root_dirs` the set of
tracked root paths, and `files` the count of file/symlink entries. -/
def resetStats (bdir : FPath) (fs : FS) : List FPath × List FPath × Nat :=
  (trackedRoots bdir fs).foldl
    (fun st rc =>
      let st1 := (st.1, insertAbsent rc.1 st.2.1, st.2.2)
      (rglob fs rc.2).foldl
        (fun st2 e =>
          if nodeIsDir e.2 then (insertAbsent (rc.1 ++ e.1) st2.1, st2.2.1, st2.2.2)
          else (st2.1, st2.2.1, st2.2.2 + 1))
        st1)
    ([], [], 0)

/-- One iteration of the restore loop (cli.py lines 155-181), on the current
state `(filesystem, error count)`:
* skip if the original path is the root itself (line 156);
* if `original_path.exists()` — which *follows* symlinks, so a dangling
  symlink is skipped and survives — remove what is there (`unlink` for a
  file or for any symlink, `rmtree` for a directory); `eRemove` models a
  failure of this `try:` block: count an error and skip the restore step
  (`continue`);
* then recreate from the backup entry: a file via `copy2` after
  `parent.mkdir(parents=True, exist_ok=True)` — `copy2` opens its
  destination *through* any surviving symlink chain, writing the file at the
  resolved tip (the write-through; a resolution cycle is an `OSError`,
  counted), and refuses a directory destination (`IsADirectoryError`,
  counted); a symlink via `os.symlink` of the stored target, which fails on
  any `lstat`-existing destination name (`FileExistsError`, counted);
  anything else, including a vanished backup entry, via
  `mkdir(parents=True, exist_ok=True)`.  `eRestore` models an injected
  failure of this second `try:` block. -/
def resetStep (eRemove eRestore : FPath → Bool) (s : FS × Nat)
    (t : FPath × FPath × FPath) : FS × Nat :=
  if t.2.1 = t.1 then s
  else
    match (if existsFollow s.1 t.2.1 then
             (if eRemove t.2.1 then none
              else some (if isLeafAt s.1 t.2.1 then eraseKey s.1 t.2.1
                         else removeTree s.1 t.2.1))
           else some s.1) with
    | none => (s.1, s.2 + 1)
    | some fs1 =>
      if eRestore t.2.1 then (fs1, s.2 + 1)
      else
        match lookupFS fs1 t.2.2 with
        | some (Node.file c m mt) =>
          match mkdirAll fs1 (t.2.1).dropLast with
          | none => (fs1, s.2 + 1)
          | some fs2 =>
            match resolveFS fs2 t.2.1 with
            | none => (fs2, s.2 + 1)
            | some q =>
              if isDirAt fs2 q then (fs2, s.2 + 1)
              else (setNode fs2 q (Node.file c m mt), s.2)
        | some (Node.symlink tgt) =>
          match mkdirAll fs1 (t.2.1).dropLast with
          | none => (fs1, s.2 + 1)
          | some fs2 =>
            if existsAt fs2 t.2.1 then (fs2, s.2 + 1)
            else (setNode fs2 t.2.1 (Node.symlink tgt), s.2)
        | _ =>
          match mkdirAll fs1 t.2.1 with
          | none => (fs1, s.2 + 1)
          | some fs2 => (fs2, s.2)

/-- The whole restore loop. -/
def resetGo (eRemove eRestore : FPath → Bool) (s : FS × Nat)
    (ts : List (FPath × FPath × FPath)) : FS × Nat :=
  ts.foldl (resetStep eRemove eRestore) s

/-- Result of a `reset`, `list` or `undo` call. -/
structure CmdOut where
  fs : FS
  msgs : List Msg
deriving DecidableEq, Repr

/-- `reset(folders)` (cli.py lines 111-190): refuse if no store exists;
refuse (without touching anything) if folder arguments were supplied;
otherwise enumerate, restore, and report the summary
`len(directories) - len(root_dirs)` directories, `files` files, `errors`
errors. -/
def reset (bdir : FPath) (eRemove eRestore : FPath → Bool) (fs : FS)
    (args : List FPath) : CmdOut :=
  if ¬ existsAt fs bdir then ⟨fs, [.noTrackedReset]⟩
  else if args ≠ [] then ⟨fs, [.resetRefuseArgs]⟩
  else
    ⟨(resetGo eRemove eRestore (fs, 0) (resetEnum bdir fs)).1,
     [.resetSummary
        (((resetStats bdir fs).1.length : Int) -
          ((resetStats bdir fs).2.1.length : Int))
        (resetStats bdir fs).2.2
        (resetGo eRemove eRestore (fs, 0) (resetEnum bdir fs)).2]⟩

/-- `list_tracked_folders()` (cli.py lines 192-208): same two-level walk,
read-only. -/
def listTracked (bdir : FPath) (fs : FS) : CmdOut :=
  if ¬ existsAt fs bdir then ⟨fs, [.listNone]⟩
  else ⟨fs, .listHeader :: (trackedRoots bdir fs).map (fun rc => .listEntry rc.1)⟩

/-- `undo_tracking()` (cli.py lines 210-219). -/
def undoTracking (bdir : FPath) (fs : FS) : CmdOut :=
  if ¬ existsAt fs bdir then ⟨fs, [.undoNone]⟩
  else ⟨removeTree fs bdir, [.undoDone]⟩

/-- The no-failure oracle (no I/O errors injected). -/
def noErr : FPath → Bool := fun _ => false

/-- How a backup node appears at the original location after a successful
restore step: files by `copy2` (content, mode, mtime preserved), symlinks by
`os.symlink` (target preserved), directories by a bare `mkdir` (default
mode — the captured directory mode is *not* restored). -/
def restoreNode : Node → Node
  | .file c m t => .file c m t
  | .dir _ => .dir defaultDirMode
  | .symlink t => .symlink t

/-- Structural agreement of two optional nodes: both absent, or both present
with the same shape — equal bytes for files, equal targets for symlinks,
directory against directory (permission modes and directory metadata are not
part of the structural comparison). -/
def matchNodes : Option Node → Option Node → Prop
  | none, none => True
  | some (.file c _ _), some (.file c' _ _) => c = c'
  | some (.dir _), some (.dir _) => True
  | some (.symlink t), some (.symlink t') => t = t'
  | _, _ => False

instance : ∀ a b, Decidable (matchNodes a b) := by
  intro a b
  unfold matchNodes
  rcases a with _ | a <;> rcases b with _ | b
  · exact isTrue trivial
  · cases b <;> exact isFalse (fun h => h)
  · cases a <;> exact isFalse (fun h => h)
  · cases a <;> cases b <;> first
      | exact isTrue trivial
      | exact isFalse (fun h => h)
      | exact inferInstanceAs (Decidable (_ = _))

/-- The trees rooted at `root` in `fsA` and `fsB` are structurally identical:
same relative paths, same file bytes, same symlink targets, directories
present as directories. -/
def sameTreeAt (fsA fsB : FS) (root : FPath) : Prop :=
  ∀ rel : FPath, matchNodes (lookupFS fsA (root ++ rel)) (lookupFS fsB (root ++ rel))

/-- Well-formedness of a filesystem, as a decidable check: no entry at the
root path, every strict ancestor of an entry is a directory entry, and keys
are unique. -/
def keysNodupB : FS → Bool
  | [] => true
  | e :: rest => !(rest.any (fun f => f.1 = e.1)) && keysNodupB rest

/-- Every strict nonempty ancestor of every entry is a directory. -/
def ancestorsDirB (fs : FS) : Bool :=
  fs.all (fun e => !(e.1 = []) && (strictBases e.1).all (fun q => isDirAt fs q))

/-- Decidable well-formedness: unique keys, no entry at `[]`, ancestors are
directories. -/
def WFb (fs : FS) : Bool := keysNodupB fs && ancestorsDirB fs

/-! ## The PathMapper (cli.py lines 74-85 and 128-132)

An absolute path is modelled structurally: either a posix path (anchor `/`)
or a Windows drive-letter path (anchor `drive + ':\'`).  UNC anchors are
outside the modelled domain. -/

/-- An absolute path on the current platform. -/
inductive AbsPath where
  | posixP (parts : List Seg)
  | winP (drive : String) (parts : List Seg)
deriving DecidableEq, Repr

/-- Which anchor convention a path uses. -/
inductive Platform where
  | posix
  | win
deriving DecidableEq, Repr

/-- The platform of a path. -/
def platformOf : AbsPath → Platform
  | .posixP _ => .posix
  | .winP _ _ => .win

/-- The components below the anchor (`relative_to(anchor)`, cli.py line 74;
this cannot raise for an absolute resolved path). -/
def absParts : AbsPath → List Seg
  | .posixP ps => ps
  | .winP _ ps => ps

/-- `pathlib`'s `anchor` string: `'/'` on posix, `drive + ':\'` on Windows. -/
def anchorString : AbsPath → String
  | .posixP _ => "/"
  | .winP d _ => d ++ ":\\"

/-- Is this character stripped by `anchor.rstrip(':\\')`? -/
def winStripChar (c : Char) : Bool :=
  if c = ':' then true else if c = '\\' then true else false

/-- Is this character stripped by `anchor.rstrip('/')`? -/
def posixStripChar (c : Char) : Bool := if c = '/' then true else false

/-- `str.rstrip` with a character set: drop qualifying trailing characters. -/
def rstripSet (strip : Char → Bool) (s : String) : String :=
  String.mk ((s.data.reverse.dropWhile strip).reverse)

/-- The anchor flattened to a single folder name (cli.py lines 80-83):
`anchor.rstrip(':\\')` on Windows, `anchor.rstrip('/')` on posix. -/
def anchorSegment : AbsPath → String
  | .posixP _ => rstripSet posixStripChar "/"
  | .winP d _ => rstripSet winStripChar (d ++ ":\\")

/-- `toBackupPath` relative to the store root (cli.py line 85,
`BACKUP_DIR / anchor / relative_path`): the flattened anchor segment —
dropped entirely when it is the empty string, as `pathlib` drops empty
components — followed by the parts below the anchor. -/
def toBackupRel (p : AbsPath) : List Seg :=
  (if anchorSegment p = "" then [] else [anchorSegment p]) ++ absParts p

/-- `toOriginalPath` (cli.py lines 128-132 and 203-207): on Windows, read the
first segment under the store root as the drive and re-append `':\'`; on
posix, prepend `/` to all segments.  `none` models the Windows branch being
unreachable with nothing under the store root. -/
def toOriginal : Platform → List Seg → Option AbsPath
  | .posix, segs => some (.posixP segs)
  | .win, [] => none
  | .win, s :: rest => some (.winP s rest)

/-- The modelled domain of legal absolute paths: any posix path; a Windows
path whose drive name is nonempty and contains no `':'` or `'\'` (a drive
letter). -/
def validAbsB : AbsPath → Bool
  | .posixP _ => true
  | .winP d _ => (!(d = "")) && d.data.all (fun c => !(winStripChar c))

/-- `q` is a directory or absent (so `mkdir` can pass through or create it). -/
def dirOrMissingAt (fs : FS) (q : FPath) : Bool :=
  match lookupFS fs q with
  | some n => nodeIsDir n
  | none => true

/-- Mid-restore characterization of the tree under the original root `R0`
while replaying the backup subtree rooted at `br` of the pre-restore
filesystem `fs2`: after the entries with relative keys `P` have been
processed, a relative path is (1) restored if already processed, (2) wiped
if a processed strict ancestor's restore step removed the stale subtree, and
(3) otherwise still as in `fs2`. -/
def midNode (fs2 : FS) (br R0 : FPath) (P : List FPath) (rel : FPath) :
    Option Node :=
  if rel ∈ P then (lookupFS fs2 (br ++ rel)).map restoreNode
  else if ∃ c ∈ P, c ≠ rel ∧ hasBase c rel = true then none
  else lookupFS fs2 (R0 ++ rel)

/-- Characterization of the backup-store contents after `track` has processed
the folders `rs` of the source filesystem `fs0`: relative to the store root,
the empty path is the store directory itself, a path at or beneath a tracked
folder holds the `captureNode`-copy of the corresponding `fs0` entry, a
strict nonempty prefix of a tracked folder is a chain directory created by
`dest.parent.mkdir(parents=True)`, and everything else is absent. -/
def storeNodeVal (fs0 : FS) (rs : List FPath) (c : FPath) : Option Node :=
  if c = [] then some (Node.dir defaultDirMode)
  else if ∃ r ∈ rs, hasBase r c = true then (lookupFS fs0 c).map captureNode
  else if ∃ r ∈ rs, hasBase c r = true ∧ c ≠ r then
    some (Node.dir defaultDirMode)
  else none

/-- Round-trip fixture: a home directory and a two-component project folder
holding one regular file (`a.txt`, bytes "hi") and one symlink to it. -/
def c1fs0 : FS :=
  [ (["home"], Node.dir 493),
    (["data"], Node.dir 493),
    (["data", "proj"], Node.dir 493),
    (["data", "proj", "a.txt"], Node.file [104, 105] 420 7),
    (["data", "proj", "link"], Node.symlink "a.txt") ]

/-- Round-trip fixture after tracking `/data/proj` and then mutating the file
`a.txt` beneath the tracked root (bytes "bye", new mtime). -/
def c1fs2 : FS :=
  setNode (track ["home", ".foam_backup"] noErr c1fs0 [["data", "proj"]]).fs
    ["data", "proj", "a.txt"] (Node.file [98, 121, 101] 420 9)

/-! ## Path algebra -/

theorem hasBase_refl (p : FPath) : hasBase p p = true := by
  induction p with
  | nil => rfl
  | cons s rest ih => simp [hasBase, ih]

theorem hasBase_append (b t : FPath) : hasBase b (b ++ t) = true := by
  induction b with
  | nil => rfl
  | cons s rest ih => simp [hasBase, ih]

theorem dropBase_append (b t : FPath) : dropBase b (b ++ t) = t := by
  induction b with
  | nil => rfl
  | cons s rest ih => simpa [dropBase] using ih

theorem append_dropBase {b p : FPath} (h : hasBase b p = true) :
    b ++ dropBase b p = p := by
  induction b generalizing p with
  | nil => rfl
  | cons s rest ih =>
    cases p with
    | nil => simp [hasBase] at h
    | cons x xs =>
      by_cases hx : s = x
      · subst hx
        simp [hasBase] at h
        simpa [dropBase] using ih h
      · simp [hasBase, hx] at h

theorem hasBase_iff (b p : FPath) : hasBase b p = true ↔ ∃ t, p = b ++ t := by
  constructor
  · intro h
    exact ⟨dropBase b p, (append_dropBase h).symm⟩
  · rintro ⟨t, rfl⟩
    exact hasBase_append b t

theorem hasBase_length {b p : FPath} (h : hasBase b p = true) :
    b.length ≤ p.length := by
  rcases (hasBase_iff b p).1 h with ⟨t, rfl⟩
  simp

theorem hasBase_antisymm {a b : FPath} (h1 : hasBase a b = true)
    (h2 : hasBase b a = true) : a = b := by
  rcases (hasBase_iff a b).1 h1 with ⟨t, rfl⟩
  have := hasBase_length h2
  simp at this
  simp [this]

theorem hasBase_trans {a b c : FPath} (h1 : hasBase a b = true)
    (h2 : hasBase b c = true) : hasBase a c = true := by
  rcases (hasBase_iff a b).1 h1 with ⟨t, rfl⟩
  rcases (hasBase_iff _ c).1 h2 with ⟨u, rfl⟩
  simpa [List.append_assoc] using hasBase_append a (t ++ u)

theorem hasBase_of_append_base {a b p : FPath}
    (h : hasBase (a ++ b) p = true) : hasBase a p = true := by
  rcases (hasBase_iff _ p).1 h with ⟨t, rfl⟩
  simpa [List.append_assoc] using hasBase_append a (b ++ t)

theorem hasBase_append_iff (a b q : FPath) :
    hasBase (a ++ b) q = true ↔
      hasBase a q = true ∧ hasBase b (dropBase a q) = true := by
  constructor
  · intro h
    rcases (hasBase_iff _ q).1 h with ⟨t, rfl⟩
    refine ⟨hasBase_of_append_base h, ?_⟩
    rw [List.append_assoc, dropBase_append]
    exact hasBase_append b t
  · rintro ⟨h1, h2⟩
    rcases (hasBase_iff a q).1 h1 with ⟨t, rfl⟩
    rw [dropBase_append] at h2
    rcases (hasBase_iff b t).1 h2 with ⟨u, rfl⟩
    rw [← List.append_assoc]
    exact hasBase_append (a ++ b) u

/-- Two bases of the same path are comparable. -/
theorem hasBase_comparable {a b p : FPath} (ha : hasBase a p = true)
    (hb : hasBase b p = true) : hasBase a b = true ∨ hasBase b a = true := by
  induction a generalizing b p with
  | nil => exact Or.inl rfl
  | cons s as ih =>
    cases b with
    | nil => exact Or.inr rfl
    | cons x bs =>
      cases p with
      | nil => simp [hasBase] at ha
      | cons y ps =>
        by_cases hs : s = y
        · subst hs
          simp [hasBase] at ha
          by_cases hx : x = s
          · subst hx
            simp [hasBase] at hb
            rcases ih ha hb with h | h
            · exact Or.inl (by simp [hasBase, h])
            · exact Or.inr (by simp [hasBase, h])
          · simp [hasBase, hx] at hb
        · simp [hasBase, hs] at ha

theorem not_hasBase_nil {s : Seg} {t : FPath} : hasBase (s :: t) [] = false := rfl

theorem hasBase_nil_iff (p : FPath) : hasBase p [] = true ↔ p = [] := by
  cases p with
  | nil => simp [hasBase]
  | cons s t => simp [hasBase]

/-! ## Lookup and the basic operations -/

theorem lookupFS_nil (p : FPath) : lookupFS [] p = none := rfl

theorem lookupFS_cons (e : FPath × Node) (rest : FS) (p : FPath) :
    lookupFS (e :: rest) p = if e.1 = p then some e.2 else lookupFS rest p := rfl

theorem lookupFS_append (a b : FS) (p : FPath) :
    lookupFS (a ++ b) p = ((lookupFS a p).orElse (fun _ => lookupFS b p)) := by
  induction a with
  | nil => simp [lookupFS]
  | cons e rest ih =>
    by_cases h : e.1 = p <;> simp [lookupFS, h, ih, Option.orElse]

theorem lookupFS_eraseKey (fs : FS) (p q : FPath) :
    lookupFS (eraseKey fs p) q = if q = p then none else lookupFS fs q := by
  induction fs with
  | nil => simp [eraseKey, lookupFS]
  | cons e rest ih =>
    simp only [eraseKey]
    by_cases h : e.1 = p
    · rw [if_pos h, ih]
      by_cases h' : q = p
      · simp [h']
      · have hne : ¬ e.1 = q := by
          rw [h]; exact fun hq => h' hq.symm
        simp [h', lookupFS, hne]
    · rw [if_neg h]
      by_cases h'' : e.1 = q
      · have hqp : ¬ q = p := fun hq => h (h''.trans hq)
        simp [lookupFS, h'', hqp]
      · simp [lookupFS, h'', ih]

theorem lookupFS_removeTree (fs : FS) (b q : FPath) :
    lookupFS (removeTree fs b) q =
      if hasBase b q = true then none else lookupFS fs q := by
  induction fs with
  | nil => simp [removeTree, lookupFS]
  | cons e rest ih =>
    by_cases h : hasBase b e.1 = true
    · by_cases h' : hasBase b q = true <;>
        by_cases h'' : e.1 = q <;>
          simp_all [removeTree, lookupFS]
    · by_cases h'' : e.1 = q
      · subst h''
        simp [removeTree, lookupFS, h]
      · simp [removeTree, lookupFS, h, h'', ih]

theorem lookupFS_setNode (fs : FS) (p : FPath) (n : Node) (q : FPath) :
    lookupFS (setNode fs p n) q = if q = p then some n else lookupFS fs q := by
  by_cases h : q = p
  · simp [setNode, lookupFS, h]
  · have hpq : ¬ p = q := fun hq => h hq.symm
    simp [setNode, lookupFS, hpq, lookupFS_eraseKey, h]

theorem existsAt_iff (fs : FS) (p : FPath) :
    existsAt fs p = true ↔ ∃ n, lookupFS fs p = some n := by
  unfold existsAt
  cases lookupFS fs p <;> simp

theorem append_ne_self {p t : FPath} (h : t ≠ []) : p ++ t ≠ p := by
  intro he
  have : (p ++ t).length = p.length := by rw [he]
  simp at this
  exact h this

theorem isDirAt_of_ne_nil (fs : FS) {p : FPath} (h : p ≠ []) :
    isDirAt fs p =
      (match lookupFS fs p with
       | some n => nodeIsDir n
       | none => false) := by
  cases p with
  | nil => exact absurd rfl h
  | cons s t => rfl

/-! ## Symlink resolution: bridges to the structural predicates -/

theorem resolveTip_not_symlink {fs : FS} {p : FPath}
    (h : ∀ t, lookupFS fs p ≠ some (Node.symlink t)) (fuel : Nat) :
    resolveTip fs (fuel + 1) p = some p := by
  unfold resolveTip
  split
  · rename_i t ht
    exact absurd ht (h t)
  · rfl

theorem resolveTip_symlink {fs : FS} {p : FPath} {t : String}
    (h : lookupFS fs p = some (Node.symlink t)) (fuel : Nat) :
    resolveTip fs (fuel + 1) p = resolveTip fs fuel (p.dropLast ++ [t]) := by
  have he : resolveTip fs (fuel + 1) p =
      (match lookupFS fs p with
       | some (Node.symlink t') => resolveTip fs fuel (p.dropLast ++ [t'])
       | _ => some p) := rfl
  rw [he, h]

theorem resolveFS_not_symlink {fs : FS} {p : FPath}
    (h : ∀ t, lookupFS fs p ≠ some (Node.symlink t)) :
    resolveFS fs p = some p :=
  resolveTip_not_symlink h fs.length

theorem existsFollow_not_symlink {fs : FS} {p : FPath}
    (h : ∀ t, lookupFS fs p ≠ some (Node.symlink t)) :
    existsFollow fs p = existsAt fs p := by
  unfold existsFollow
  rw [resolveFS_not_symlink h]

theorem isDirFollow_not_symlink {fs : FS} {p : FPath}
    (h : ∀ t, lookupFS fs p ≠ some (Node.symlink t)) :
    isDirFollow fs p = isDirAt fs p := by
  unfold isDirFollow
  rw [resolveFS_not_symlink h]

theorem existsFollow_none {fs : FS} {p : FPath} (h : lookupFS fs p = none) :
    existsFollow fs p = false := by
  rw [existsFollow_not_symlink (fun t ht => by
    rw [h] at ht
    exact Option.noConfusion ht)]
  unfold existsAt
  rw [h]
  rfl

theorem existsFollow_some_nonlink {fs : FS} {p : FPath} {n : Node}
    (h : lookupFS fs p = some n) (hn : nodeIsSymlink n = false) :
    existsFollow fs p = true := by
  rw [existsFollow_not_symlink (fun t ht => by
    rw [h] at ht
    cases Option.some.inj ht
    exact Bool.noConfusion hn)]
  unfold existsAt
  rw [h]
  rfl

theorem isDirFollow_dir {fs : FS} {p : FPath} {m : Nat}
    (h : lookupFS fs p = some (Node.dir m)) : isDirFollow fs p = true := by
  rw [isDirFollow_not_symlink (fun t ht => by
    rw [h] at ht
    exact Node.noConfusion (Option.some.inj ht))]
  cases p with
  | nil => rfl
  | cons s rest =>
    show (match lookupFS fs (s :: rest) with
      | some n => nodeIsDir n
      | none => false) = true
    rw [h]
    rfl

/-- One-hop resolution: a symlink whose (sibling-interpreted) target holds a
non-symlink node exists in the `Path.exists()` sense. -/
theorem existsFollow_link {fs : FS} {p : FPath} {t : String} {n : Node}
    (hp : lookupFS fs p = some (Node.symlink t))
    (hs : lookupFS fs (p.dropLast ++ [t]) = some n)
    (hn : nodeIsSymlink n = false) :
    existsFollow fs p = true := by
  unfold existsFollow resolveFS
  have hlen : fs.length ≠ 0 := by
    intro hc
    rw [List.length_eq_zero] at hc
    rw [hc] at hp
    exact Option.noConfusion hp
  obtain ⟨k, hk⟩ : ∃ k, fs.length = k + 1 := ⟨fs.length - 1, by omega⟩
  rw [hk]
  rw [resolveTip_symlink hp (k + 1)]
  rw [resolveTip_not_symlink (fun t' ht' => by
    rw [hs] at ht'
    cases Option.some.inj ht'
    exact Bool.noConfusion hn) k]
  show (lookupFS fs (p.dropLast ++ [t])).isSome = true
  rw [hs]
  rfl

/-! ## `mkdirAll` characterization -/

theorem mkdirAllAux_noop (fs : FS) (base : FPath) (segs : List Seg)
    (h : ∀ t, t ≠ [] → hasBase t segs = true → isDirAt fs (base ++ t) = true) :
    mkdirAllAux fs base segs = some fs := by
  induction segs generalizing base with
  | nil => rfl
  | cons s rest ih =>
    have hs : isDirAt fs (base ++ [s]) = true :=
      h [s] (by simp) (by simp [hasBase])
    rw [isDirAt_of_ne_nil fs (by simp)] at hs
    rcases hl : lookupFS fs (base ++ [s]) with _ | n
    · rw [hl] at hs; exact absurd hs (by simp)
    · rw [hl] at hs
      cases n with
      | dir m =>
        show mkdirAllAux fs base (s :: rest) = some fs
        simp only [mkdirAllAux, hl]
        exact ih (base ++ [s]) (fun t ht hb => by
          rw [List.append_assoc]
          exact h (s :: t) (by simp) (by simpa [hasBase] using hb))
      | file c m mt => simp [nodeIsDir] at hs
      | symlink tgt => simp [nodeIsDir] at hs

theorem mkdirAllAux_isSome (fs : FS) (base : FPath) (segs : List Seg)
    (h : ∀ t, t ≠ [] → hasBase t segs = true → dirOrMissingAt fs (base ++ t) = true) :
    (mkdirAllAux fs base segs).isSome = true := by
  induction segs generalizing fs base with
  | nil => rfl
  | cons s rest ih =>
    have hs : dirOrMissingAt fs (base ++ [s]) = true :=
      h [s] (by simp) (by simp [hasBase])
    unfold dirOrMissingAt at hs
    show (mkdirAllAux fs base (s :: rest)).isSome = true
    rcases hl : lookupFS fs (base ++ [s]) with _ | n
    · simp only [mkdirAllAux, hl]
      exact ih (setNode fs (base ++ [s]) (Node.dir defaultDirMode)) (base ++ [s])
        (fun t ht hb => by
          unfold dirOrMissingAt
          rw [lookupFS_setNode]
          rw [if_neg (append_ne_self ht)]
          have := h (s :: t) (by simp) (by simpa [hasBase] using hb)
          unfold dirOrMissingAt at this
          rw [List.append_assoc]
          exact this)
    · rw [hl] at hs
      cases n with
      | dir m =>
        simp only [mkdirAllAux, hl]
        exact ih fs (base ++ [s]) (fun t ht hb => by
          have := h (s :: t) (by simp) (by simpa [hasBase] using hb)
          rw [List.append_assoc]
          exact this)
      | file c m mt => simp [nodeIsDir] at hs
      | symlink tgt => simp [nodeIsDir] at hs

/-- `q` is one of the directories that `mkdirAllAux fs base segs` walks:
`q = base ++ t` for a nonempty initial segment `t` of `segs`. -/
def walkedBy (base : FPath) (segs : List Seg) (q : FPath) : Prop :=
  hasBase base q = true ∧ dropBase base q ≠ [] ∧ hasBase (dropBase base q) segs = true

instance (base : FPath) (segs : List Seg) (q : FPath) :
    Decidable (walkedBy base segs q) := by
  unfold walkedBy; infer_instance

theorem walkedBy_append (base : FPath) (segs : List Seg) {t : FPath}
    (ht : t ≠ []) (hb : hasBase t segs = true) : walkedBy base segs (base ++ t) := by
  refine ⟨hasBase_append base t, ?_, ?_⟩ <;> rw [dropBase_append] <;> assumption

theorem walkedBy_shift {base : FPath} {s : Seg} {rest : List Seg} {q : FPath}
    (hq : q ≠ base ++ [s]) :
    walkedBy base (s :: rest) q ↔ walkedBy (base ++ [s]) rest q := by
  constructor
  · rintro ⟨h1, h2, h3⟩
    rcases (hasBase_iff base q).1 h1 with ⟨t, rfl⟩
    rw [dropBase_append] at h2 h3
    cases t with
    | nil => exact absurd rfl h2
    | cons x t' =>
      have hx : x = s := by
        by_cases hxs : x = s
        · exact hxs
        · simp [hasBase, hxs] at h3
      subst hx
      rw [hasBase] at h3
      simp at h3
      have ht' : t' ≠ [] := by
        rintro rfl
        exact hq (by simp)
      refine ⟨?_, ?_, ?_⟩
      · rw [show base ++ x :: t' = (base ++ [x]) ++ t' by simp]
        exact hasBase_append _ _
      · rw [show base ++ x :: t' = (base ++ [x]) ++ t' by simp, dropBase_append]
        exact ht'
      · rw [show base ++ x :: t' = (base ++ [x]) ++ t' by simp, dropBase_append]
        exact h3
  · rintro ⟨h1, h2, h3⟩
    rcases (hasBase_iff _ q).1 h1 with ⟨t, rfl⟩
    rw [dropBase_append] at h2 h3
    rw [List.append_assoc]
    refine ⟨hasBase_append _ _, ?_, ?_⟩ <;> rw [dropBase_append]
    · simp
    · show hasBase (s :: t) (s :: rest) = true
      simpa [hasBase] using h3

theorem mkdirAllAux_lookup {fs fs' : FS} {base : FPath} {segs : List Seg}
    (h : mkdirAllAux fs base segs = some fs') (q : FPath) :
    lookupFS fs' q =
      match lookupFS fs q with
      | some n => some n
      | none =>
        if walkedBy base segs q then some (Node.dir defaultDirMode) else none := by
  induction segs generalizing fs base with
  | nil =>
    cases h
    rcases hl : lookupFS fs' q with _ | n
    · simp only [hl]
      rw [if_neg]
      rintro ⟨h1, h2, h3⟩
      exact h2 ((hasBase_nil_iff _).1 h3)
    · simp [hl]
  | cons s rest ih =>
    rcases hl : lookupFS fs (base ++ [s]) with _ | n <;>
      simp only [mkdirAllAux, hl] at h
    · -- created here
      have := ih h
      rw [lookupFS_setNode] at this
      by_cases hq : q = base ++ [s]
      · subst hq
        rw [if_pos rfl] at this
        rw [this, hl]
        rw [if_pos (walkedBy_append base (s :: rest) (by simp) (by simp [hasBase]))]
      · rw [if_neg hq] at this
        rw [this]
        rcases lookupFS fs q with _ | n'
        · simp only [walkedBy_shift hq]
        · rfl
    · cases n with
      | dir m =>
        have := ih h
        rw [this]
        rcases hlq : lookupFS fs q with _ | n'
        · have hq : q ≠ base ++ [s] := by
            rintro rfl
            rw [hl] at hlq
            exact Option.noConfusion hlq
          simp only [walkedBy_shift hq]
        · rfl
      | file c m mt => exact Option.noConfusion h
      | symlink tgt => exact Option.noConfusion h

theorem mkdirAll_lookup {fs fs' : FS} {p : FPath}
    (h : mkdirAll fs p = some fs') (q : FPath) :
    lookupFS fs' q =
      match lookupFS fs q with
      | some n => some n
      | none =>
        if q ≠ [] ∧ hasBase q p = true then some (Node.dir defaultDirMode)
        else none := by
  have := mkdirAllAux_lookup h q
  rw [this]
  rcases lookupFS fs q with _ | n
  · show (if walkedBy [] p q then _ else _) = _
    unfold walkedBy
    simp [hasBase, dropBase]
  · rfl

theorem mkdirAll_noop (fs : FS) (p : FPath)
    (h : ∀ q, q ≠ [] → hasBase q p = true → isDirAt fs q = true) :
    mkdirAll fs p = some fs :=
  mkdirAllAux_noop fs [] p (fun t ht hb => by simpa using h t ht hb)

theorem mkdirAll_isSome (fs : FS) (p : FPath)
    (h : ∀ q, q ≠ [] → hasBase q p = true → dirOrMissingAt fs q = true) :
    (mkdirAll fs p).isSome = true :=
  mkdirAllAux_isSome fs [] p (fun t ht hb => by simpa using h t ht hb)

/-! ## `copytree` characterization -/

theorem lookupFS_captureEntries_under (fs : FS) (src dst : FPath) (rel : FPath) :
    lookupFS (captureEntries fs src dst) (dst ++ rel) =
      (lookupFS fs (src ++ rel)).map captureNode := by
  induction fs with
  | nil => simp [captureEntries, lookupFS]
  | cons e rest ih =>
    simp only [captureEntries, List.filterMap_cons] at ih ⊢
    by_cases h : hasBase src e.1 = true
    · rw [if_pos h]
      rcases (hasBase_iff src e.1).1 h with ⟨t, he⟩
      have hd : dropBase src e.1 = t := by rw [he, dropBase_append]
      by_cases ht : t = rel
      · subst ht
        rw [lookupFS_cons, lookupFS_cons]
        rw [if_pos (show dst ++ dropBase src e.1 = dst ++ t by rw [hd])]
        rw [if_pos he]
        rfl
      · have hk : ¬ (dst ++ dropBase src e.1 = dst ++ rel) := by
          rw [hd]
          intro hc
          exact ht (List.append_cancel_left hc)
        have he' : ¬ (e.1 = src ++ rel) := by
          rw [he]
          intro hc
          exact ht (List.append_cancel_left hc)
        rw [lookupFS_cons, lookupFS_cons, if_neg hk, if_neg he']
        exact ih
    · rw [if_neg h]
      have he' : ¬ (e.1 = src ++ rel) := fun hc => h (hc ▸ hasBase_append src rel)
      rw [lookupFS_cons, if_neg he']
      exact ih

theorem lookupFS_captureEntries_out (fs : FS) (src dst : FPath) {q : FPath}
    (hq : ¬ hasBase dst q = true) :
    lookupFS (captureEntries fs src dst) q = none := by
  induction fs with
  | nil => rfl
  | cons e rest ih =>
    simp only [captureEntries, List.filterMap_cons]
    by_cases h : hasBase src e.1 = true
    · rw [if_pos h]
      have : ¬ (dst ++ dropBase src e.1 = q) := by
        intro hc
        exact hq (hc ▸ hasBase_append dst _)
      simpa [lookupFS, this] using ih
    · rw [if_neg h]
      exact ih

theorem copytreeFS_lookup_under {fs fs' : FS} {src dst : FPath}
    (h : copytreeFS fs src dst = some fs') (rel : FPath) :
    lookupFS fs' (dst ++ rel) = (lookupFS fs (src ++ rel)).map captureNode := by
  unfold copytreeFS at h
  by_cases he : existsAt fs dst = true
  · rw [if_pos he] at h
    exact Option.noConfusion h
  · rw [if_neg he] at h
    cases h
    rw [lookupFS_append, lookupFS_captureEntries_under]
    rcases hl : lookupFS fs (src ++ rel) with _ | n
    · rw [lookupFS_removeTree, if_pos (hasBase_append dst rel)]
      rfl
    · rfl

theorem copytreeFS_lookup_out {fs fs' : FS} {src dst : FPath}
    (h : copytreeFS fs src dst = some fs') {q : FPath}
    (hq : ¬ hasBase dst q = true) : lookupFS fs' q = lookupFS fs q := by
  unfold copytreeFS at h
  by_cases he : existsAt fs dst = true
  · rw [if_pos he] at h
    exact Option.noConfusion h
  · rw [if_neg he] at h
    cases h
    rw [lookupFS_append, lookupFS_captureEntries_out fs src dst hq]
    rw [lookupFS_removeTree, if_neg hq]
    simp [Option.orElse]

/-! ## More path helpers -/

theorem hasBase_eq_of_length {a b : FPath} (h : hasBase a b = true)
    (hl : a.length = b.length) : a = b := by
  rcases (hasBase_iff a b).1 h with ⟨t, rfl⟩
  simp at hl
  simp [hl]

theorem exists_dropLast_append (r : FPath) (h : r ≠ []) :
    ∃ s : Seg, r = r.dropLast ++ [s] :=
  ⟨r.getLast h, (List.dropLast_append_getLast h).symm⟩

theorem hasBase_dropLast (r : FPath) : hasBase r.dropLast r = true := by
  cases r with
  | nil => rfl
  | cons b l =>
    rcases exists_dropLast_append (b :: l) (by simp) with ⟨s, hs⟩
    set dl := (b :: l).dropLast with hdl
    rw [hs]
    exact hasBase_append _ _

theorem hasBase_dropLast_of_ne {c r : FPath} (hc : hasBase c r = true)
    (hne : c ≠ r) : hasBase c r.dropLast = true := by
  have hlt : c.length < r.length := by
    rcases Nat.lt_or_ge c.length r.length with h | h
    · exact h
    · exact absurd (hasBase_eq_of_length hc (Nat.le_antisymm (hasBase_length hc) h)) hne
  rcases hasBase_comparable hc (hasBase_dropLast r) with h | h
  · exact h
  · have h1 : r.dropLast.length ≤ c.length := hasBase_length h
    have h2 : r.dropLast.length = r.length - 1 := List.length_dropLast r
    have : c = r.dropLast := (hasBase_eq_of_length h (by omega)).symm
    rw [this]
    exact hasBase_refl _

theorem ne_nil_of_hasBase {b q : FPath} (h : hasBase b q = true) (hb : b ≠ []) :
    q ≠ [] := by
  rintro rfl
  exact hb ((hasBase_nil_iff b).1 h)

theorem hasBase_append_same_iff (a c d : FPath) :
    hasBase (a ++ c) (a ++ d) = true ↔ hasBase c d = true := by
  rw [hasBase_append_iff, dropBase_append]
  simp [hasBase_append a d]

theorem not_hasBase_of_length_lt {b q : FPath} (h : q.length < b.length) :
    hasBase b q = false := by
  rcases hb : hasBase b q with _ | _
  · rfl
  · exact absurd (hasBase_length hb) (by omega)

theorem dropLast_append_left {b r : FPath} (h : r ≠ []) :
    (b ++ r).dropLast = b ++ r.dropLast := by
  cases r with
  | nil => exact absurd rfl h
  | cons x xs => exact List.dropLast_append_cons

theorem nodeIsSymlink_restore (n : Node) :
    nodeIsSymlink (restoreNode n) = nodeIsSymlink n := by
  cases n <;> rfl

theorem hasBase_take (l : FPath) (n : Nat) : hasBase (l.take n) l = true :=
  (hasBase_iff _ l).2 ⟨l.drop n, (List.take_append_drop n l).symm⟩

theorem take_eq_of_hasBase {t r : FPath} (h : hasBase t r = true) :
    t = r.take t.length := by
  rcases (hasBase_iff t r).1 h with ⟨u, rfl⟩
  rw [List.take_left]

theorem take_length_eq {l : FPath} {n : Nat} (h : n ≤ l.length) :
    (l.take n).length = n := by
  rw [List.length_take]
  exact Nat.min_eq_left h

/-! ## `track` on a single valid folder: full characterization -/

theorem trackOne_char (fs : FS) (bdir r : FPath)
    (hbne : bdir ≠ []) (hrne : r ≠ [])
    (hAncB : ∀ q, q ≠ [] → hasBase q bdir = true → q ≠ bdir → isDirAt fs q = true)
    (hrdir : ∃ m, lookupFS fs r = some (Node.dir m))
    (hd1 : hasBase bdir r = false) (hd2 : hasBase r bdir = false)
    (hNoOrphan : existsAt fs bdir = false →
      ∀ q, hasBase bdir q = true → lookupFS fs q = none) :
    (track bdir noErr fs [r]).crashed = false ∧
    (track bdir noErr fs [r]).msgs = [.trackedFolder r, .foldersTracked] ∧
    (∀ rel, lookupFS (track bdir noErr fs [r]).fs (bdir ++ r ++ rel) =
      (lookupFS fs (r ++ rel)).map captureNode) ∧
    (∀ q, hasBase bdir q = true → hasBase (bdir ++ r) q = false →
      lookupFS (track bdir noErr fs [r]).fs q =
        if q = bdir ∨ (dropBase bdir q ≠ [] ∧ hasBase (dropBase bdir q) r = true)
        then some (Node.dir defaultDirMode) else none) ∧
    (∀ p, hasBase bdir p = false →
      lookupFS (track bdir noErr fs [r]).fs p = lookupFS fs p) := by
  -- the state after deleting any existing store
  have hfs0 : ∀ q, lookupFS (if existsAt fs bdir then removeTree fs bdir else fs) q =
      (if hasBase bdir q = true then none else lookupFS fs q) := by
    intro q
    by_cases he : existsAt fs bdir
    · rw [if_pos he]
      exact lookupFS_removeTree fs bdir q
    · rw [if_neg he]
      by_cases hb : hasBase bdir q = true
      · rw [if_pos hb]
        exact hNoOrphan (by simpa using he) q hb
      · rw [if_neg hb]
  -- `ensure_backup_dir` succeeds
  have hEsome : (mkdirAll (if existsAt fs bdir then removeTree fs bdir else fs) bdir).isSome
      = true := by
    apply mkdirAll_isSome
    intro q hq hqb
    unfold dirOrMissingAt
    rw [hfs0 q]
    by_cases hbq : hasBase bdir q = true
    · rw [if_pos hbq]
    · rw [if_neg hbq]
      by_cases hqeq : q = bdir
      · subst hqeq
        exact absurd (hasBase_refl q) (by simpa using hbq)
      · have := hAncB q hq hqb hqeq
        rw [isDirAt_of_ne_nil fs hq] at this
        rcases hl : lookupFS fs q with _ | n
        · rfl
        · rw [hl] at this
          exact this
  rcases Option.isSome_iff_exists.1 hEsome with ⟨fsE, hE⟩
  -- lookups in the freshly created store state
  have hEq : ∀ q, lookupFS fsE q =
      match (if hasBase bdir q = true then none else lookupFS fs q) with
      | some n => some n
      | none => if q ≠ [] ∧ hasBase q bdir = true then some (Node.dir defaultDirMode)
                else none := by
    intro q
    rw [mkdirAll_lookup hE q, hfs0 q]
  have hEbdir : lookupFS fsE bdir = some (Node.dir defaultDirMode) := by
    rw [hEq bdir]
    simp [hasBase_refl, hbne]
  have hEout : ∀ p, hasBase bdir p = false → lookupFS fsE p = lookupFS fs p := by
    intro p hp
    rw [hEq p]
    rw [if_neg (by simp [hp])]
    rcases hl : lookupFS fs p with _ | n
    · rw [if_neg]
      rintro ⟨hne, hpb⟩
      by_cases hpeq : p = bdir
      · subst hpeq
        simp [hasBase_refl] at hp
      · have := hAncB p hne hpb hpeq
        rw [isDirAt_of_ne_nil fs hne, hl] at this
        exact absurd this (by simp)
    · rfl
  have hEr : lookupFS fsE r = lookupFS fs r := hEout r hd1
  -- the folder is seen to exist and be a directory
  rcases hrdir with ⟨rm, hrm⟩
  have hcond : (existsAt fsE r && isDirAt fsE r) = true := by
    rw [Bool.and_eq_true]
    constructor
    · rw [existsAt_iff]
      exact ⟨_, hEr.trans hrm⟩
    · rw [isDirAt_of_ne_nil fsE hrne, hEr, hrm]
      rfl
  -- the parent-directory creation for `dest` succeeds
  have hdl : (bdir ++ r).dropLast = bdir ++ r.dropLast := by
    cases r with
    | nil => exact absurd rfl hrne
    | cons b l => exact List.dropLast_append_cons
  have hPsome : (mkdirAll fsE (bdir ++ r).dropLast).isSome = true := by
    rw [hdl]
    apply mkdirAll_isSome
    intro q hq hqb
    have hcmp := hasBase_comparable hqb (hasBase_append bdir r.dropLast)
    unfold dirOrMissingAt
    rcases hcmp with hqbd | hbdq
    · -- q is the store root or one of its ancestors
      by_cases hqeq : q = bdir
      · subst hqeq
        rw [hEbdir]
        rfl
      · rw [hEout q (by
          rcases hb : hasBase bdir q with _ | _
          · rfl
          · exact absurd (hasBase_antisymm hqbd hb) hqeq)]
        have := hAncB q hq hqbd hqeq
        rw [isDirAt_of_ne_nil fs hq] at this
        rcases hl : lookupFS fs q with _ | n
        · rfl
        · rw [hl] at this
          exact this
    · -- q is beneath the store root: missing
      by_cases hqeq : q = bdir
      · subst hqeq
        rw [hEbdir]
        rfl
      · rw [hEq q, if_pos hbdq]
        rw [if_neg (by
          rintro ⟨-, hqb2⟩
          exact hqeq (hasBase_antisymm hqb2 hbdq))]
  rcases Option.isSome_iff_exists.1 hPsome with ⟨fsP, hP⟩
  have hPq : ∀ q, lookupFS fsP q =
      match lookupFS fsE q with
      | some n => some n
      | none => if q ≠ [] ∧ hasBase q (bdir ++ r.dropLast) = true
                then some (Node.dir defaultDirMode) else none := by
    intro q
    have hP' : mkdirAll fsE (bdir ++ r).dropLast = some fsP := hP
    rw [hdl] at hP'
    exact mkdirAll_lookup hP' q
  -- paths not under the store are untouched by the parent creation
  have hPout : ∀ p, hasBase bdir p = false → lookupFS fsP p = lookupFS fs p := by
    intro p hp
    rw [hPq p, hEout p hp]
    rcases hl : lookupFS fs p with _ | n
    · rw [if_neg]
      rintro ⟨hne, hpb⟩
      rcases hasBase_comparable hpb (hasBase_append bdir r.dropLast) with h | h
      · by_cases hpeq : p = bdir
        · subst hpeq
          simp [hasBase_refl] at hp
        · have := hAncB p hne h hpeq
          rw [isDirAt_of_ne_nil fs hne, hl] at this
          exact absurd this (by simp)
      · rw [h] at hp
        exact absurd hp (by simp)
    · rfl
  -- the copy destination is absent
  have hdest : existsAt fsP (bdir ++ r) = false := by
    rcases hex : existsAt fsP (bdir ++ r) with _ | _
    · rfl
    · exfalso
      rcases (existsAt_iff _ _).1 hex with ⟨n, hn⟩
      rw [hPq _] at hn
      have hEdest : lookupFS fsE (bdir ++ r) = none := by
        rw [hEq _, if_pos (hasBase_append bdir r)]
        rw [if_neg (by
          rintro ⟨-, hqb⟩
          have hlen := hasBase_length hqb
          rw [List.length_append] at hlen
          have hr0 : r.length = 0 := by omega
          exact hrne (List.eq_nil_of_length_eq_zero hr0))]
      rw [hEdest] at hn
      rw [if_neg (by
        rintro ⟨-, hqb⟩
        rw [hasBase_append_same_iff] at hqb
        have := hasBase_length hqb
        have h2 : r.dropLast.length = r.length - 1 := List.length_dropLast r
        have h3 : 0 < r.length := List.length_pos.2 hrne
        omega)] at hn
      exact Option.noConfusion hn
  -- the copytree result
  have hC : copytreeFS fsP r (bdir ++ r) =
      some (captureEntries fsP r (bdir ++ r) ++ removeTree fsP (bdir ++ r)) := by
    unfold copytreeFS
    rw [hdest]
    rfl
  -- the whole `track` computation
  have hstep : trackStep bdir noErr ⟨fsE, [], false⟩ r =
      ⟨captureEntries fsP r (bdir ++ r) ++ removeTree fsP (bdir ++ r),
       [Msg.trackedFolder r], false⟩ := by
    unfold trackStep
    rw [if_neg (by simp)]
    rw [if_pos hcond]
    simp [hP, hC, noErr]
  have hT : track bdir noErr fs [r] =
      ⟨captureEntries fsP r (bdir ++ r) ++ removeTree fsP (bdir ++ r),
       [.trackedFolder r, .foldersTracked], false⟩ := by
    unfold track
    simp [hE, List.foldl_cons, List.foldl_nil, hstep]
  refine ⟨by rw [hT], by rw [hT], ?_, ?_, ?_⟩
  · -- the captured subtree
    intro rel
    rw [hT]
    show lookupFS (captureEntries fsP r (bdir ++ r) ++ removeTree fsP (bdir ++ r))
        (bdir ++ r ++ rel) = _
    rw [lookupFS_append, lookupFS_captureEntries_under]
    have hout : hasBase bdir (r ++ rel) = false := by
      rcases hb : hasBase bdir (r ++ rel) with _ | _
      · rfl
      · exfalso
        rcases hasBase_comparable hb (hasBase_append r rel) with h | h
        · rw [h] at hd1
          exact Bool.noConfusion hd1
        · rw [h] at hd2
          exact Bool.noConfusion hd2
    rw [hPout _ hout]
    rcases hl : lookupFS fs (r ++ rel) with _ | n
    · rw [lookupFS_removeTree]
      rw [if_pos (hasBase_append (bdir ++ r) rel)]
      rfl
    · rfl
  · -- the store root and the intermediate chain directories
    intro q hq hnq
    rw [hT]
    show lookupFS (captureEntries fsP r (bdir ++ r) ++ removeTree fsP (bdir ++ r)) q = _
    rw [lookupFS_append, lookupFS_captureEntries_out _ _ _ (by simp [hnq])]
    rw [lookupFS_removeTree, if_neg (by simp [hnq])]
    have hqnil : q ≠ [] := ne_nil_of_hasBase hq hbne
    by_cases hqeq : q = bdir
    · subst hqeq
      rw [if_pos (Or.inl rfl)]
      show lookupFS fsP q = _
      rw [hPq q, hEbdir]
    · have hc : q = bdir ++ dropBase bdir q := (append_dropBase hq).symm
      have hcne : dropBase bdir q ≠ [] := by
        intro hcn
        rw [hcn, List.append_nil] at hc
        exact hqeq hc
      have hqb : hasBase q bdir = false := by
        rcases hb : hasBase q bdir with _ | _
        · rfl
        · exact absurd (hasBase_antisymm hb hq) hqeq
      have hEqnone : lookupFS fsE q = none := by
        rw [hEq q, if_pos hq]
        rw [if_neg (by rintro ⟨-, h⟩; rw [h] at hqb; exact Bool.noConfusion hqb)]
      show lookupFS fsP q = _
      rw [hPq q, hEqnone]
      by_cases hcr : hasBase (dropBase bdir q) r = true
      · -- a chain directory
        have hcner : dropBase bdir q ≠ r := by
          intro hcr'
          rw [hcr'] at hc
          rw [hc] at hnq
          rw [hasBase_refl] at hnq
          exact Bool.noConfusion hnq
        have : hasBase q (bdir ++ r.dropLast) = true := by
          rw [hc]
          rw [hasBase_append_same_iff]
          exact hasBase_dropLast_of_ne hcr hcner
        rw [if_pos ⟨hqnil, this⟩, if_pos (Or.inr ⟨hcne, hcr⟩)]
      · rw [if_neg (by
          rintro ⟨-, h⟩
          rw [hc] at h
          rw [hasBase_append_same_iff] at h
          exact hcr (hasBase_trans h (hasBase_dropLast r)))]
        rw [if_neg (by
          rintro (h | ⟨-, h⟩)
          · exact hqeq h
          · exact hcr h)]
  · -- everything outside the store is untouched
    intro p hp
    rw [hT]
    show lookupFS (captureEntries fsP r (bdir ++ r) ++ removeTree fsP (bdir ++ r)) p = _
    have hnd : hasBase (bdir ++ r) p = false := by
      rcases hb : hasBase (bdir ++ r) p with _ | _
      · rfl
      · rw [hasBase_of_append_base hb] at hp
        exact Bool.noConfusion hp
    rw [lookupFS_append, lookupFS_captureEntries_out _ _ _ (by simp [hnd])]
    rw [lookupFS_removeTree, if_neg (by simp [hnd])]
    show lookupFS fsP p = _
    rw [hPout p hp]

/-! ## `track` on a list of pairwise non-nested folders -/

/-- One `trackStep` on a valid folder `r`, from a state whose store region is
characterized by `storeNodeVal` for the folders already taken and whose
non-store region equals `fs0`: the step succeeds and extends the store
characterization by `r`. -/
theorem trackStep_char (fs0 : FS) (bdir : FPath) (hbne : bdir ≠ [])
    (hAncB : ∀ q, q ≠ [] → hasBase q bdir = true → q ≠ bdir →
      isDirAt fs0 q = true)
    (taken : List FPath) (fsS : FS) (msgs : List Msg) (r : FPath)
    (hrne : r ≠ []) (hrd : ∃ m, lookupFS fs0 r = some (Node.dir m))
    (hdb1 : hasBase bdir r = false) (hdb2 : hasBase r bdir = false)
    (hsepT : ∀ r1 ∈ taken, hasBase r1 r = false ∧ hasBase r r1 = false)
    (Iout : ∀ p, hasBase bdir p = false → lookupFS fsS p = lookupFS fs0 p)
    (Istore : ∀ c, lookupFS fsS (bdir ++ c) = storeNodeVal fs0 taken c) :
    ∃ fsS', trackStep bdir noErr ⟨fsS, msgs, false⟩ r =
        ⟨fsS', msgs ++ [.trackedFolder r], false⟩ ∧
      (∀ p, hasBase bdir p = false → lookupFS fsS' p = lookupFS fs0 p) ∧
      (∀ c, lookupFS fsS' (bdir ++ c) = storeNodeVal fs0 (taken ++ [r]) c) := by
  have hbdir_r_out : ∀ x : FPath, hasBase bdir (r ++ x) = false := by
    intro x
    rcases hb : hasBase bdir (r ++ x) with _ | _
    · rfl
    · exfalso
      rcases hasBase_comparable hb (hasBase_append r x) with h | h
      · rw [h] at hdb1
        exact Bool.noConfusion hdb1
      · rw [h] at hdb2
        exact Bool.noConfusion hdb2
  have hSbdir : lookupFS fsS bdir = some (Node.dir defaultDirMode) := by
    have h0 := Istore []
    rw [List.append_nil] at h0
    rw [h0]
    rfl
  have hfsSr : lookupFS fsS r = lookupFS fs0 r := Iout r hdb1
  rcases hrd with ⟨rm, hrm⟩
  have hcond : (existsAt fsS r && isDirAt fsS r) = true := by
    rw [Bool.and_eq_true]
    constructor
    · rw [existsAt_iff]
      exact ⟨_, hfsSr.trans hrm⟩
    · rw [isDirAt_of_ne_nil fsS hrne, hfsSr, hrm]
      rfl
  have hdl : (bdir ++ r).dropLast = bdir ++ r.dropLast :=
    dropLast_append_left hrne
  have hPsome : (mkdirAll fsS (bdir ++ r).dropLast).isSome = true := by
    rw [hdl]
    apply mkdirAll_isSome
    intro q hq hqb
    unfold dirOrMissingAt
    rcases hasBase_comparable hqb (hasBase_append bdir r.dropLast) with hqbd | hbdq
    · by_cases hqeq : q = bdir
      · subst hqeq
        rw [hSbdir]
        rfl
      · rw [Iout q (by
          rcases hb : hasBase bdir q with _ | _
          · rfl
          · exact absurd (hasBase_antisymm hqbd hb) hqeq)]
        have := hAncB q hq hqbd hqeq
        rw [isDirAt_of_ne_nil fs0 hq] at this
        rcases hl : lookupFS fs0 q with _ | n
        · rfl
        · rw [hl] at this
          exact this
    · rcases (hasBase_iff bdir q).1 hbdq with ⟨c, rfl⟩
      by_cases hc0 : c = []
      · rw [hc0, List.append_nil, hSbdir]
        rfl
      · have hcrd : hasBase c r.dropLast = true :=
          (hasBase_append_same_iff bdir c r.dropLast).1 hqb
        rw [Istore c]
        unfold storeNodeVal
        rw [if_neg hc0]
        rw [if_neg (by
          rintro ⟨r1, hr1, hb1⟩
          have hr1r : hasBase r1 r = true :=
            hasBase_trans hb1 (hasBase_trans hcrd (hasBase_dropLast r))
          have hf := (hsepT r1 hr1).1
          rw [hr1r] at hf
          exact Bool.noConfusion hf)]
        by_cases hb3 : ∃ r1 ∈ taken, hasBase c r1 = true ∧ c ≠ r1
        · rw [if_pos hb3]
          rfl
        · rw [if_neg hb3]
  rcases Option.isSome_iff_exists.1 hPsome with ⟨fsP, hP⟩
  have hP2 : mkdirAll fsS (bdir ++ r.dropLast) = some fsP := by
    rw [← hdl]
    exact hP
  have hPq : ∀ q, lookupFS fsP q =
      match lookupFS fsS q with
      | some n => some n
      | none => if q ≠ [] ∧ hasBase q (bdir ++ r.dropLast) = true
                then some (Node.dir defaultDirMode) else none :=
    mkdirAll_lookup hP2
  have hPout : ∀ p, hasBase bdir p = false →
      lookupFS fsP p = lookupFS fs0 p := by
    intro p hp
    rw [hPq p, Iout p hp]
    rcases hl : lookupFS fs0 p with _ | n
    · rw [if_neg]
      rintro ⟨hne, hpb⟩
      rcases hasBase_comparable hpb (hasBase_append bdir r.dropLast) with h | h
      · by_cases hpeq : p = bdir
        · subst hpeq
          simp [hasBase_refl] at hp
        · have := hAncB p hne h hpeq
          rw [isDirAt_of_ne_nil fs0 hne, hl] at this
          exact absurd this (by simp)
      · rw [h] at hp
        exact absurd hp (by simp)
    · rfl
  have hPr : ∀ x, lookupFS fsP (r ++ x) = lookupFS fs0 (r ++ x) :=
    fun x => hPout (r ++ x) (hbdir_r_out x)
  have hPstoreEq : ∀ c, lookupFS fsP (bdir ++ c) =
      match storeNodeVal fs0 taken c with
      | some n => some n
      | none => if c ≠ [] ∧ hasBase c r.dropLast = true
                then some (Node.dir defaultDirMode) else none := by
    intro c
    rw [hPq (bdir ++ c), Istore c]
    rcases hsv : storeNodeVal fs0 taken c with _ | n
    · have hcne : c ≠ [] := by
        intro hc0
        subst hc0
        unfold storeNodeVal at hsv
        rw [if_pos rfl] at hsv
        exact Option.noConfusion hsv
      by_cases hcr : hasBase c r.dropLast = true
      · rw [if_pos ⟨(by
          intro hc
          exact hbne (List.append_eq_nil.1 hc).1),
          (hasBase_append_same_iff bdir c r.dropLast).2 hcr⟩]
        rw [if_pos ⟨hcne, hcr⟩]
      · rw [if_neg (by
          rintro ⟨-, hb⟩
          exact hcr ((hasBase_append_same_iff bdir c r.dropLast).1 hb))]
        rw [if_neg (by rintro ⟨-, hb⟩; exact hcr hb)]
    · rfl
  have hdest : existsAt fsP (bdir ++ r) = false := by
    rcases hex : existsAt fsP (bdir ++ r) with _ | _
    · rfl
    · exfalso
      rcases (existsAt_iff _ _).1 hex with ⟨n, hn⟩
      rw [hPstoreEq r] at hn
      have hsvr : storeNodeVal fs0 taken r = none := by
        unfold storeNodeVal
        rw [if_neg hrne]
        rw [if_neg (by
          rintro ⟨r1, hr1, hb1⟩
          have hf := (hsepT r1 hr1).1
          rw [hb1] at hf
          exact Bool.noConfusion hf)]
        rw [if_neg (by
          rintro ⟨r1, hr1, hb1, -⟩
          have hf := (hsepT r1 hr1).2
          rw [hb1] at hf
          exact Bool.noConfusion hf)]
      rw [hsvr] at hn
      rw [if_neg (by
        rintro ⟨-, hb⟩
        have hlen := hasBase_length hb
        rw [List.length_dropLast] at hlen
        have hr0 : r.length ≠ 0 :=
          fun hc => hrne (List.eq_nil_of_length_eq_zero hc)
        omega)] at hn
      exact Option.noConfusion hn
  have hC : copytreeFS fsP r (bdir ++ r) =
      some (captureEntries fsP r (bdir ++ r) ++ removeTree fsP (bdir ++ r)) := by
    unfold copytreeFS
    rw [hdest]
    rfl
  have hstep : trackStep bdir noErr ⟨fsS, msgs, false⟩ r =
      ⟨captureEntries fsP r (bdir ++ r) ++ removeTree fsP (bdir ++ r),
       msgs ++ [Msg.trackedFolder r], false⟩ := by
    unfold trackStep
    rw [if_neg (by simp)]
    rw [if_pos hcond]
    simp [hP, hC, noErr]
  refine ⟨captureEntries fsP r (bdir ++ r) ++ removeTree fsP (bdir ++ r),
    hstep, ?_, ?_⟩
  · intro p hp
    have hnd : hasBase (bdir ++ r) p = false := by
      rcases hb : hasBase (bdir ++ r) p with _ | _
      · rfl
      · rw [hasBase_of_append_base hb] at hp
        exact Bool.noConfusion hp
    rw [lookupFS_append, lookupFS_captureEntries_out _ _ _ (by simp [hnd])]
    rw [lookupFS_removeTree, if_neg (by simp [hnd])]
    show lookupFS fsP p = _
    exact hPout p hp
  · intro c
    by_cases hrc : hasBase r c = true
    · rcases (hasBase_iff r c).1 hrc with ⟨x, rfl⟩
      rw [show bdir ++ (r ++ x) = (bdir ++ r) ++ x from
        (List.append_assoc bdir r x).symm]
      rw [lookupFS_append, lookupFS_captureEntries_under, hPr x]
      show _ = storeNodeVal fs0 (taken ++ [r]) (r ++ x)
      unfold storeNodeVal
      rw [if_neg (by
        intro hc
        exact hrne (List.append_eq_nil.1 hc).1)]
      rw [if_pos ⟨r, List.mem_append_right _ (List.mem_singleton.2 rfl),
        hasBase_append r x⟩]
      rcases hl : lookupFS fs0 (r ++ x) with _ | n
      · rw [lookupFS_removeTree, if_pos (hasBase_append (bdir ++ r) x)]
        rfl
      · rfl
    · have hnd : hasBase (bdir ++ r) (bdir ++ c) = false := by
        rcases hb : hasBase (bdir ++ r) (bdir ++ c) with _ | _
        · rfl
        · exact absurd ((hasBase_append_same_iff bdir r c).1 hb) hrc
      rw [lookupFS_append, lookupFS_captureEntries_out _ _ _ (by simp [hnd])]
      rw [lookupFS_removeTree, if_neg (by simp [hnd])]
      show lookupFS fsP (bdir ++ c) = _
      rw [hPstoreEq c]
      by_cases hc0 : c = []
      · subst hc0
        rfl
      · by_cases hb2 : ∃ r1 ∈ taken, hasBase r1 c = true
        · have hold : storeNodeVal fs0 taken c =
              (lookupFS fs0 c).map captureNode := by
            unfold storeNodeVal
            rw [if_neg hc0, if_pos hb2]
          have hnew : storeNodeVal fs0 (taken ++ [r]) c =
              (lookupFS fs0 c).map captureNode := by
            unfold storeNodeVal
            rw [if_neg hc0]
            rw [if_pos (by
              rcases hb2 with ⟨r1, h1, h2⟩
              exact ⟨r1, List.mem_append_left _ h1, h2⟩)]
          rw [hold, hnew]
          rcases hl : lookupFS fs0 c with _ | n
          · show (if c ≠ [] ∧ hasBase c r.dropLast = true then _ else _) = _
            rw [if_neg (by
              rintro ⟨-, hbrd⟩
              rcases hb2 with ⟨r1, h1, h2⟩
              have hr1r : hasBase r1 r = true :=
                hasBase_trans h2 (hasBase_trans hbrd (hasBase_dropLast r))
              have hf := (hsepT r1 h1).1
              rw [hr1r] at hf
              exact Bool.noConfusion hf)]
            rfl
          · rfl
        · by_cases hb3 : ∃ r1 ∈ taken, hasBase c r1 = true ∧ c ≠ r1
          · have hold : storeNodeVal fs0 taken c =
                some (Node.dir defaultDirMode) := by
              unfold storeNodeVal
              rw [if_neg hc0, if_neg hb2, if_pos hb3]
            have hnew : storeNodeVal fs0 (taken ++ [r]) c =
                some (Node.dir defaultDirMode) := by
              unfold storeNodeVal
              rw [if_neg hc0]
              rw [if_neg (by
                rintro ⟨r1, h1, h2⟩
                rcases List.mem_append.1 h1 with h | h
                · exact hb2 ⟨r1, h, h2⟩
                · rw [List.mem_singleton.1 h] at h2
                  exact absurd h2 (by simp [hrc]))]
              rw [if_pos (by
                rcases hb3 with ⟨r1, h1, h2⟩
                exact ⟨r1, List.mem_append_left _ h1, h2⟩)]
            rw [hold, hnew]
          · have hold : storeNodeVal fs0 taken c = none := by
              unfold storeNodeVal
              rw [if_neg hc0, if_neg hb2, if_neg hb3]
            rw [hold]
            show (if c ≠ [] ∧ hasBase c r.dropLast = true then _ else _) = _
            have hnewb2 : ¬ ∃ r1 ∈ taken ++ [r], hasBase r1 c = true := by
              rintro ⟨r1, h1, h2⟩
              rcases List.mem_append.1 h1 with h | h
              · exact hb2 ⟨r1, h, h2⟩
              · rw [List.mem_singleton.1 h] at h2
                exact absurd h2 (by simp [hrc])
            by_cases hcr : hasBase c r.dropLast = true
            · rw [if_pos ⟨hc0, hcr⟩]
              unfold storeNodeVal
              rw [if_neg hc0, if_neg hnewb2]
              rw [if_pos ⟨r, List.mem_append_right _ (List.mem_singleton.2 rfl),
                hasBase_trans hcr (hasBase_dropLast r), (by
                  intro hceq
                  subst hceq
                  have hlen := hasBase_length hcr
                  rw [List.length_dropLast] at hlen
                  have hcl0 : c.length ≠ 0 :=
                    fun hh => hc0 (List.eq_nil_of_length_eq_zero hh)
                  omega)⟩]
            · rw [if_neg (by rintro ⟨-, hb⟩; exact hcr hb)]
              unfold storeNodeVal
              rw [if_neg hc0, if_neg hnewb2]
              rw [if_neg (by
                rintro ⟨r1, h1, h2, h3⟩
                rcases List.mem_append.1 h1 with h | h
                · exact hb3 ⟨r1, h, h2, h3⟩
                · rw [List.mem_singleton.1 h] at h2 h3
                  exact hcr (hasBase_dropLast_of_ne h2 h3))]

/-- The folder loop of `track`, for pairwise non-nested valid folders:
every folder is captured, and the store region accumulates the
`storeNodeVal` characterization. -/
theorem trackGo_char (fs0 : FS) (bdir : FPath) (hbne : bdir ≠ [])
    (hAncB : ∀ q, q ≠ [] → hasBase q bdir = true → q ≠ bdir →
      isDirAt fs0 q = true) :
    ∀ (rest taken : List FPath) (fsS : FS) (msgs : List Msg),
      (∀ r ∈ rest, r ≠ [] ∧ (∃ m, lookupFS fs0 r = some (Node.dir m)) ∧
        hasBase bdir r = false ∧ hasBase r bdir = false) →
      (∀ r1 ∈ taken, ∀ r2 ∈ rest,
        hasBase r1 r2 = false ∧ hasBase r2 r1 = false) →
      List.Pairwise
        (fun r1 r2 => hasBase r1 r2 = false ∧ hasBase r2 r1 = false) rest →
      (∀ p, hasBase bdir p = false → lookupFS fsS p = lookupFS fs0 p) →
      (∀ c, lookupFS fsS (bdir ++ c) = storeNodeVal fs0 taken c) →
      (rest.foldl (trackStep bdir noErr) ⟨fsS, msgs, false⟩).crashed = false ∧
      (rest.foldl (trackStep bdir noErr) ⟨fsS, msgs, false⟩).msgs =
        msgs ++ rest.map Msg.trackedFolder ∧
      (∀ p, hasBase bdir p = false →
        lookupFS (rest.foldl (trackStep bdir noErr) ⟨fsS, msgs, false⟩).fs p =
          lookupFS fs0 p) ∧
      (∀ c, lookupFS (rest.foldl (trackStep bdir noErr) ⟨fsS, msgs, false⟩).fs
          (bdir ++ c) = storeNodeVal fs0 (taken ++ rest) c) := by
  intro rest
  induction rest with
  | nil =>
    intro taken fsS msgs _ _ _ Iout Istore
    exact ⟨rfl, by simp, Iout, by simpa using Istore⟩
  | cons r rest ih =>
    intro taken fsS msgs hprops hsep hpair Iout Istore
    obtain ⟨hrne, hrd, hdb1, hdb2⟩ := hprops r (List.mem_cons_self r rest)
    rcases trackStep_char fs0 bdir hbne hAncB taken fsS msgs r hrne hrd hdb1
      hdb2 (fun r1 h1 => hsep r1 h1 r (List.mem_cons_self r rest))
      Iout Istore with ⟨fsS', hstep, Iout', Istore'⟩
    have hrec := ih (taken ++ [r]) fsS' (msgs ++ [Msg.trackedFolder r])
      (fun r2 h2 => hprops r2 (List.mem_cons_of_mem r h2))
      (by
        intro r1 h1 r2 h2
        rcases List.mem_append.1 h1 with h | h
        · exact hsep r1 h r2 (List.mem_cons_of_mem r h2)
        · rw [List.mem_singleton.1 h]
          exact (List.pairwise_cons.1 hpair).1 r2 h2)
      (List.pairwise_cons.1 hpair).2
      Iout' Istore'
    rw [List.foldl_cons, hstep]
    refine ⟨hrec.1, ?_, hrec.2.2.1, ?_⟩
    · rw [hrec.2.1, List.map_cons]
      simp
    · intro c
      rw [hrec.2.2.2 c, List.append_assoc]
      rfl

/-- `track` on a list of pairwise non-nested existing directories, each
disjoint from the store root: no crash, every folder reported tracked, the
non-store region untouched, and the store region characterized by
`storeNodeVal`. -/
theorem trackMulti_char (fs0 : FS) (bdir : FPath) (hbne : bdir ≠ [])
    (hAncB : ∀ q, q ≠ [] → hasBase q bdir = true → q ≠ bdir →
      isDirAt fs0 q = true)
    (hNoOrphan : existsAt fs0 bdir = false →
      ∀ q, hasBase bdir q = true → lookupFS fs0 q = none)
    (rs : List FPath)
    (hprops : ∀ r ∈ rs, r ≠ [] ∧ (∃ m, lookupFS fs0 r = some (Node.dir m)) ∧
      hasBase bdir r = false ∧ hasBase r bdir = false)
    (hpair : List.Pairwise
      (fun r1 r2 => hasBase r1 r2 = false ∧ hasBase r2 r1 = false) rs) :
    (track bdir noErr fs0 rs).crashed = false ∧
    (track bdir noErr fs0 rs).msgs =
      rs.map Msg.trackedFolder ++ [.foldersTracked] ∧
    (∀ p, hasBase bdir p = false →
      lookupFS (track bdir noErr fs0 rs).fs p = lookupFS fs0 p) ∧
    (∀ c, lookupFS (track bdir noErr fs0 rs).fs (bdir ++ c) =
      storeNodeVal fs0 rs c) := by
  have hfs0 : ∀ q, lookupFS (if existsAt fs0 bdir then removeTree fs0 bdir
      else fs0) q = (if hasBase bdir q = true then none else lookupFS fs0 q) := by
    intro q
    by_cases he : existsAt fs0 bdir
    · rw [if_pos he]
      exact lookupFS_removeTree fs0 bdir q
    · rw [if_neg he]
      by_cases hb : hasBase bdir q = true
      · rw [if_pos hb]
        exact hNoOrphan (by simpa using he) q hb
      · rw [if_neg hb]
  have hEsome : (mkdirAll (if existsAt fs0 bdir then removeTree fs0 bdir
      else fs0) bdir).isSome = true := by
    apply mkdirAll_isSome
    intro q hq hqb
    unfold dirOrMissingAt
    rw [hfs0 q]
    by_cases hbq : hasBase bdir q = true
    · rw [if_pos hbq]
    · rw [if_neg hbq]
      by_cases hqeq : q = bdir
      · subst hqeq
        exact absurd (hasBase_refl q) (by simpa using hbq)
      · have := hAncB q hq hqb hqeq
        rw [isDirAt_of_ne_nil fs0 hq] at this
        rcases hl : lookupFS fs0 q with _ | n
        · rfl
        · rw [hl] at this
          exact this
  rcases Option.isSome_iff_exists.1 hEsome with ⟨fsE, hE⟩
  have hEq : ∀ q, lookupFS fsE q =
      match (if hasBase bdir q = true then none else lookupFS fs0 q) with
      | some n => some n
      | none => if q ≠ [] ∧ hasBase q bdir = true
                then some (Node.dir defaultDirMode) else none := by
    intro q
    rw [mkdirAll_lookup hE q, hfs0 q]
  have hEout : ∀ p, hasBase bdir p = false →
      lookupFS fsE p = lookupFS fs0 p := by
    intro p hp
    rw [hEq p]
    rw [if_neg (by simp [hp])]
    rcases hl : lookupFS fs0 p with _ | n
    · rw [if_neg]
      rintro ⟨hne, hpb⟩
      by_cases hpeq : p = bdir
      · subst hpeq
        simp [hasBase_refl] at hp
      · have := hAncB p hne hpb hpeq
        rw [isDirAt_of_ne_nil fs0 hne, hl] at this
        exact absurd this (by simp)
    · rfl
  have hEstore : ∀ c, lookupFS fsE (bdir ++ c) = storeNodeVal fs0 [] c := by
    intro c
    rw [hEq (bdir ++ c)]
    rw [if_pos (hasBase_append bdir c)]
    by_cases hc0 : c = []
    · subst hc0
      rw [List.append_nil]
      rw [if_pos ⟨hbne, hasBase_refl bdir⟩]
      rfl
    · rw [if_neg (by
        rintro ⟨-, hb⟩
        have hlen := hasBase_length hb
        rw [List.length_append] at hlen
        have hcl : c.length = 0 := by omega
        exact hc0 (List.eq_nil_of_length_eq_zero hcl))]
      show none = storeNodeVal fs0 [] c
      unfold storeNodeVal
      rw [if_neg hc0]
      rw [if_neg (by rintro ⟨r1, h1, -⟩; exact List.not_mem_nil r1 h1)]
      rw [if_neg (by rintro ⟨r1, h1, -⟩; exact List.not_mem_nil r1 h1)]
  have hG := trackGo_char fs0 bdir hbne hAncB rs [] fsE [] hprops
    (fun r1 h1 => absurd h1 (List.not_mem_nil r1)) hpair hEout hEstore
  have hcr := hG.1
  have hT : track bdir noErr fs0 rs =
      { rs.foldl (trackStep bdir noErr) ⟨fsE, [], false⟩ with
        msgs := (rs.foldl (trackStep bdir noErr) ⟨fsE, [], false⟩).msgs ++
          [Msg.foldersTracked] } := by
    unfold track
    simp only [hE]
    rw [if_neg (by rw [hcr]; simp)]
  refine ⟨?_, ?_, ?_, ?_⟩
  · rw [hT]
    exact hcr
  · rw [hT]
    show (rs.foldl (trackStep bdir noErr) ⟨fsE, [], false⟩).msgs ++
      [Msg.foldersTracked] = _
    rw [hG.2.1]
    simp
  · intro p hp
    rw [hT]
    exact hG.2.2.1 p hp
  · intro c
    rw [hT]
    have hv := hG.2.2.2 c
    simpa using hv

/-! ## PathMapper lemmas -/

theorem dropWhile_eq_self_of_all {p : Char → Bool} {l : List Char}
    (h : ∀ c ∈ l, p c = false) : l.dropWhile p = l := by
  cases l with
  | nil => rfl
  | cons c cs =>
    rw [List.dropWhile_cons, h c (by simp)]
    simp

theorem anchorSegment_posix (parts : List Seg) :
    anchorSegment (.posixP parts) = "" := rfl

theorem anchorSegment_win {d : String} (parts : List Seg)
    (hch : d.data.all (fun c => !(winStripChar c)) = true) :
    anchorSegment (.winP d parts) = d := by
  simp only [anchorSegment, rstripSet]
  rw [String.data_append]
  rw [show (":\\" : String).data = [':', '\\'] from rfl]
  rw [show (d.data ++ [':', '\\']).reverse = '\\' :: ':' :: d.data.reverse by simp]
  rw [List.dropWhile_cons, show winStripChar '\\' = true from rfl]
  rw [List.dropWhile_cons, show winStripChar ':' = true from rfl]
  rw [dropWhile_eq_self_of_all (fun c hc => by
    have := List.all_eq_true.1 hch c (List.mem_reverse.1 hc)
    simpa using this)]
  simp only [if_true]
  rw [List.reverse_reverse]

/-! ## Membership and shape lemmas -/

theorem mem_eraseKey {fs : FS} {p : FPath} {e : FPath × Node}
    (h : e ∈ eraseKey fs p) : e ∈ fs ∧ e.1 ≠ p := by
  induction fs with
  | nil => simp [eraseKey] at h
  | cons f rest ih =>
    by_cases hf : f.1 = p
    · rw [eraseKey, if_pos hf] at h
      rcases ih h with ⟨h1, h2⟩
      exact ⟨List.mem_cons_of_mem f h1, h2⟩
    · rw [eraseKey, if_neg hf] at h
      rcases List.mem_cons.1 h with rfl | h'
      · exact ⟨List.mem_cons_self _ _, hf⟩
      · rcases ih h' with ⟨h1, h2⟩
        exact ⟨List.mem_cons_of_mem f h1, h2⟩

theorem mem_removeTree {fs : FS} {b : FPath} {e : FPath × Node}
    (h : e ∈ removeTree fs b) : e ∈ fs ∧ hasBase b e.1 = false := by
  induction fs with
  | nil => simp [removeTree] at h
  | cons f rest ih =>
    by_cases hf : hasBase b f.1 = true
    · rw [removeTree, if_pos hf] at h
      rcases ih h with ⟨h1, h2⟩
      exact ⟨List.mem_cons_of_mem f h1, h2⟩
    · rw [removeTree, if_neg hf] at h
      rcases List.mem_cons.1 h with rfl | h'
      · exact ⟨List.mem_cons_self _ _, by simpa using hf⟩
      · rcases ih h' with ⟨h1, h2⟩
        exact ⟨List.mem_cons_of_mem f h1, h2⟩

theorem strictBases_iff (q p : FPath) :
    q ∈ strictBases p ↔ (q ≠ [] ∧ hasBase q p = true ∧ q ≠ p) := by
  induction p generalizing q with
  | nil =>
    simp only [strictBases, List.not_mem_nil, false_iff]
    rintro ⟨hq, hb, hn⟩
    exact hq ((hasBase_nil_iff q).1 hb)
  | cons s rest ih =>
    cases rest with
    | nil =>
      simp only [strictBases, List.not_mem_nil, false_iff]
      rintro ⟨hq, hb, hn⟩
      cases q with
      | nil => exact hq rfl
      | cons a q' =>
        by_cases ha : a = s
        · subst ha
          rw [hasBase] at hb
          simp at hb
          rw [(hasBase_nil_iff q').1 hb] at hn
          exact hn rfl
        · rw [hasBase] at hb
          simp [ha] at hb
    | cons s2 rest2 =>
      show q ∈ [s] :: (strictBases (s2 :: rest2)).map (fun x => s :: x) ↔ _
      rw [List.mem_cons, List.mem_map]
      constructor
      · rintro (rfl | ⟨q', hq', rfl⟩)
        · refine ⟨by simp, by simp [hasBase], by simp⟩
        · rcases (ih q').1 hq' with ⟨h1, h2, h3⟩
          refine ⟨by simp, by simp [hasBase, h2], by simpa using h3⟩
      · rintro ⟨hq, hb, hn⟩
        cases q with
        | nil => exact absurd rfl hq
        | cons a q' =>
          by_cases ha : a = s
          · subst ha
            rw [hasBase] at hb
            simp at hb
            cases hq' : q' with
            | nil => exact Or.inl rfl
            | cons b q'' =>
              refine Or.inr ⟨q', ?_, by rw [hq']⟩
              subst hq'
              exact (ih _).2 ⟨by simp, hb, by simpa using hn⟩
          · rw [hasBase] at hb
            simp [ha] at hb

theorem lookup_none_of_no_key {fs : FS} {bdir : FPath}
    (h : fs.all (fun e => !(hasBase bdir e.1)) = true) :
    ∀ q, hasBase bdir q = true → lookupFS fs q = none := by
  intro q hq
  induction fs with
  | nil => rfl
  | cons e rest ih =>
    rw [List.all_cons, Bool.and_eq_true] at h
    rw [lookupFS_cons, if_neg, ih h.2]
    rintro rfl
    rw [hq] at h
    simpa using h.1

theorem mkdirAllAux_last_missing (fs : FS) (base : FPath) (segs : List Seg)
    (hne : segs ≠ [])
    (h : ∀ t, t ≠ [] → hasBase t segs = true → t ≠ segs →
      isDirAt fs (base ++ t) = true)
    (hmiss : lookupFS fs (base ++ segs) = none) :
    mkdirAllAux fs base segs =
      some (setNode fs (base ++ segs) (Node.dir defaultDirMode)) := by
  induction segs generalizing base with
  | nil => exact absurd rfl hne
  | cons s rest ih =>
    cases rest with
    | nil =>
      simp only [mkdirAllAux, hmiss]
    | cons s2 rest2 =>
      have hs : isDirAt fs (base ++ [s]) = true :=
        h [s] (by simp) (by simp [hasBase]) (by simp)
      rw [isDirAt_of_ne_nil fs (by simp)] at hs
      rcases hl : lookupFS fs (base ++ [s]) with _ | n
      · rw [hl] at hs; exact absurd hs (by simp)
      · rw [hl] at hs
        cases n with
        | dir m =>
          simp only [mkdirAllAux, hl]
          have hres := ih (base ++ [s]) (by simp)
            (fun t ht htb htn => by
              rw [List.append_assoc]
              exact h (s :: t) (by simp) (by simpa [hasBase] using htb)
                (by simpa using htn))
            (by rw [List.append_assoc]; exact hmiss)
          rw [List.append_assoc] at hres
          exact hres
        | file c m mt => simp [nodeIsDir] at hs
        | symlink tgt => simp [nodeIsDir] at hs

theorem mkdirAll_last_missing (fs : FS) (p : FPath) (hne : p ≠ [])
    (h : ∀ t, t ≠ [] → hasBase t p = true → t ≠ p → isDirAt fs t = true)
    (hmiss : lookupFS fs p = none) :
    mkdirAll fs p = some (setNode fs p (Node.dir defaultDirMode)) := by
  have := mkdirAllAux_last_missing fs [] p hne
    (fun t ht htb htn => by simpa using h t ht htb htn) (by simpa using hmiss)
  simpa using this

/-! # Claim theorems -/

/-- C2: For every legal absolute path on the current platform (modelled
domain: posix paths, and Windows drive-letter paths whose drive name is a
nonempty string without `':'` or `'\'`; UNC anchors are outside the model),
encoding it into the backup store (strip the anchor's trailing
separator/colon to a single folder segment, then append the remainder) and
then decoding that backup location (re-append the platform anchor syntax to
the anchor segment, then the remaining segments) yields exactly the original
absolute path; in particular two paths under different anchors on a
multi-anchor platform both round-trip unchanged. -/
theorem C2_pathmapper_roundtrip :
    (∀ p : AbsPath, validAbsB p = true →
      toOriginal (platformOf p) (toBackupRel p) = some p) ∧
    (∀ (d1 d2 : String) (ps1 ps2 : List Seg),
      validAbsB (.winP d1 ps1) = true → validAbsB (.winP d2 ps2) = true →
      d1 ≠ d2 →
      toOriginal .win (toBackupRel (.winP d1 ps1)) = some (.winP d1 ps1) ∧
      toOriginal .win (toBackupRel (.winP d2 ps2)) = some (.winP d2 ps2)) := by
  have main : ∀ p : AbsPath, validAbsB p = true →
      toOriginal (platformOf p) (toBackupRel p) = some p := by
    intro p hv
    cases p with
    | posixP ps =>
      show toOriginal .posix (toBackupRel (.posixP ps)) = _
      unfold toBackupRel
      rw [anchorSegment_posix]
      simp [toOriginal, absParts]
    | winP d ps =>
      unfold validAbsB at hv
      rw [Bool.and_eq_true] at hv
      obtain ⟨hne, hch⟩ := hv
      show toOriginal .win (toBackupRel (.winP d ps)) = _
      unfold toBackupRel
      rw [anchorSegment_win ps hch]
      rw [if_neg (by simpa using hne)]
      rfl
  exact ⟨main, fun d1 d2 ps1 ps2 h1 h2 _ => ⟨main _ h1, main _ h2⟩⟩

/-- Witness for C2: a posix path and two Windows drive-letter paths under
different drives, all round-tripping at concrete inputs. -/
theorem C2_pathmapper_roundtrip_witness :
    toOriginal (platformOf (.posixP ["data", "proj"]))
        (toBackupRel (.posixP ["data", "proj"])) = some (.posixP ["data", "proj"]) ∧
    toOriginal .win (toBackupRel (.winP "C" ["x"])) = some (.winP "C" ["x"]) ∧
    toOriginal .win (toBackupRel (.winP "D" ["y"])) = some (.winP "D" ["y"]) := by
  refine ⟨C2_pathmapper_roundtrip.1 _ (by decide), ?_, ?_⟩
  · exact (C2_pathmapper_roundtrip.2 "C" "D" ["x"] ["y"] (by decide) (by decide)
      (by decide)).1
  · exact (C2_pathmapper_roundtrip.2 "C" "D" ["x"] ["y"] (by decide) (by decide)
      (by decide)).2

/-- C4 (evidence of the code bug): on the spec's own example — one tracked
root `/data/proj` holding exactly one regular file (`a.txt`, bytes "hi") and
one symlink (`link -> a.txt`), no subdirectories — `reset()` with no errors
reports `len(stats['directories']) - len(stats['root_dirs'])` directories.
`rglob` never yields the root itself, so `directories` is empty while
`root_dirs` holds the root: the summary reports `-1` directories, not the
`0` the claim and the spec state. -/
theorem C4_reset_summary_example :
    (reset ["home", ".foam_backup"] noErr noErr
      [ (["home", ".foam_backup", "data", "proj"], .dir 493),
        (["home", ".foam_backup", "data", "proj", "a.txt"], .file [104, 105] 420 7),
        (["home", ".foam_backup", "data", "proj", "link"], .symlink "a.txt"),
        (["home", ".foam_backup", "data"], .dir 493),
        (["home", ".foam_backup"], .dir 493),
        (["home"], .dir 493),
        (["data"], .dir 493),
        (["data", "proj"], .dir 493),
        (["data", "proj", "a.txt"], .file [104, 105] 420 7),
        (["data", "proj", "link"], .symlink "a.txt") ]
      []).msgs = [Msg.resetSummary (-1) 2 0] := by
  decide

/-- C7 counterexample: `reset` called with a folder argument while no backup
store exists reports "no tracked folders", not the refusal — the claim's
"reports the refusal" fails on this input (the frame part of the claim
holds, see the amended theorem). -/
theorem C7_reset_args_cex :
    ¬ (Msg.resetRefuseArgs ∈
        (reset ["home", ".foam_backup"] noErr noErr [] [["a"]]).msgs) := by
  decide

/-- C7 (amended): for every call of `reset` with a non-empty folder-argument
list, the filesystem (originals and backup store alike) is completely
unchanged, and the call reports the refusal when a backup store exists —
when none exists it reports "no tracked folders to reset" instead. -/
theorem C7_reset_args_refused (bdir : FPath) (eR eS : FPath → Bool) (fs : FS)
    (args : List FPath) (h : args ≠ []) :
    (reset bdir eR eS fs args).fs = fs ∧
    (reset bdir eR eS fs args).msgs =
      (if existsAt fs bdir then [Msg.resetRefuseArgs] else [Msg.noTrackedReset]) := by
  unfold reset
  by_cases he : existsAt fs bdir = true
  · rw [if_neg (by simp [he]), if_pos h, if_pos he]
    exact ⟨rfl, rfl⟩
  · rw [if_pos (by simpa using he), if_neg he]
    exact ⟨rfl, rfl⟩

/-- Witness for C7 (amended) at a concrete input. -/
theorem C7_reset_args_refused_witness :
    (reset ["home", ".foam_backup"] noErr noErr [] [["a"]]).fs = [] ∧
    (reset ["home", ".foam_backup"] noErr noErr [] [["a"]]).msgs =
      (if existsAt [] ["home", ".foam_backup"] then [Msg.resetRefuseArgs]
       else [Msg.noTrackedReset]) :=
  C7_reset_args_refused ["home", ".foam_backup"] noErr noErr [] [["a"]] (by decide)

/-- C3: when a backup store already exists, `track(B)` first deletes it
recursively — after the deletion nothing remains anywhere under the store
root — and the whole outcome of `track(B)` (final filesystem, messages,
crash status) is exactly what it would be had the store not existed at all;
consequently a subsequent `reset()` behaves identically, so it can never
restore an artifact unique to the prior snapshot and the store is never a
union of two generations. -/
theorem C3_track_discards_prior (bdir : FPath) (eCopy : FPath → Bool) (fs : FS)
    (folders : List FPath) (h : existsAt fs bdir = true) :
    (∀ q, hasBase bdir q = true → lookupFS (removeTree fs bdir) q = none) ∧
    track bdir eCopy fs folders = track bdir eCopy (removeTree fs bdir) folders ∧
    reset bdir noErr noErr (track bdir eCopy fs folders).fs [] =
      reset bdir noErr noErr (track bdir eCopy (removeTree fs bdir) folders).fs [] := by
  have key : track bdir eCopy fs folders =
      track bdir eCopy (removeTree fs bdir) folders := by
    show (let fs0 := if existsAt fs bdir then removeTree fs bdir else fs
          match mkdirAll fs0 bdir with
          | none => (⟨fs0, [], true⟩ : TrackOut)
          | some fs1 =>
            let out := folders.foldl (trackStep bdir eCopy) ⟨fs1, [], false⟩
            if out.crashed then out
            else { out with msgs := out.msgs ++ [Msg.foldersTracked] }) =
         (let fs0 := if existsAt (removeTree fs bdir) bdir then
                       removeTree (removeTree fs bdir) bdir
                     else removeTree fs bdir
          match mkdirAll fs0 bdir with
          | none => (⟨fs0, [], true⟩ : TrackOut)
          | some fs1 =>
            let out := folders.foldl (trackStep bdir eCopy) ⟨fs1, [], false⟩
            if out.crashed then out
            else { out with msgs := out.msgs ++ [Msg.foldersTracked] })
    have h2 : existsAt (removeTree fs bdir) bdir = false := by
      unfold existsAt
      rw [lookupFS_removeTree, if_pos (hasBase_refl bdir)]
      rfl
    rw [if_pos h, if_neg (by simp [h2])]
  refine ⟨?_, key, by rw [key]⟩
  intro q hq
  rw [lookupFS_removeTree, if_pos hq]

/-- Witness for C3 at a concrete input: a store holding a stale artifact. -/
theorem C3_track_discards_prior_witness :
    (∀ q, hasBase ["home", ".foam_backup"] q = true →
      lookupFS (removeTree
        [ (["home", ".foam_backup"], Node.dir 493),
          (["home", ".foam_backup", "old"], Node.file [1] 420 0),
          (["home"], Node.dir 493), (["data"], Node.dir 493) ]
        ["home", ".foam_backup"]) q = none) ∧
    track ["home", ".foam_backup"] noErr
        [ (["home", ".foam_backup"], Node.dir 493),
          (["home", ".foam_backup", "old"], Node.file [1] 420 0),
          (["home"], Node.dir 493), (["data"], Node.dir 493) ] [["data"]] =
      track ["home", ".foam_backup"] noErr
        (removeTree
          [ (["home", ".foam_backup"], Node.dir 493),
            (["home", ".foam_backup", "old"], Node.file [1] 420 0),
            (["home"], Node.dir 493), (["data"], Node.dir 493) ]
          ["home", ".foam_backup"]) [["data"]] ∧
    reset ["home", ".foam_backup"] noErr noErr
        (track ["home", ".foam_backup"] noErr
          [ (["home", ".foam_backup"], Node.dir 493),
            (["home", ".foam_backup", "old"], Node.file [1] 420 0),
            (["home"], Node.dir 493), (["data"], Node.dir 493) ] [["data"]]).fs [] =
      reset ["home", ".foam_backup"] noErr noErr
        (track ["home", ".foam_backup"] noErr
          (removeTree
            [ (["home", ".foam_backup"], Node.dir 493),
              (["home", ".foam_backup", "old"], Node.file [1] 420 0),
              (["home"], Node.dir 493), (["data"], Node.dir 493) ]
            ["home", ".foam_backup"]) [["data"]]).fs [] :=
  C3_track_discards_prior ["home", ".foam_backup"] noErr _ [["data"]] (by decide)

/-- C10: `track([])` with an existing snapshot is not rejected: the existing
BackupStore is deleted, recreated empty (only the store root directory
remains, with nothing under it), completion is reported, everything outside
the store is untouched, and afterwards the two-level walk enumerates no
TrackedRoots — `list()` prints only its header and `reset()` reports an
all-zero summary without touching anything. -/
theorem C10_track_empty_folders (fs : FS) (bdir : FPath) (hbne : bdir ≠ [])
    (hex : existsAt fs bdir = true)
    (hAncB : ∀ q, q ≠ [] → hasBase q bdir = true → q ≠ bdir → isDirAt fs q = true) :
    (track bdir noErr fs []).crashed = false ∧
    (track bdir noErr fs []).msgs = [Msg.foldersTracked] ∧
    lookupFS (track bdir noErr fs []).fs bdir = some (Node.dir defaultDirMode) ∧
    (∀ q, hasBase bdir q = true → q ≠ bdir →
      lookupFS (track bdir noErr fs []).fs q = none) ∧
    (∀ p, hasBase bdir p = false →
      lookupFS (track bdir noErr fs []).fs p = lookupFS fs p) ∧
    trackedRoots bdir (track bdir noErr fs []).fs = [] ∧
    (listTracked bdir (track bdir noErr fs []).fs).msgs = [Msg.listHeader] ∧
    (reset bdir noErr noErr (track bdir noErr fs []).fs []).msgs =
      [Msg.resetSummary 0 0 0] ∧
    (reset bdir noErr noErr (track bdir noErr fs []).fs []).fs =
      (track bdir noErr fs []).fs := by
  have hmk : mkdirAll (removeTree fs bdir) bdir =
      some (setNode (removeTree fs bdir) bdir (Node.dir defaultDirMode)) := by
    apply mkdirAll_last_missing _ _ hbne
    · intro t ht htb htn
      have hnb : hasBase bdir t = false := by
        rcases hb : hasBase bdir t with _ | _
        · rfl
        · exact absurd (hasBase_antisymm htb hb) htn
      rw [isDirAt_of_ne_nil _ ht, lookupFS_removeTree, if_neg (by simp [hnb])]
      rw [← isDirAt_of_ne_nil _ ht]
      exact hAncB t ht htb htn
    · rw [lookupFS_removeTree, if_pos (hasBase_refl bdir)]
  have hT : track bdir noErr fs [] =
      ⟨setNode (removeTree fs bdir) bdir (Node.dir defaultDirMode),
       [Msg.foldersTracked], false⟩ := by
    unfold track
    simp [hex, hmk]
  have hroots : trackedRoots bdir (track bdir noErr fs []).fs = [] := by
    rw [hT]
    have hch : childrenDirsOf (setNode (removeTree fs bdir) bdir
        (Node.dir defaultDirMode)) bdir = [] := by
      apply List.filterMap_eq_nil_iff.2
      intro e he
      rcases List.mem_cons.1 he with rfl | he'
      · rw [if_neg]
        rintro ⟨hlen, -⟩
        simp at hlen
      · rcases mem_eraseKey he' with ⟨he'', -⟩
        rcases mem_removeTree he'' with ⟨-, hb⟩
        rw [if_neg]
        rintro ⟨-, hb2, -⟩
        rw [hb2] at hb
        exact Bool.noConfusion hb
    unfold trackedRoots
    rw [hch]
    rfl
  have hexE : existsAt (setNode (removeTree fs bdir) bdir
      (Node.dir defaultDirMode)) bdir = true := by
    unfold existsAt
    rw [lookupFS_setNode, if_pos rfl]
    rfl
  refine ⟨by rw [hT], by rw [hT], ?_, ?_, ?_, hroots, ?_, ?_, ?_⟩
  · rw [hT]
    show lookupFS (setNode _ _ _) bdir = _
    rw [lookupFS_setNode, if_pos rfl]
  · intro q hq hqn
    rw [hT]
    show lookupFS (setNode _ _ _) q = none
    rw [lookupFS_setNode, if_neg hqn, lookupFS_removeTree, if_pos hq]
  · intro p hp
    rw [hT]
    show lookupFS (setNode _ _ _) p = lookupFS fs p
    have hpn : p ≠ bdir := by
      rintro rfl
      rw [hasBase_refl] at hp
      exact Bool.noConfusion hp
    rw [lookupFS_setNode, if_neg hpn, lookupFS_removeTree, if_neg (by simp [hp])]
  · rw [hT] at hroots ⊢
    unfold listTracked
    rw [if_neg (by simp [hexE]), hroots]
    rfl
  · rw [hT] at hroots ⊢
    unfold reset
    rw [if_neg (by simp [hexE]), if_neg (by simp)]
    unfold resetStats resetEnum resetGo
    rw [hroots]
    simp
  · rw [hT] at hroots ⊢
    unfold reset
    rw [if_neg (by simp [hexE]), if_neg (by simp)]
    unfold resetEnum resetGo
    rw [hroots]
    rfl

/-- Witness for C10 at a concrete input: a prior snapshot holding one root. -/
theorem C10_track_empty_folders_witness :
    (track ["home", ".foam_backup"] noErr
      [ (["home", ".foam_backup"], Node.dir 493),
        (["home", ".foam_backup", "data"], Node.dir 493),
        (["home", ".foam_backup", "data", "proj"], Node.dir 493),
        (["home"], Node.dir 493) ] []).msgs = [Msg.foldersTracked] ∧
    trackedRoots ["home", ".foam_backup"]
      (track ["home", ".foam_backup"] noErr
        [ (["home", ".foam_backup"], Node.dir 493),
          (["home", ".foam_backup", "data"], Node.dir 493),
          (["home", ".foam_backup", "data", "proj"], Node.dir 493),
          (["home"], Node.dir 493) ] []).fs = [] ∧
    (reset ["home", ".foam_backup"] noErr noErr
      (track ["home", ".foam_backup"] noErr
        [ (["home", ".foam_backup"], Node.dir 493),
          (["home", ".foam_backup", "data"], Node.dir 493),
          (["home", ".foam_backup", "data", "proj"], Node.dir 493),
          (["home"], Node.dir 493) ] []).fs []).msgs = [Msg.resetSummary 0 0 0] := by
  have h := C10_track_empty_folders
    [ (["home", ".foam_backup"], Node.dir 493),
      (["home", ".foam_backup", "data"], Node.dir 493),
      (["home", ".foam_backup", "data", "proj"], Node.dir 493),
      (["home"], Node.dir 493) ]
    ["home", ".foam_backup"] (by decide) (by decide)
    (fun q hq hb hn =>
      List.all_eq_true.1 (by decide) q ((strictBases_iff q _).2 ⟨hq, hb, hn⟩))
  exact ⟨h.2.1, h.2.2.2.2.2.1, h.2.2.2.2.2.2.2.1⟩

/-- C6: per-item failures never abort a whole pass.
1. A folder that is missing or not a directory is reported
   (`folderInvalid`) and skipped, and the loop continues on the remaining
   folders from an otherwise unchanged state (already-copied folders remain).
2. A folder whose copy fails (`eCopy`) is reported (`trackFailed`) and
   skipped, and the loop continues on the remaining folders.
3. In `reset`, a failure while removing an existing original counts one
   error, skips that entry's restore step, and the loop continues with the
   next entry on an unchanged filesystem.
4. In `reset`, a failure while recreating an entry counts one error and the
   loop continues with the next entry. -/
theorem C6_partial_failure_containment :
    (∀ (bdir : FPath) (eCopy : FPath → Bool) (s : TrackOut) (f : FPath)
      (rest : List FPath),
      s.crashed = false → (existsAt s.fs f && isDirAt s.fs f) = false →
      List.foldl (trackStep bdir eCopy) s (f :: rest) =
        List.foldl (trackStep bdir eCopy)
          { s with msgs := s.msgs ++ [Msg.folderInvalid f] } rest) ∧
    (∀ (bdir : FPath) (eCopy : FPath → Bool) (s : TrackOut) (f : FPath)
      (rest : List FPath) (fs1 : FS),
      s.crashed = false → (existsAt s.fs f && isDirAt s.fs f) = true →
      mkdirAll s.fs (bdir ++ f).dropLast = some fs1 → eCopy f = true →
      List.foldl (trackStep bdir eCopy) s (f :: rest) =
        List.foldl (trackStep bdir eCopy)
          ⟨fs1, s.msgs ++ [Msg.trackFailed f], false⟩ rest) ∧
    (∀ (eR eS : FPath → Bool) (st : FS × Nat) (t : FPath × FPath × FPath)
      (rest : List (FPath × FPath × FPath)),
      t.2.1 ≠ t.1 → existsFollow st.1 t.2.1 = true → eR t.2.1 = true →
      resetGo eR eS st (t :: rest) = resetGo eR eS (st.1, st.2 + 1) rest) ∧
    (∀ (eR eS : FPath → Bool) (st : FS × Nat) (t : FPath × FPath × FPath)
      (rest : List (FPath × FPath × FPath)),
      t.2.1 ≠ t.1 → existsAt st.1 t.2.1 = false → eS t.2.1 = true →
      resetGo eR eS st (t :: rest) = resetGo eR eS (st.1, st.2 + 1) rest) := by
  refine ⟨?_, ?_, ?_, ?_⟩
  · intro bdir eCopy s f rest hcr hval
    rw [List.foldl_cons]
    congr 1
    unfold trackStep
    rw [if_neg (by simp [hcr]), if_neg (by simp [hval])]
  · intro bdir eCopy s f rest fs1 hcr hval hmk hfail
    rw [List.foldl_cons]
    congr 1
    unfold trackStep
    rw [if_neg (by simp [hcr]), if_pos hval]
    simp [hmk, hfail]
  · intro eR eS st t rest hroot hex hfail
    unfold resetGo
    rw [List.foldl_cons]
    congr 1
    unfold resetStep
    simp [hroot, hex, hfail]
  · intro eR eS st t rest hroot hex hfail
    have hl : lookupFS st.1 t.2.1 = none := by
      unfold existsAt at hex
      rcases hll : lookupFS st.1 t.2.1 with _ | n
      · rfl
      · rw [hll] at hex
        exact Bool.noConfusion hex
    unfold resetGo
    rw [List.foldl_cons]
    congr 1
    unfold resetStep
    simp [hroot, existsFollow_none hl, hfail]

/-- Witness for C6 at concrete inputs: a missing folder, an injected copy
failure, an injected removal failure, and an injected restore failure, each
leaving the loop running on the remaining items. -/
theorem C6_partial_failure_containment_witness :
    (List.foldl (trackStep ["b"] noErr) ⟨[], [], false⟩ [["x"]] =
      List.foldl (trackStep ["b"] noErr)
        ⟨[], [] ++ [Msg.folderInvalid ["x"]], false⟩ []) ∧
    (List.foldl (trackStep ["b"] (fun _ => true)) ⟨[(["x"], Node.dir 493)], [], false⟩
        [["x"]] =
      List.foldl (trackStep ["b"] (fun _ => true))
        ⟨[(["b"], Node.dir defaultDirMode), (["x"], Node.dir 493)],
         [] ++ [Msg.trackFailed ["x"]], false⟩ []) ∧
    (resetGo (fun _ => true) noErr ([(["a", "b", "c"], Node.file [1] 420 0)], 0)
        [(["a", "b"], ["a", "b", "c"], ["s", "t", "c"])] =
      resetGo (fun _ => true) noErr ([(["a", "b", "c"], Node.file [1] 420 0)], 0 + 1) []) ∧
    (resetGo noErr (fun _ => true) ([], 0)
        [(["a", "b"], ["a", "b", "c"], ["s", "t", "c"])] =
      resetGo noErr (fun _ => true) ([], 0 + 1) []) := by
  refine ⟨?_, ?_, ?_, ?_⟩
  · exact C6_partial_failure_containment.1 ["b"] noErr ⟨[], [], false⟩ ["x"] []
      (by decide) (by decide)
  · exact C6_partial_failure_containment.2.1 ["b"] (fun _ => true)
      ⟨[(["x"], Node.dir 493)], [], false⟩ ["x"] []
      [(["b"], Node.dir defaultDirMode), (["x"], Node.dir 493)]
      (by decide) (by decide) (by decide) (by decide)
  · exact C6_partial_failure_containment.2.2.1 (fun _ => true) noErr
      ([(["a", "b", "c"], Node.file [1] 420 0)], 0)
      (["a", "b"], ["a", "b", "c"], ["s", "t", "c"]) []
      (by decide) (by decide) (by decide)
  · exact C6_partial_failure_containment.2.2.2 noErr (fun _ => true) ([], 0)
      (["a", "b"], ["a", "b", "c"], ["s", "t", "c"]) []
      (by decide) (by decide) (by decide)

/-- C5 counterexample: a read-only source directory (mode `0o555` = 365,
write bit `0o200` = 128 clear) is captured by `copytree` with its mode copied
verbatim — the write-permission bit is *not* force-set on copied directories
(`copy_function` is only invoked on regular files; directories get
`copystat`), refuting the claim as stated. -/
theorem C5_write_bit_cex :
    lookupFS (track ["home", ".foam_backup"] noErr
        [ (["home"], Node.dir 493), (["a"], Node.dir 493),
          (["a", "ro"], Node.dir 365) ] [["a"]]).fs
      ["home", ".foam_backup", "a", "ro"] = some (Node.dir 365) ∧
    (365 &&& WRITE_PERMISSION) = 0 := by
  decide

/-- C5 (amended): for every tree copied into the backup store by `track`,
symlinks are preserved as symlinks with their targets (never followed and
flattened) and never chmodded; regular files are copied with content and
metadata (mode, mtime) and the write-permission bit is force-set on every
copied regular file; directory modes are copied verbatim (the write bit is
*not* forced on directories). -/
theorem C5_capture_semantics (fs : FS) (bdir r : FPath)
    (hbne : bdir ≠ []) (hrne : r ≠ [])
    (hAncB : ∀ q, q ≠ [] → hasBase q bdir = true → q ≠ bdir → isDirAt fs q = true)
    (hrdir : ∃ m, lookupFS fs r = some (Node.dir m))
    (hd1 : hasBase bdir r = false) (hd2 : hasBase r bdir = false)
    (hNoOrphan : existsAt fs bdir = false →
      ∀ q, hasBase bdir q = true → lookupFS fs q = none) :
    (∀ rel n, lookupFS fs (r ++ rel) = some n →
      lookupFS (track bdir noErr fs [r]).fs (bdir ++ r ++ rel) =
        some (captureNode n)) ∧
    (∀ c m t, captureNode (Node.file c m t) =
        Node.file c (m ||| WRITE_PERMISSION) t ∧
      ((m ||| WRITE_PERMISSION) &&& WRITE_PERMISSION) = WRITE_PERMISSION) ∧
    (∀ tgt, captureNode (Node.symlink tgt) = Node.symlink tgt) ∧
    (∀ m, captureNode (Node.dir m) = Node.dir m) := by
  obtain ⟨-, -, hsub, -, -⟩ :=
    trackOne_char fs bdir r hbne hrne hAncB hrdir hd1 hd2 hNoOrphan
  refine ⟨?_, ?_, fun _ => rfl, fun _ => rfl⟩
  · intro rel n hn
    rw [hsub rel, hn]
    rfl
  · intro c m t
    refine ⟨rfl, ?_⟩
    apply Nat.eq_of_testBit_eq
    intro i
    simp only [Nat.testBit_land, Nat.testBit_lor]
    cases hw : WRITE_PERMISSION.testBit i <;> simp [hw]

/-- Witness for C5 (amended) at a concrete input: a source folder `/a`
holding a read-only subdirectory, a file, and a symlink. -/
theorem C5_capture_semantics_witness :
    (lookupFS (track ["home", ".foam_backup"] noErr
        [ (["home"], Node.dir 493), (["a"], Node.dir 493),
          (["a", "ro"], Node.dir 365), (["a", "f.txt"], Node.file [5] 292 3),
          (["a", "ln"], Node.symlink "f.txt") ] [["a"]]).fs
      (["home", ".foam_backup"] ++ ["a"] ++ ["ro"]) =
        some (captureNode (Node.dir 365))) ∧
    (captureNode (Node.file [5] 292 3) =
        Node.file [5] (292 ||| WRITE_PERMISSION) 3 ∧
      ((292 ||| WRITE_PERMISSION) &&& WRITE_PERMISSION) = WRITE_PERMISSION) ∧
    captureNode (Node.symlink "f.txt") = Node.symlink "f.txt" ∧
    captureNode (Node.dir 365) = Node.dir 365 := by
  have h := C5_capture_semantics
    [ (["home"], Node.dir 493), (["a"], Node.dir 493),
      (["a", "ro"], Node.dir 365), (["a", "f.txt"], Node.file [5] 292 3),
      (["a", "ln"], Node.symlink "f.txt") ]
    ["home", ".foam_backup"] ["a"] (by decide) (by decide)
    (fun q hq hb hn =>
      List.all_eq_true.1 (by decide) q ((strictBases_iff q _).2 ⟨hq, hb, hn⟩))
    ⟨493, by decide⟩ (by decide) (by decide)
    (fun _ => lookup_none_of_no_key (by decide))
  exact ⟨h.1 ["ro"] (Node.dir 365) (by decide), h.2.1 [5] 292 3,
    h.2.2.1 "f.txt", h.2.2.2 365⟩

/-! ## Lookup/membership bridges and the restore-loop frame -/

theorem lookupFS_mem {fs : FS} {p : FPath} {n : Node}
    (h : lookupFS fs p = some n) : (p, n) ∈ fs := by
  induction fs with
  | nil => exact Option.noConfusion h
  | cons e rest ih =>
    rw [lookupFS_cons] at h
    by_cases he : e.1 = p
    · rw [if_pos he] at h
      have h2 : e.2 = n := Option.some.inj h
      have he' : e = (p, n) := Prod.ext he h2
      rw [← he']
      exact List.mem_cons_self e rest
    · rw [if_neg he] at h
      exact List.mem_cons_of_mem e (ih h)

theorem mem_lookupFS_of_nodup {fs : FS} (hnd : keysNodupB fs = true)
    {e : FPath × Node} (he : e ∈ fs) : lookupFS fs e.1 = some e.2 := by
  induction fs with
  | nil => simp at he
  | cons f rest ih =>
    rw [keysNodupB, Bool.and_eq_true] at hnd
    rcases List.mem_cons.1 he with rfl | he'
    · rw [lookupFS_cons, if_pos rfl]
    · rw [lookupFS_cons, if_neg, ih hnd.2 he']
      intro hf
      have hany : rest.any (fun g => decide (g.1 = f.1)) = true :=
        List.any_eq_true.2 ⟨e, he', by simp [hf.symm]⟩
      rw [hany] at hnd
      simpa using hnd.1

theorem mkdirAll_preserve {fs fs' : FS} {tgt : FPath}
    (h : mkdirAll fs tgt = some fs') {p : FPath} (hp : hasBase p tgt = false) :
    lookupFS fs' p = lookupFS fs p := by
  rw [mkdirAll_lookup h p]
  rcases hl : lookupFS fs p with _ | n
  · rw [if_neg (by rintro ⟨-, hb⟩; rw [hb] at hp; exact Bool.noConfusion hp)]
  · rfl

/-- Every resolution endpoint is the path itself or a sibling (the chain
never leaves the starting path's parent directory, because a target is one
component relative to it). -/
theorem resolveTip_shape {fs : FS} : ∀ (fuel : Nat) (p q : FPath),
    resolveTip fs fuel p = some q →
    q = p ∨ ∃ t, q = p.dropLast ++ [t] := by
  intro fuel
  induction fuel with
  | zero =>
    intro p q h
    exact Option.noConfusion h
  | succ fuel ih =>
    intro p q h
    by_cases hsl : ∃ t, lookupFS fs p = some (Node.symlink t)
    · rcases hsl with ⟨t, ht⟩
      rw [resolveTip_symlink ht fuel] at h
      rcases ih (p.dropLast ++ [t]) q h with h' | ⟨t', h'⟩
      · exact Or.inr ⟨t, h'⟩
      · rw [List.dropLast_concat] at h'
        exact Or.inr ⟨t', h'⟩
    · push_neg at hsl
      rw [resolveTip_not_symlink hsl fuel] at h
      exact Or.inl (Option.some.inj h).symm

/-- One restore-loop step never touches a path that is no ancestor of the
entry's original path and does not lie beneath the original's *parent*
directory — the parent bound also covers the `copy2` write-through, whose
destination is always the original or a sibling of it. -/
theorem resetStep_frame (eR eS : FPath → Bool) (s : FS × Nat)
    (t : FPath × FPath × FPath) {p : FPath}
    (h1 : hasBase (t.2.1).dropLast p = false) (h2 : hasBase p t.2.1 = false) :
    lookupFS (resetStep eR eS s t).1 p = lookupFS s.1 p := by
  have h1' : hasBase t.2.1 p = false := by
    rcases hb : hasBase t.2.1 p with _ | _
    · rfl
    · rw [hasBase_trans (hasBase_dropLast _) hb] at h1
      exact Bool.noConfusion h1
  have hpo : ¬ p = t.2.1 := by
    rintro rfl
    rw [hasBase_refl] at h1'
    exact Bool.noConfusion h1'
  have hpd : hasBase p (t.2.1).dropLast = false := by
    rcases hb : hasBase p (t.2.1).dropLast with _ | _
    · rfl
    · rw [hasBase_trans hb (hasBase_dropLast _)] at h2
      exact Bool.noConfusion h2
  unfold resetStep
  split
  · rfl
  · split
    · rfl
    · rename_i fs1 heq
      have hfs1 : lookupFS fs1 p = lookupFS s.1 p := by
        split at heq
        · split at heq
          · exact Option.noConfusion heq
          · cases Option.some.inj heq
            split
            · rw [lookupFS_eraseKey, if_neg hpo]
            · rw [lookupFS_removeTree, if_neg (by simp [h1'])]
        · cases Option.some.inj heq
          rfl
      split
      · exact hfs1
      · split
        · split
          · exact hfs1
          · rename_i fs2 hmk
            split
            · rw [mkdirAll_preserve hmk hpd]
              exact hfs1
            · rename_i q hres
              have hqp : q ≠ p := by
                rcases resolveTip_shape _ _ _ hres with rfl | ⟨tg, rfl⟩
                · exact fun hc => hpo hc.symm
                · rintro rfl
                  rw [hasBase_append] at h1
                  exact Bool.noConfusion h1
              split
              · rw [mkdirAll_preserve hmk hpd]
                exact hfs1
              · rw [lookupFS_setNode, if_neg (fun hc => hqp hc.symm)]
                rw [mkdirAll_preserve hmk hpd]
                exact hfs1
        · split
          · exact hfs1
          · rename_i fs2 hmk
            split
            · rw [mkdirAll_preserve hmk hpd]
              exact hfs1
            · rw [lookupFS_setNode, if_neg hpo]
              rw [mkdirAll_preserve hmk hpd]
              exact hfs1
        · split
          · exact hfs1
          · rename_i fs2 hmk
            rw [mkdirAll_preserve hmk (by
              rcases hb : hasBase p t.2.1 with _ | _
              · rfl
              · rw [hb] at h2; exact Bool.noConfusion h2)]
            exact hfs1

theorem resetGo_frame (eR eS : FPath → Bool) (s : FS × Nat)
    (ts : List (FPath × FPath × FPath)) {p : FPath}
    (h : ∀ t ∈ ts, hasBase (t.2.1).dropLast p = false ∧
      hasBase p t.2.1 = false) :
    lookupFS (resetGo eR eS s ts).1 p = lookupFS s.1 p := by
  induction ts generalizing s with
  | nil => rfl
  | cons t rest ih =>
    show lookupFS (resetGo eR eS (resetStep eR eS s t) rest).1 p = _
    rw [ih _ (fun t' ht' => h t' (List.mem_cons_of_mem t ht'))]
    exact resetStep_frame eR eS s t (h t (List.mem_cons_self t rest)).1
      (h t (List.mem_cons_self t rest)).2

theorem eq_append_singleton_of_base_succ {b c : FPath} (hb : hasBase b c = true)
    (hl : c.length = b.length + 1) : ∃ s, c = b ++ [s] := by
  rcases (hasBase_iff b c).1 hb with ⟨t, rfl⟩
  rw [List.length_append] at hl
  cases t with
  | nil => simp at hl
  | cons s t' =>
    refine ⟨s, ?_⟩
    simp at hl
    rw [hl]

theorem mem_childrenDirsOf {fs : FS} {p c : FPath} (h : c ∈ childrenDirsOf fs p) :
    ∃ n, (c, n) ∈ fs ∧ c.length = p.length + 1 ∧ hasBase p c = true ∧
      isDirFollow fs c = true := by
  unfold childrenDirsOf at h
  rcases List.mem_filterMap.1 h with ⟨e, he, hf⟩
  split at hf
  · rename_i hcond
    cases Option.some.inj hf
    exact ⟨e.2, by simpa using he, hcond.1, hcond.2.1, hcond.2.2⟩
  · exact Option.noConfusion hf

theorem childrenDirsOf_mem {fs : FS} {p c : FPath} {n : Node}
    (hmem : (c, n) ∈ fs) (hlen : c.length = p.length + 1)
    (hb : hasBase p c = true) (hdir : isDirFollow fs c = true) :
    c ∈ childrenDirsOf fs p :=
  List.mem_filterMap.2 ⟨(c, n), hmem, by rw [if_pos ⟨hlen, hb, hdir⟩]⟩

theorem mem_trackedRoots {bdir : FPath} {fs : FS} {R bp : FPath}
    (h : (R, bp) ∈ trackedRoots bdir fs) :
    ∃ s1 s2 : Seg, R = [s1, s2] ∧ bp = bdir ++ [s1, s2] ∧
      bdir ++ [s1] ∈ childrenDirsOf fs bdir ∧
      bp ∈ childrenDirsOf fs (bdir ++ [s1]) := by
  unfold trackedRoots at h
  rcases List.mem_flatten.1 h with ⟨l, hl, hR⟩
  rcases List.mem_map.1 hl with ⟨c1, hc1, rfl⟩
  rcases List.mem_map.1 hR with ⟨c2, hc2, heq⟩
  have hR2 : dropBase bdir c2 = R := congrArg Prod.fst heq
  have hbp : c2 = bp := congrArg Prod.snd heq
  subst hbp
  rcases mem_childrenDirsOf hc1 with ⟨n1, hn1, hl1, hb1, hd1⟩
  rcases mem_childrenDirsOf hc2 with ⟨n2, hn2, hl2, hb2, hd2⟩
  rcases eq_append_singleton_of_base_succ hb1 hl1 with ⟨s1, rfl⟩
  rcases eq_append_singleton_of_base_succ hb2 (by rw [hl2, hl1]) with ⟨s2, rfl⟩
  refine ⟨s1, s2, ?_, by simp, hc1, hc2⟩
  rw [← hR2]
  rw [List.append_assoc, dropBase_append]
  rfl

theorem trackedRoots_mem {bdir : FPath} {fs : FS} {s1 s2 : Seg}
    (h1 : bdir ++ [s1] ∈ childrenDirsOf fs bdir)
    (h2 : bdir ++ [s1, s2] ∈ childrenDirsOf fs (bdir ++ [s1])) :
    ([s1, s2], bdir ++ [s1, s2]) ∈ trackedRoots bdir fs := by
  unfold trackedRoots
  apply List.mem_flatten.2
  refine ⟨(childrenDirsOf fs (bdir ++ [s1])).map
    (fun c2 => (dropBase bdir c2, c2)), ?_, ?_⟩
  · exact List.mem_map.2 ⟨bdir ++ [s1], h1, rfl⟩
  · exact List.mem_map.2 ⟨bdir ++ [s1, s2], h2, by rw [dropBase_append]⟩

/-- General form of `rglob` membership: entries live beneath the *resolved*
top path, with nonempty relative keys. -/
theorem mem_rglob_resolved {fs : FS} {bp rel : FPath} {n : Node}
    (h : (rel, n) ∈ rglob fs bp) :
    rel ≠ [] ∧ ∃ q, resolveFS fs bp = some q ∧ (q ++ rel, n) ∈ fs := by
  unfold rglob at h
  split at h
  · rename_i q hq
    have h' := (List.perm_insertionSort lenLE (strictSubAt fs q)).mem_iff.1 h
    rcases List.mem_filterMap.1 h' with ⟨e, he, hf⟩
    split at hf
    · rename_i hcond
      have hrel : dropBase q e.1 = rel := congrArg Prod.fst (Option.some.inj hf)
      have hn : e.2 = n := congrArg Prod.snd (Option.some.inj hf)
      have he1 : e.1 = q ++ rel := by
        rw [← hrel]
        exact (append_dropBase hcond.1).symm
      constructor
      · rw [← hrel]
        intro hd
        have := hcond.2
        rw [← append_dropBase hcond.1, hd, List.append_nil] at this
        omega
      · refine ⟨q, hq, ?_⟩
        rw [← he1, ← hn]
        simpa using he
    · exact Option.noConfusion hf
  · simp at h

/-- `rglob` membership with a plain (non-symlink) top path. -/
theorem mem_rglob {fs : FS} {bp rel : FPath} {n : Node}
    (h : (rel, n) ∈ rglob fs bp)
    (hbp : ∀ t, lookupFS fs bp ≠ some (Node.symlink t)) :
    rel ≠ [] ∧ (bp ++ rel, n) ∈ fs := by
  rcases mem_rglob_resolved h with ⟨hne, q, hq, hmem⟩
  rw [resolveFS_not_symlink hbp] at hq
  cases Option.some.inj hq
  exact ⟨hne, hmem⟩

theorem mem_resetEnum {bdir : FPath} {fs : FS} {t : FPath × FPath × FPath}
    (h : t ∈ resetEnum bdir fs) :
    ∃ R bp rel n, (R, bp) ∈ trackedRoots bdir fs ∧ (rel, n) ∈ rglob fs bp ∧
      t = (R, R ++ rel, bp ++ rel) := by
  unfold resetEnum at h
  rcases List.mem_flatten.1 h with ⟨l, hl, ht⟩
  rcases List.mem_map.1 hl with ⟨rc, hrc, rfl⟩
  rcases List.mem_map.1 ht with ⟨e, he, heq⟩
  exact ⟨rc.1, rc.2, e.1, e.2, by simpa using hrc, by simpa using he, heq.symm⟩

/-- C8 counterexample: when the snapshot covers the store's own location
(here: the store `~/.foam_backup` contains `home/.foam_backup/x`, as arises
from tracking the home directory), `reset()` decodes a TrackedRoot that lies
inside the store and overwrites a store entry — the BackupStore is *not*
left unchanged. -/
theorem C8_reset_store_mutated_cex :
    lookupFS
      [ (["home"], Node.dir 493),
        (["home", ".foam_backup"], Node.dir 493),
        (["home", ".foam_backup", "home"], Node.dir 493),
        (["home", ".foam_backup", "home", ".foam_backup"], Node.dir 493),
        (["home", ".foam_backup", "home", ".foam_backup", "x"],
          Node.file [7] 420 0),
        (["home", ".foam_backup", "x"], Node.file [9] 420 0) ]
      ["home", ".foam_backup", "x"] = some (Node.file [9] 420 0) ∧
    lookupFS (reset ["home", ".foam_backup"] noErr noErr
      [ (["home"], Node.dir 493),
        (["home", ".foam_backup"], Node.dir 493),
        (["home", ".foam_backup", "home"], Node.dir 493),
        (["home", ".foam_backup", "home", ".foam_backup"], Node.dir 493),
        (["home", ".foam_backup", "home", ".foam_backup", "x"],
          Node.file [7] 420 0),
        (["home", ".foam_backup", "x"], Node.file [9] 420 0) ] []).fs
      ["home", ".foam_backup", "x"] = some (Node.file [7] 420 0) := by
  decide



/-! ## Well-formedness bridges and key-uniqueness of the enumerations -/

theorem WFb_ancestors {fs : FS} (h : WFb fs = true) :
    ∀ p n, lookupFS fs p = some n → p ≠ [] ∧
      ∀ q, q ≠ [] → hasBase q p = true → q ≠ p →
        ∃ m, lookupFS fs q = some (Node.dir m) := by
  intro p n hl
  rw [WFb, Bool.and_eq_true] at h
  have hmem := lookupFS_mem hl
  have hall := List.all_eq_true.1 h.2 (p, n) hmem
  rw [Bool.and_eq_true] at hall
  refine ⟨by simpa using hall.1, ?_⟩
  intro q hq hqb hqp
  have hqs : q ∈ strictBases p := (strictBases_iff q p).2 ⟨hq, hqb, hqp⟩
  have := List.all_eq_true.1 hall.2 q hqs
  rw [isDirAt_of_ne_nil fs hq] at this
  rcases hlq : lookupFS fs q with _ | m
  · rw [hlq] at this
    exact absurd this (by simp)
  · rw [hlq] at this
    cases m with
    | dir mm => exact ⟨mm, rfl⟩
    | file c mo mt => simp [nodeIsDir] at this
    | symlink t => simp [nodeIsDir] at this

theorem WFb_nodup {fs : FS} (h : WFb fs = true) : keysNodupB fs = true := by
  rw [WFb, Bool.and_eq_true] at h
  exact h.1

theorem strictSubAt_keys_nodup {fs : FS} (hnd : keysNodupB fs = true)
    (br : FPath) : ((strictSubAt fs br).map Prod.fst).Nodup := by
  induction fs with
  | nil => exact List.nodup_nil
  | cons e rest ih =>
    rw [keysNodupB, Bool.and_eq_true] at hnd
    show (((e :: rest).filterMap _).map Prod.fst).Nodup
    rw [List.filterMap_cons]
    split
    · exact ih hnd.2
    · rename_i b hb
      split at hb
      · rename_i hcond
        cases Option.some.inj hb
        rw [List.map_cons, List.nodup_cons]
        refine ⟨?_, ih hnd.2⟩
        intro hmem
        rcases List.mem_map.1 hmem with ⟨f, hf, hfeq⟩
        rcases List.mem_filterMap.1 hf with ⟨g, hg, hgeq⟩
        split at hgeq
        · rename_i hgcond
          have h1 : dropBase br g.1 = dropBase br e.1 := by
            have := congrArg Prod.fst (Option.some.inj hgeq)
            simpa using this.trans hfeq
          have h2 : g.1 = e.1 := by
            have hge := append_dropBase hgcond.1
            have hee := append_dropBase hcond.1
            rw [← hge, ← hee, h1]
          have hany : rest.any (fun x => decide (x.1 = e.1)) = true :=
            List.any_eq_true.2 ⟨g, hg, by simp [h2]⟩
          rw [hany] at hnd
          simpa using hnd.1
        · exact Option.noConfusion hgeq
      · exact Option.noConfusion hb

theorem rglob_keys_nodup {fs : FS} (hnd : keysNodupB fs = true) (br : FPath) :
    ((rglob fs br).map Prod.fst).Nodup := by
  unfold rglob
  split
  · rename_i q hq
    have hperm : ((List.insertionSort lenLE (strictSubAt fs q)).map Prod.fst).Perm
        ((strictSubAt fs q).map Prod.fst) :=
      (List.perm_insertionSort lenLE (strictSubAt fs q)).map Prod.fst
    exact hperm.nodup_iff.2 (strictSubAt_keys_nodup hnd q)
  · exact List.nodup_nil

/-- A `filterMap` that only ever emits an entry's own key inherits key
uniqueness. -/
theorem filterMap_key_nodup {l : FS} (hnd : keysNodupB l = true)
    (g : FPath × Node → Option FPath)
    (hg : ∀ e, g e = none ∨ g e = some e.1) :
    (l.filterMap g).Nodup := by
  induction l with
  | nil => exact List.nodup_nil
  | cons e rest ih =>
    rw [keysNodupB, Bool.and_eq_true] at hnd
    rw [List.filterMap_cons]
    split
    · exact ih hnd.2
    · rename_i b hb
      rcases hg e with hge | hge
      · rw [hge] at hb
        exact Option.noConfusion hb
      · rw [hge] at hb
        cases Option.some.inj hb
        rw [List.nodup_cons]
        refine ⟨?_, ih hnd.2⟩
        intro hmem
        rcases List.mem_filterMap.1 hmem with ⟨f, hf, hfeq⟩
        rcases hg f with hgf | hgf
        · rw [hgf] at hfeq
          exact Option.noConfusion hfeq
        · rw [hgf] at hfeq
          have h2 : f.1 = e.1 := Option.some.inj hfeq
          have hany : rest.any (fun x => decide (x.1 = e.1)) = true :=
            List.any_eq_true.2 ⟨f, hf, by simp [h2]⟩
          rw [hany] at hnd
          simpa using hnd.1

theorem childrenDirsOf_nodup {fs : FS} (hnd : keysNodupB fs = true) (p : FPath) :
    (childrenDirsOf fs p).Nodup := by
  unfold childrenDirsOf
  apply filterMap_key_nodup hnd
  intro e
  by_cases hc : e.1.length = p.length + 1 ∧ hasBase p e.1 = true ∧
      isDirFollow fs e.1 = true
  · exact Or.inr (by rw [if_pos hc])
  · exact Or.inl (by rw [if_neg hc])

theorem eq_singleton_of_nodup {l : List FPath} {x : FPath} (hnd : l.Nodup)
    (hx : x ∈ l) (hall : ∀ y ∈ l, y = x) : l = [x] := by
  cases l with
  | nil => simp at hx
  | cons a rest =>
    have ha : a = x := hall a (List.mem_cons_self a rest)
    subst ha
    rw [List.nodup_cons] at hnd
    cases rest with
    | nil => rfl
    | cons b rest2 =>
      have hb : b = a := hall b (List.mem_cons_of_mem a (List.mem_cons_self b rest2))
      exact absurd (hb ▸ List.mem_cons_self b rest2) hnd.1

/-- Bridge for discharging the "no new top-level entries" condition at
concrete inputs. -/
theorem tops_of_entries {fs2 fs0 : FS} {r : FPath}
    (h : fs2.all (fun e =>
      !(decide (e.1.length = r.length + 1) && hasBase r e.1)
        || (lookupFS fs0 e.1).isSome) = true) :
    ∀ s : Seg, lookupFS fs2 (r ++ [s]) ≠ none →
      lookupFS fs0 (r ++ [s]) ≠ none := by
  intro s hne
  rcases hl : lookupFS fs2 (r ++ [s]) with _ | n
  · exact absurd hl hne
  · have hmem := lookupFS_mem hl
    have := List.all_eq_true.1 h (r ++ [s], n) hmem
    rw [Bool.or_eq_true] at this
    rcases this with hbad | hgood
    · exfalso
      rw [Bool.not_eq_true', Bool.and_eq_false_iff] at hbad
      rcases hbad with hbad | hbad
      · simp at hbad
      · rw [hasBase_append r [s]] at hbad
        exact Bool.noConfusion hbad
    · intro hcon
      rw [hcon] at hgood
      simp at hgood

/-! ## The restore loop replays the backup subtree -/

/-- One successful restore step: processing the entry with relative key
`rel` (store node `n_e`) wipes whatever was at the original path and writes
`restoreNode n_e` there, with no error counted, provided the invariant holds,
all strict ancestors of `rel` have already been processed, and any symlink
found at the original path points at a sibling that is present and not
itself a symlink (in the enumeration-time state and in the store). -/
theorem resetStep_restore (fs2 : FS) (br R0 : FPath)
    (hd1 : hasBase br R0 = false) (hd2 : hasBase R0 br = false)
    (hR0 : ∃ m0, lookupFS fs2 R0 = some (Node.dir m0))
    (hW2 : ∀ p n, lookupFS fs2 p = some n → ∀ q, q ≠ [] → hasBase q p = true →
      q ≠ p → ∃ m, lookupFS fs2 q = some (Node.dir m))
    (fs : FS) (n0 : Nat) (P : List FPath) (rel : FPath) (n_e : Node)
    (hrel : rel ≠ []) (hstore : lookupFS fs2 (br ++ rel) = some n_e)
    (hrelP : ¬ rel ∈ P)
    (hPlen : ∀ c ∈ P, c.length ≤ rel.length)
    (hbase : ∀ c, c ≠ [] → hasBase c rel = true → c ≠ rel → c ∈ P)
    (hPstore : ∀ c ∈ P, ∃ nc, lookupFS fs2 (br ++ c) = some nc)
    (hlink : ∀ t, lookupFS fs2 (R0 ++ rel) = some (Node.symlink t) →
      ∃ n', lookupFS fs2 (R0 ++ (rel.dropLast ++ [t])) = some n' ∧
        nodeIsSymlink n' = false ∧
        ∀ t', lookupFS fs2 (br ++ (rel.dropLast ++ [t])) ≠
          some (Node.symlink t'))
    (hI1 : ∀ rel', rel' ≠ [] →
      lookupFS fs (R0 ++ rel') = midNode fs2 br R0 P rel')
    (hI2 : ∀ p, hasBase br p = true ∨ hasBase p R0 = true →
      lookupFS fs p = lookupFS fs2 p) :
    ∃ fs', resetStep noErr noErr (fs, n0) (R0, R0 ++ rel, br ++ rel) =
        (fs', n0) ∧
      ∀ p, lookupFS fs' p =
        if p = R0 ++ rel then some (restoreNode n_e)
        else if hasBase (R0 ++ rel) p = true then none
        else lookupFS fs p := by
  have horig_ne : R0 ++ rel ≠ R0 := append_ne_self hrel
  have hbrrel_out : hasBase R0 (br ++ rel) = false := by
    rcases hb : hasBase R0 (br ++ rel) with _ | _
    · rfl
    · exfalso
      rcases hasBase_comparable hb (hasBase_append br rel) with h | h
      · rw [h] at hd2
        exact Bool.noConfusion hd2
      · rw [h] at hd1
        exact Bool.noConfusion hd1
  have hfs_store : lookupFS fs (br ++ rel) = some n_e := by
    rw [hI2 _ (Or.inl (hasBase_append br rel))]
    exact hstore
  -- every strict ancestor of the entry is already restored as a directory
  have hbasedirs : ∀ c, c ≠ [] → hasBase c rel = true → c ≠ rel →
      lookupFS fs (R0 ++ c) = some (Node.dir defaultDirMode) := by
    intro c hc hcb hcne
    have hcP := hbase c hc hcb hcne
    have hcdir : ∃ m, lookupFS fs2 (br ++ c) = some (Node.dir m) := by
      apply hW2 (br ++ rel) n_e hstore (br ++ c)
      · intro hco
        have hlen := congrArg List.length hco
        simp at hlen
        exact hc hlen.2
      · rw [hasBase_append_same_iff]
        exact hcb
      · intro heq
        exact hcne (List.append_cancel_left heq)
    rcases hcdir with ⟨m, hm⟩
    rw [hI1 c hc]
    unfold midNode
    rw [if_pos hcP, hm]
    rfl
  -- unprocessed descendants: paths strictly beneath the entry are stale
  have hUnderLen : ∀ rel', hasBase rel rel' = true → rel ≠ rel' →
      ¬ rel' ∈ P := by
    intro rel' hb hne hmem
    have h1 := hPlen rel' hmem
    have h2 := hasBase_length hb
    have : rel = rel' := hasBase_eq_of_length hb (by omega)
    exact hne this
  have hwipedn : ∀ rel', hasBase rel rel' = true → rel ≠ rel' →
      (∃ c ∈ P, c ≠ rel ∧ hasBase c rel = true) →
      (∃ c ∈ P, c ≠ rel' ∧ hasBase c rel' = true) := by
    rintro rel' hb hne ⟨c, hcP, hcne, hcb⟩
    refine ⟨c, hcP, ?_, hasBase_trans hcb hb⟩
    intro hceq
    subst hceq
    have h1 := hPlen c hcP
    have h2 := hasBase_length hb
    have : rel = c := hasBase_eq_of_length hb (by omega)
    exact hcne this.symm
  -- if the fs2 node at the original is leaf or absent, nothing lies beneath
  have hUnderNone : ∀ rel', hasBase rel rel' = true → rel ≠ rel' →
      (∀ m, lookupFS fs2 (R0 ++ rel) ≠ some (Node.dir m)) →
      lookupFS fs (R0 ++ rel') = none := by
    intro rel' hb hne hnd
    have hrel' : rel' ≠ [] := by
      rintro rfl
      exact hrel ((hasBase_nil_iff rel).1 hb)
    rw [hI1 rel' hrel']
    unfold midNode
    rw [if_neg (hUnderLen rel' hb hne)]
    by_cases hw : ∃ c ∈ P, c ≠ rel' ∧ hasBase c rel' = true
    · rw [if_pos hw]
    · rw [if_neg hw]
      rcases hl : lookupFS fs2 (R0 ++ rel') with _ | n'
      · rfl
      · exfalso
        have := hW2 (R0 ++ rel') n' hl (R0 ++ rel)
          (by
            intro hco
            have hlen := congrArg List.length hco
            simp at hlen
            exact hrel hlen.2)
          (by rw [hasBase_append_same_iff]; exact hb)
          (by
            intro heq
            exact hne (List.append_cancel_left heq))
        rcases this with ⟨m, hm⟩
        exact hnd m hm
  -- if an ancestor already wiped the entry, its descendants are absent too
  have hUnderWiped : ∀ rel', hasBase rel rel' = true → rel ≠ rel' →
      (∃ c ∈ P, c ≠ rel ∧ hasBase c rel = true) →
      lookupFS fs (R0 ++ rel') = none := by
    intro rel' hb hne hw
    have hrel' : rel' ≠ [] := by
      rintro rfl
      exact hrel ((hasBase_nil_iff rel).1 hb)
    rw [hI1 rel' hrel']
    unfold midNode
    rw [if_neg (hUnderLen rel' hb hne), if_pos (hwipedn rel' hb hne hw)]
  -- the removal phase: compute the intermediate state and its two frame facts
  have hremoval : ∃ fs1,
      (if existsFollow fs (R0 ++ rel) = true then
        (if noErr (R0 ++ rel) = true then none
         else some (if isLeafAt fs (R0 ++ rel) = true then
            eraseKey fs (R0 ++ rel) else removeTree fs (R0 ++ rel)))
       else some fs) = some fs1 ∧
      (∀ p, hasBase (R0 ++ rel) p = false → lookupFS fs1 p = lookupFS fs p) ∧
      (∀ p, hasBase (R0 ++ rel) p = true → lookupFS fs1 p = none) := by
    have horig := hI1 rel hrel
    unfold midNode at horig
    rw [if_neg hrelP] at horig
    by_cases hw : ∃ c ∈ P, c ≠ rel ∧ hasBase c rel = true
    · -- already wiped by an ancestor: nothing exists beneath or at the original
      rw [if_pos hw] at horig
      have hex : existsFollow fs (R0 ++ rel) = false := existsFollow_none horig
      refine ⟨fs, by rw [hex]; rfl, fun p _ => rfl, ?_⟩
      intro p hp
      rcases (hasBase_iff _ p).1 hp with ⟨t, rfl⟩
      rcases ht : t with _ | ⟨x, ts⟩
      · rw [List.append_nil]
        exact horig
      · rw [← ht]
        have hbrr : hasBase rel (rel ++ t) = true := hasBase_append rel t
        have hner : rel ≠ rel ++ t := by
          rw [ht]
          exact fun hc => (append_ne_self (by simp) hc.symm)
        rw [List.append_assoc]
        rw [hUnderWiped (rel ++ t) hbrr hner hw]
    · rw [if_neg hw] at horig
      rcases hl2 : lookupFS fs2 (R0 ++ rel) with _ | v
      · -- the original does not exist
        rw [hl2] at horig
        have hex : existsFollow fs (R0 ++ rel) = false := existsFollow_none horig
        refine ⟨fs, by rw [hex]; rfl, fun p _ => rfl, ?_⟩
        intro p hp
        rcases (hasBase_iff _ p).1 hp with ⟨t, rfl⟩
        rcases ht : t with _ | ⟨x, ts⟩
        · rw [List.append_nil]
          exact horig
        · rw [← ht, List.append_assoc]
          rw [hUnderNone (rel ++ t)
            (hasBase_append rel t)
            (by rw [ht]; exact fun hc => (append_ne_self (by simp) hc.symm))
            (by
              intro m hm
              rw [hl2] at hm
              exact Option.noConfusion hm)]
      · rw [hl2] at horig
        cases v with
        | dir m =>
          -- directory: rmtree wipes the whole stale subtree
          have hex : existsFollow fs (R0 ++ rel) = true :=
            existsFollow_some_nonlink horig rfl
          have hleaf : isLeafAt fs (R0 ++ rel) = false := by
            unfold isLeafAt
            rw [horig]
            rfl
          refine ⟨removeTree fs (R0 ++ rel),
            by rw [hex, hleaf]; simp [noErr], ?_, ?_⟩
          · intro p hp
            rw [lookupFS_removeTree, if_neg (by simp [hp])]
          · intro p hp
            rw [lookupFS_removeTree, if_pos hp]
        | file c mo mt =>
          have hex : existsFollow fs (R0 ++ rel) = true :=
            existsFollow_some_nonlink horig rfl
          have hleaf : isLeafAt fs (R0 ++ rel) = true := by
            unfold isLeafAt
            rw [horig]
            rfl
          refine ⟨eraseKey fs (R0 ++ rel),
            by rw [hex, hleaf]; simp [noErr], ?_, ?_⟩
          · intro p hp
            rw [lookupFS_eraseKey, if_neg]
            rintro rfl
            rw [hasBase_refl] at hp
            exact Bool.noConfusion hp
          · intro p hp
            rw [lookupFS_eraseKey]
            by_cases hpe : p = R0 ++ rel
            · rw [if_pos hpe]
            · rw [if_neg hpe]
              rcases (hasBase_iff _ p).1 hp with ⟨t, rfl⟩
              have htn : t ≠ [] := by
                rintro rfl
                exact hpe (List.append_nil _)
              rw [List.append_assoc]
              rw [hUnderNone (rel ++ t)
                (hasBase_append rel t)
                (fun hc => htn (by simpa using congrArg List.length hc))
                (by
                  intro m hm
                  rw [hl2] at hm
                  exact Node.noConfusion (Option.some.inj hm))]
        | symlink tgt =>
          -- exists() follows the link: the target is a present, non-symlink
          -- sibling, so removal still fires (matching the structural case)
          obtain ⟨n', hn'eq, hn'nl, hbak⟩ := hlink tgt hl2
          have hsibne : rel.dropLast ++ [tgt] ≠ [] := by simp
          have hsib : ∃ sn,
              midNode fs2 br R0 P (rel.dropLast ++ [tgt]) = some sn ∧
              nodeIsSymlink sn = false := by
            unfold midNode
            by_cases hmem : rel.dropLast ++ [tgt] ∈ P
            · rw [if_pos hmem]
              obtain ⟨nc, hnc⟩ := hPstore _ hmem
              rw [hnc]
              refine ⟨restoreNode nc, rfl, ?_⟩
              rw [nodeIsSymlink_restore]
              cases nc with
              | symlink t' => exact absurd hnc (hbak t')
              | file c m mt => rfl
              | dir m => rfl
            · rw [if_neg hmem]
              rw [if_neg (by
                rintro ⟨c, hcP, hcne, hcb⟩
                apply hw
                have h1 := hasBase_length hcb
                have hrl0 : rel.length ≠ 0 :=
                  fun hc => hrel (List.eq_nil_of_length_eq_zero hc)
                have hclt : c.length ≤ rel.dropLast.length := by
                  rcases Nat.lt_or_ge c.length
                      (rel.dropLast ++ [tgt]).length with hlt | hge
                  · simp only [List.length_append, List.length_dropLast,
                      List.length_singleton] at hlt
                    rw [List.length_dropLast]
                    omega
                  · exact absurd (hasBase_eq_of_length hcb (by omega)) hcne
                have hctake : c = rel.dropLast.take c.length := by
                  have hq := take_eq_of_hasBase hcb
                  rwa [List.take_append_of_le_length hclt] at hq
                refine ⟨c, hcP, ?_, ?_⟩
                · intro hceq
                  have hlc := congrArg List.length hceq
                  rw [List.length_dropLast] at hclt
                  omega
                · rw [hctake]
                  exact hasBase_trans (hasBase_take _ _) (hasBase_dropLast rel))]
              exact ⟨n', hn'eq, hn'nl⟩
          obtain ⟨sn, hsn, hsnl⟩ := hsib
          have hex : existsFollow fs (R0 ++ rel) = true := by
            refine existsFollow_link horig ?_ hsnl
            rw [dropLast_append_left hrel, List.append_assoc, hI1 _ hsibne]
            exact hsn
          have hleaf : isLeafAt fs (R0 ++ rel) = true := by
            unfold isLeafAt
            rw [horig]
            rfl
          refine ⟨eraseKey fs (R0 ++ rel),
            by rw [hex, hleaf]; simp [noErr], ?_, ?_⟩
          · intro p hp
            rw [lookupFS_eraseKey, if_neg]
            rintro rfl
            rw [hasBase_refl] at hp
            exact Bool.noConfusion hp
          · intro p hp
            rw [lookupFS_eraseKey]
            by_cases hpe : p = R0 ++ rel
            · rw [if_pos hpe]
            · rw [if_neg hpe]
              rcases (hasBase_iff _ p).1 hp with ⟨t, rfl⟩
              have htn : t ≠ [] := by
                rintro rfl
                exact hpe (List.append_nil _)
              rw [List.append_assoc]
              rw [hUnderNone (rel ++ t)
                (hasBase_append rel t)
                (fun hc => htn (by simpa using congrArg List.length hc))
                (by
                  intro m hm
                  rw [hl2] at hm
                  exact Node.noConfusion (Option.some.inj hm))]
  rcases hremoval with ⟨fs1, hfs1eq, hfs1out, hfs1under⟩
  -- the store entry is still visible after the removal
  have hstore1 : lookupFS fs1 (br ++ rel) = some n_e := by
    rw [hfs1out _ (by
      rcases hb : hasBase (R0 ++ rel) (br ++ rel) with _ | _
      · rfl
      · rw [hasBase_of_append_base hb] at hbrrel_out
        exact Bool.noConfusion hbrrel_out)]
    exact hfs_store
  -- every nonempty initial segment of R0 ++ rel other than the path itself
  -- is a directory in fs1
  have hchain : ∀ q, q ≠ [] → hasBase q (R0 ++ rel) = true → q ≠ R0 ++ rel →
      isDirAt fs1 q = true := by
    intro q hq hqb hqne
    have hqnotunder : hasBase (R0 ++ rel) q = false := by
      rcases hb : hasBase (R0 ++ rel) q with _ | _
      · rfl
      · exact absurd (hasBase_antisymm hb hqb).symm hqne
    rw [isDirAt_of_ne_nil _ hq]
    rw [hfs1out q hqnotunder]
    by_cases hqeq : q = R0
    · subst hqeq
      rcases hR0 with ⟨m0, hm0⟩
      rw [hI2 q (Or.inr (hasBase_refl q)), hm0]
      rfl
    · rcases hasBase_comparable hqb (hasBase_append R0 rel) with hqR | hRq
      · -- strictly above the original root
        rw [hI2 q (Or.inr hqR)]
        rcases hR0 with ⟨m0, hm0⟩
        rcases hW2 R0 (Node.dir m0) hm0 q hq hqR hqeq with ⟨m, hm⟩
        rw [hm]
        rfl
      · -- strictly below the root: an already-processed chain directory
        have hc := (hasBase_iff R0 q).1 hRq
        rcases hc with ⟨c, rfl⟩
        have hcne : c ≠ [] := by
          rintro rfl
          exact hqeq (List.append_nil R0)
        have hcb : hasBase c rel = true := by
          rw [hasBase_append_same_iff] at hqb
          exact hqb
        have hcner : c ≠ rel := fun hc => hqne (by rw [hc])
        rw [hbasedirs c hcne hcb hcner]
        rfl
  -- the original path itself is absent in fs1
  have horig1 : lookupFS fs1 (R0 ++ rel) = none :=
    hfs1under _ (hasBase_refl _)
  -- parent creation is a no-op
  have hmkparent : mkdirAll fs1 (R0 ++ rel).dropLast = some fs1 := by
    apply mkdirAll_noop
    intro q hq hqb
    apply hchain q hq
    · exact hasBase_trans hqb (hasBase_dropLast _)
    · intro hqe
      subst hqe
      have h1 := hasBase_length hqb
      rw [List.length_dropLast] at h1
      have h3 : rel.length ≠ 0 :=
        fun hc => hrel (List.eq_nil_of_length_eq_zero hc)
      rw [List.length_append] at h1
      omega
  -- creating the directory itself when the entry is a directory
  have hmkdir : mkdirAll fs1 (R0 ++ rel) =
      some (setNode fs1 (R0 ++ rel) (Node.dir defaultDirMode)) := by
    apply mkdirAll_last_missing _ _ (by
      rintro hc
      have hlen := congrArg List.length hc
      simp at hlen
      exact hrel hlen.2)
    · intro t ht htb htn
      exact hchain t ht htb htn
    · exact horig1
  -- now evaluate the whole step
  refine ⟨setNode fs1 (R0 ++ rel) (restoreNode n_e), ?_, ?_⟩
  · show resetStep noErr noErr (fs, n0) (R0, R0 ++ rel, br ++ rel) = _
    unfold resetStep
    rw [if_neg (show ¬ (R0, R0 ++ rel, br ++ rel).2.1 =
        (R0, R0 ++ rel, br ++ rel).1 from horig_ne)]
    show (match (if existsFollow fs (R0 ++ rel) = true then
        (if noErr (R0 ++ rel) = true then none
         else some (if isLeafAt fs (R0 ++ rel) = true then
            eraseKey fs (R0 ++ rel) else removeTree fs (R0 ++ rel)))
       else some fs) with
      | none => (fs, n0 + 1)
      | some fs1 => _) = _
    rw [hfs1eq]
    show (if noErr (R0 ++ rel) = true then (fs1, n0 + 1) else _) = _
    rw [if_neg (by simp [noErr])]
    show (match lookupFS fs1 (br ++ rel) with
      | some (Node.file c m mt) => _
      | some (Node.symlink tgt) => _
      | _ => _) = _
    rw [hstore1]
    cases n_e with
    | file c mo mt =>
      show (match mkdirAll fs1 (R0 ++ rel).dropLast with
        | none => (fs1, n0 + 1)
        | some fs2x =>
          match resolveFS fs2x (R0 ++ rel) with
          | none => (fs2x, n0 + 1)
          | some q =>
            if isDirAt fs2x q = true then (fs2x, n0 + 1)
            else (setNode fs2x q (Node.file c mo mt), n0)) = _
      rw [hmkparent]
      show (match resolveFS fs1 (R0 ++ rel) with
        | none => (fs1, n0 + 1)
        | some q =>
          if isDirAt fs1 q = true then (fs1, n0 + 1)
          else (setNode fs1 q (Node.file c mo mt), n0)) = _
      rw [resolveFS_not_symlink (fun t ht => by
        rw [horig1] at ht
        exact Option.noConfusion ht)]
      show (if isDirAt fs1 (R0 ++ rel) = true then (fs1, n0 + 1)
        else (setNode fs1 (R0 ++ rel) (Node.file c mo mt), n0)) = _
      rw [if_neg (by
        rw [isDirAt_of_ne_nil fs1 (show R0 ++ rel ≠ [] by
          intro hc
          have hlen := congrArg List.length hc
          simp at hlen
          exact hrel hlen.2)]
        rw [horig1]
        simp)]
      rfl
    | symlink tgt =>
      show (match mkdirAll fs1 (R0 ++ rel).dropLast with
        | none => (fs1, n0 + 1)
        | some fs2x =>
          if existsAt fs2x (R0 ++ rel) = true then (fs2x, n0 + 1)
          else (setNode fs2x (R0 ++ rel) (Node.symlink tgt), n0)) = _
      rw [hmkparent]
      show (if existsAt fs1 (R0 ++ rel) = true then (fs1, n0 + 1)
        else (setNode fs1 (R0 ++ rel) (Node.symlink tgt), n0)) = _
      rw [if_neg (by
        unfold existsAt
        rw [horig1]
        simp)]
      rfl
    | dir m =>
      show (match mkdirAll fs1 (R0 ++ rel) with
        | none => (fs1, n0 + 1)
        | some fs2x => (fs2x, n0)) = _
      rw [hmkdir]
      rfl
  · intro p
    rw [lookupFS_setNode]
    by_cases hpe : p = R0 ++ rel
    · rw [if_pos hpe, if_pos hpe]
    · rw [if_neg hpe, if_neg hpe]
      by_cases hpu : hasBase (R0 ++ rel) p = true
      · rw [if_pos hpu]
        exact hfs1under p hpu
      · rw [if_neg hpu]
        exact hfs1out p (by simpa using hpu)

/-- Marking `rel` as processed does not change the mid-restore value at a
path that is neither `rel` nor beneath it. -/
theorem midNode_extend (fs2 : FS) (br R0 : FPath) (P : List FPath)
    (rel rel' : FPath) (hne : rel' ≠ rel) (hnb : hasBase rel rel' = false) :
    midNode fs2 br R0 (P ++ [rel]) rel' = midNode fs2 br R0 P rel' := by
  unfold midNode
  by_cases hmem : rel' ∈ P
  · rw [if_pos (List.mem_append_left _ hmem), if_pos hmem]
  · rw [if_neg (by
      intro hx
      rcases List.mem_append.1 hx with h | h
      · exact hmem h
      · exact hne (List.mem_singleton.1 h))]
    rw [if_neg hmem]
    by_cases hw : ∃ c ∈ P, c ≠ rel' ∧ hasBase c rel' = true
    · rcases hw with ⟨c, hc, hcne, hcb⟩
      rw [if_pos ⟨c, List.mem_append_left _ hc, hcne, hcb⟩]
      rw [if_pos ⟨c, hc, hcne, hcb⟩]
    · rw [if_neg (by
        rintro ⟨c, hc, hcne, hcb⟩
        rcases List.mem_append.1 hc with h | h
        · exact hw ⟨c, h, hcne, hcb⟩
        · rw [List.mem_singleton.1 h] at hcb
          rw [hcb] at hnb
          exact Bool.noConfusion hnb)]
      rw [if_neg hw]

/-- The restore loop over the remaining (length-sorted, store-accurate)
entries of one tracked root: no error is counted, the subtree below the root
advances to the mid-restore characterization with all remaining keys
processed, and everything at or outside the root stays equal to the
enumeration-time state. -/
theorem resetGo_restore (fs2 : FS) (br R0 : FPath)
    (hd1 : hasBase br R0 = false) (hd2 : hasBase R0 br = false)
    (hR0 : ∃ m0, lookupFS fs2 R0 = some (Node.dir m0))
    (hW2 : ∀ p n, lookupFS fs2 p = some n → ∀ q, q ≠ [] → hasBase q p = true →
      q ≠ p → ∃ m, lookupFS fs2 q = some (Node.dir m)) :
    ∀ (rem : List (FPath × Node)) (P : List FPath) (fs : FS) (n0 : Nat),
      (∀ e ∈ rem, e.1 ≠ [] ∧ lookupFS fs2 (br ++ e.1) = some e.2) →
      List.Pairwise lenLE rem →
      (∀ c ∈ P, ∀ e ∈ rem, c.length ≤ e.1.length) →
      (∀ e ∈ rem, ¬ e.1 ∈ P) →
      (rem.map Prod.fst).Nodup →
      (∀ rel n, lookupFS fs2 (br ++ rel) = some n → rel ≠ [] →
        rel ∈ P ∨ rel ∈ rem.map Prod.fst) →
      (∀ c ∈ P, ∃ nc, lookupFS fs2 (br ++ c) = some nc) →
      (∀ e ∈ rem, ∀ t, lookupFS fs2 (R0 ++ e.1) = some (Node.symlink t) →
        ∃ n', lookupFS fs2 (R0 ++ (e.1.dropLast ++ [t])) = some n' ∧
          nodeIsSymlink n' = false ∧
          ∀ t', lookupFS fs2 (br ++ (e.1.dropLast ++ [t])) ≠
            some (Node.symlink t')) →
      (∀ rel, rel ≠ [] → lookupFS fs (R0 ++ rel) = midNode fs2 br R0 P rel) →
      (∀ p, hasBase br p = true ∨ hasBase p R0 = true →
        lookupFS fs p = lookupFS fs2 p) →
      (resetGo noErr noErr (fs, n0)
          (rem.map (fun e => (R0, R0 ++ e.1, br ++ e.1)))).2 = n0 ∧
      (∀ rel, rel ≠ [] →
        lookupFS (resetGo noErr noErr (fs, n0)
          (rem.map (fun e => (R0, R0 ++ e.1, br ++ e.1)))).1 (R0 ++ rel) =
        midNode fs2 br R0 (P ++ rem.map Prod.fst) rel) ∧
      (∀ p, hasBase R0 p = false ∨ p = R0 →
        lookupFS (resetGo noErr noErr (fs, n0)
          (rem.map (fun e => (R0, R0 ++ e.1, br ++ e.1)))).1 p =
        lookupFS fs p) := by
  intro rem
  induction rem with
  | nil =>
    intro P fs n0 _ _ _ _ _ _ _ _ hI1 _
    refine ⟨rfl, ?_, ?_⟩
    · intro rel hrel
      show lookupFS fs (R0 ++ rel) = _
      rw [hI1 rel hrel]
      simp
    · intro p hp
      rfl
  | cons e rem ih =>
    intro P fs n0 hent hpw hPlen hnotP hnd hcover hPst hlinks hI1 hI2
    have hrel : e.1 ≠ [] := (hent e (List.mem_cons_self e rem)).1
    have hstore : lookupFS fs2 (br ++ e.1) = some e.2 :=
      (hent e (List.mem_cons_self e rem)).2
    have hheadle : ∀ e' ∈ rem, e.1.length ≤ e'.1.length :=
      fun e' he' => (List.pairwise_cons.1 hpw).1 e' he'
    have hbase : ∀ c, c ≠ [] → hasBase c e.1 = true → c ≠ e.1 → c ∈ P := by
      intro c hc hcb hcne
      have hcdir : ∃ m, lookupFS fs2 (br ++ c) = some (Node.dir m) := by
        apply hW2 (br ++ e.1) e.2 hstore (br ++ c)
        · intro hco
          have hlen := congrArg List.length hco
          simp at hlen
          exact hc hlen.2
        · rw [hasBase_append_same_iff]
          exact hcb
        · intro heq
          exact hcne (List.append_cancel_left heq)
      rcases hcdir with ⟨m, hm⟩
      rcases hcover c (Node.dir m) hm hc with h | h
      · exact h
      · rw [List.map_cons] at h
        rcases List.mem_cons.1 h with h | h
        · exact absurd h hcne
        · exfalso
          rcases List.mem_map.1 h with ⟨e', he', rfl⟩
          have h1 := hheadle e' he'
          have h2 := hasBase_length hcb
          exact hcne (hasBase_eq_of_length hcb (by omega))
    rcases resetStep_restore fs2 br R0 hd1 hd2 hR0 hW2 fs n0 P e.1 e.2
        hrel hstore (hnotP e (List.mem_cons_self e rem))
        (fun c hc => hPlen c hc e (List.mem_cons_self e rem))
        hbase hPst (hlinks e (List.mem_cons_self e rem))
        hI1 hI2 with ⟨fs', hstep, hchar⟩
    have horig_ne : R0 ++ e.1 ≠ R0 := append_ne_self hrel
    -- invariant re-established for the processed-set P ++ [e.1]
    have hI1' : ∀ rel', rel' ≠ [] →
        lookupFS fs' (R0 ++ rel') = midNode fs2 br R0 (P ++ [e.1]) rel' := by
      intro rel' hrel'
      rw [hchar (R0 ++ rel')]
      by_cases heq : rel' = e.1
      · subst heq
        rw [if_pos rfl]
        unfold midNode
        rw [if_pos (List.mem_append_right _ (List.mem_singleton.2 rfl))]
        rw [hstore]
        rfl
      · rw [if_neg (fun hc => heq (List.append_cancel_left hc))]
        by_cases hub : hasBase (R0 ++ e.1) (R0 ++ rel') = true
        · rw [if_pos hub]
          have hb : hasBase e.1 rel' = true := by
            rw [hasBase_append_same_iff] at hub
            exact hub
          unfold midNode
          rw [if_neg (by
            intro hmem
            rcases List.mem_append.1 hmem with h | h
            · have h1 := hPlen rel' h e (List.mem_cons_self e rem)
              have h2 := hasBase_length hb
              exact heq (hasBase_eq_of_length hb (by omega)).symm
            · exact heq (List.mem_singleton.1 h))]
          rw [if_pos ⟨e.1,
            List.mem_append_right _ (List.mem_singleton.2 rfl),
            fun hc => heq hc.symm, hb⟩]
        · rw [if_neg hub]
          have hnb : hasBase e.1 rel' = false := by
            rcases hbb : hasBase e.1 rel' with _ | _
            · rfl
            · rw [hasBase_append_same_iff R0 e.1 rel', hbb] at hub
              exact absurd rfl hub
          rw [midNode_extend fs2 br R0 P e.1 rel' heq hnb]
          exact hI1 rel' hrel'
    have hframe : ∀ p, hasBase R0 p = false ∨ p = R0 →
        lookupFS fs' p = lookupFS fs p := by
      intro p hp
      rw [hchar p]
      rw [if_neg (by
        rintro rfl
        rcases hp with hp | hp
        · rw [hasBase_append R0 e.1] at hp
          exact Bool.noConfusion hp
        · exact horig_ne hp)]
      rw [if_neg (by
        intro hb
        rcases hp with hp | hp
        · rw [hasBase_trans (hasBase_append R0 e.1) hb] at hp
          exact Bool.noConfusion hp
        · subst hp
          have := hasBase_length hb
          rw [List.length_append] at this
          have : e.1.length = 0 := by omega
          exact hrel (List.eq_nil_of_length_eq_zero this))]
    have hI2' : ∀ p, hasBase br p = true ∨ hasBase p R0 = true →
        lookupFS fs' p = lookupFS fs2 p := by
      intro p hp
      have hfs'p : lookupFS fs' p = lookupFS fs p := by
        rw [hchar p]
        rcases hp with hp | hp
        · rw [if_neg (by
            rintro rfl
            rcases hasBase_comparable hp (hasBase_append R0 e.1) with h | h
            · rw [h] at hd1
              exact Bool.noConfusion hd1
            · rw [h] at hd2
              exact Bool.noConfusion hd2)]
          rw [if_neg (by
            intro hb
            rcases hasBase_comparable hb hp with h | h
            · rw [hasBase_of_append_base h] at hd2
              exact Bool.noConfusion hd2
            · rcases hasBase_comparable h (hasBase_append R0 e.1) with h2 | h2
              · rw [h2] at hd1
                exact Bool.noConfusion hd1
              · rw [h2] at hd2
                exact Bool.noConfusion hd2)]
        · have hlp := hasBase_length hp
          have hel : e.1.length ≠ 0 :=
            fun hc => hrel (List.eq_nil_of_length_eq_zero hc)
          rw [if_neg (by
            rintro rfl
            rw [List.length_append] at hlp
            omega)]
          rw [if_neg (by
            rw [not_hasBase_of_length_lt
              (show p.length < (R0 ++ e.1).length by
                rw [List.length_append]
                omega)]
            simp)]
      rw [hfs'p]
      exact hI2 p hp
    have hrec := ih (P ++ [e.1]) fs' n0
      (fun e' he' => hent e' (List.mem_cons_of_mem e he'))
      (List.pairwise_cons.1 hpw).2
      (by
        intro c hc e' he'
        rcases List.mem_append.1 hc with h | h
        · exact hPlen c h e' (List.mem_cons_of_mem e he')
        · rw [List.mem_singleton.1 h]
          exact hheadle e' he')
      (by
        intro e' he' hc
        rcases List.mem_append.1 hc with h | h
        · exact hnotP e' (List.mem_cons_of_mem e he') h
        · apply (List.nodup_cons.1 (by
            rw [List.map_cons] at hnd
            exact hnd)).1
          rw [← List.mem_singleton.1 h]
          exact List.mem_map.2 ⟨e', he', rfl⟩)
      (by
        rw [List.map_cons] at hnd
        exact (List.nodup_cons.1 hnd).2)
      (by
        intro rel n hl hrne
        rcases hcover rel n hl hrne with h | h
        · exact Or.inl (List.mem_append_left _ h)
        · rw [List.map_cons] at h
          rcases List.mem_cons.1 h with h | h
          · exact Or.inl (List.mem_append_right _ (List.mem_singleton.2 h))
          · exact Or.inr h)
      (by
        intro c hc
        rcases List.mem_append.1 hc with h | h
        · exact hPst c h
        · rw [List.mem_singleton.1 h]
          exact ⟨e.2, hstore⟩)
      (fun e' he' => hlinks e' (List.mem_cons_of_mem e he'))
      hI1' hI2'
    rw [List.map_cons]
    have hgo : resetGo noErr noErr (fs, n0)
        ((R0, R0 ++ e.1, br ++ e.1) ::
          rem.map (fun e => (R0, R0 ++ e.1, br ++ e.1))) =
        resetGo noErr noErr (fs', n0)
          (rem.map (fun e => (R0, R0 ++ e.1, br ++ e.1))) := by
      show resetGo noErr noErr
        (resetStep noErr noErr (fs, n0) (R0, R0 ++ e.1, br ++ e.1)) _ = _
      rw [hstep]
    rw [hgo]
    refine ⟨hrec.1, ?_, ?_⟩
    · intro rel hrelne
      rw [hrec.2.1 rel hrelne, List.map_cons, List.append_assoc]
      rfl
    · intro p hp
      rw [hrec.2.2 p hp]
      exact hframe p hp

/-! ## Remaining infrastructure for the round-trip theorem -/

theorem rglob_pairwise (fs : FS) (br : FPath) :
    List.Pairwise lenLE (rglob fs br) := by
  unfold rglob
  split
  · exact List.sorted_insertionSort lenLE _
  · exact List.Pairwise.nil

theorem rglob_complete {fs : FS} {br rel : FPath} {n : Node}
    (hmem : (br ++ rel, n) ∈ fs) (hrel : rel ≠ [])
    (hbr : ∀ t, lookupFS fs br ≠ some (Node.symlink t)) :
    (rel, n) ∈ rglob fs br := by
  unfold rglob
  rw [resolveFS_not_symlink hbr]
  show (rel, n) ∈ (strictSubAt fs br).insertionSort lenLE
  apply (List.perm_insertionSort lenLE (strictSubAt fs br)).mem_iff.2
  apply List.mem_filterMap.2
  refine ⟨(br ++ rel, n), hmem, ?_⟩
  rw [if_pos ⟨hasBase_append br rel, by
    rw [List.length_append]
    have : rel.length ≠ 0 := fun hc => hrel (List.eq_nil_of_length_eq_zero hc)
    omega⟩]
  rw [dropBase_append]

theorem matchNodes_restore_capture :
    ∀ o : Option Node, matchNodes (o.map (fun n => restoreNode (captureNode n))) o
  | none => trivial
  | some (.file c m t) => rfl
  | some (.dir m) => trivial
  | some (.symlink t) => rfl

theorem hasBase_single_cons (s : Seg) (t : List Seg) :
    hasBase [s] (s :: t) = true :=
  (hasBase_iff [s] (s :: t)).2 ⟨t, rfl⟩

/-! ## Uniqueness of the enumerated roots -/

theorem flatten_map_nodup {A B : Type} (outer : List A) (g : A → List B)
    (hinner : ∀ a ∈ outer, (g a).Nodup)
    (houter : outer.Nodup)
    (hdisj : ∀ a1 ∈ outer, ∀ a2 ∈ outer, a1 ≠ a2 →
      ∀ b, b ∈ g a1 → b ∈ g a2 → False) :
    ((outer.map g).flatten).Nodup := by
  induction outer with
  | nil => exact List.nodup_nil
  | cons a rest ih =>
    rw [List.map_cons, List.flatten_cons]
    apply List.Nodup.append
    · exact hinner a (List.mem_cons_self a rest)
    · exact ih (fun a' h' => hinner a' (List.mem_cons_of_mem a h'))
        (List.nodup_cons.1 houter).2
        (fun a1 h1 a2 h2 hne b hb1 hb2 => hdisj a1 (List.mem_cons_of_mem a h1)
          a2 (List.mem_cons_of_mem a h2) hne b hb1 hb2)
    · intro b hb1 hb2
      rcases List.mem_flatten.1 hb2 with ⟨l, hl, hbl⟩
      rcases List.mem_map.1 hl with ⟨a2, ha2, rfl⟩
      exact hdisj a (List.mem_cons_self a rest) a2
        (List.mem_cons_of_mem a ha2)
        (by
          intro hc
          subst hc
          exact (List.nodup_cons.1 houter).1 ha2)
        b hb1 hbl

theorem trackedRoots_fst_nodup {bdir : FPath} {fs : FS}
    (hnd : keysNodupB fs = true) :
    ((trackedRoots bdir fs).map Prod.fst).Nodup := by
  unfold trackedRoots
  rw [List.map_flatten, List.map_map]
  apply flatten_map_nodup
  · -- each per-child list of decoded roots has no duplicates
    intro c1 hc1
    show (((childrenDirsOf fs c1).map
      (fun c2 => (dropBase bdir c2, c2))).map Prod.fst).Nodup
    rw [List.map_map]
    apply List.Nodup.map_on ?_ (childrenDirsOf_nodup hnd c1)
    intro x hx y hy hxy
    rcases mem_childrenDirsOf hx with ⟨-, -, -, hbx, -⟩
    rcases mem_childrenDirsOf hy with ⟨-, -, -, hby, -⟩
    rcases mem_childrenDirsOf hc1 with ⟨-, -, -, hbc1, -⟩
    have hbdx : hasBase bdir x = true := hasBase_trans hbc1 hbx
    have hbdy : hasBase bdir y = true := hasBase_trans hbc1 hby
    have hx' : x = bdir ++ dropBase bdir x := (append_dropBase hbdx).symm
    have hy' : y = bdir ++ dropBase bdir y := (append_dropBase hbdy).symm
    rw [hx', hy']
    show bdir ++ dropBase bdir x = bdir ++ dropBase bdir y
    have hdd : dropBase bdir x = dropBase bdir y := hxy
    rw [hdd]
  · exact childrenDirsOf_nodup hnd bdir
  · -- decoded roots from distinct first-level children never coincide
    intro c1 h1 c1' h1' hne b hb1 hb1'
    rcases List.mem_map.1 hb1 with ⟨x, hx, hxe⟩
    rcases List.mem_map.1 hb1' with ⟨y, hy, hye⟩
    rcases List.mem_map.1 hx with ⟨c2, hc2, rfl⟩
    rcases List.mem_map.1 hy with ⟨c2', hc2', rfl⟩
    rcases mem_childrenDirsOf hc2 with ⟨-, -, hl2, hb2, -⟩
    rcases mem_childrenDirsOf hc2' with ⟨-, -, hl2', hb2', -⟩
    rcases mem_childrenDirsOf h1 with ⟨-, -, hl1, hbc1, -⟩
    rcases mem_childrenDirsOf h1' with ⟨-, -, hl1', hbc1', -⟩
    have hbd2 : hasBase bdir c2 = true := hasBase_trans hbc1 hb2
    have hbd2' : hasBase bdir c2' = true := hasBase_trans hbc1' hb2'
    have hceq : c2 = c2' := by
      have hfst : dropBase bdir c2 = dropBase bdir c2' := by
        rw [show dropBase bdir c2 = b from hxe,
          show dropBase bdir c2' = b from hye]
      rw [← append_dropBase hbd2, ← append_dropBase hbd2', hfst]
    subst hceq
    rcases hasBase_comparable hb2 hb2' with h | h
    · exact hne (hasBase_eq_of_length h (by rw [hl1, hl1']))
    · exact hne (hasBase_eq_of_length h (by rw [hl1', hl1])).symm

/-! ## The restore pass, block by block over the enumerated roots -/

/-- The restore pass grouped into per-root blocks, as `resetEnum` lays the
entries out: with pairwise distinct two-component roots, each neither an
ancestor of the store root nor reaching into the store, and symlinks beneath
the roots pointing at present non-symlink siblings, every root's region is
fully replayed from its store subtree, no error is counted, and every path
not strictly beneath a root keeps its value. -/
theorem resetBlocks (fs2 : FS) (bdir : FPath) (hbne2 : 2 ≤ bdir.length)
    (hW2 : ∀ p n, lookupFS fs2 p = some n → ∀ q, q ≠ [] → hasBase q p = true →
      q ≠ p → ∃ m, lookupFS fs2 q = some (Node.dir m))
    (hnd2 : keysNodupB fs2 = true) :
    ∀ (rcs : List (FPath × FPath)) (fs : FS) (n0 : Nat),
      (∀ rc ∈ rcs, rc.1.length = 2 ∧ rc.2 = bdir ++ rc.1 ∧
        hasBase rc.1 bdir = false ∧
        (∃ m0, lookupFS fs2 rc.1 = some (Node.dir m0)) ∧
        (∃ mb, lookupFS fs2 (bdir ++ rc.1) = some (Node.dir mb))) →
      (∀ rc ∈ rcs, ∀ e ∈ rglob fs2 (bdir ++ rc.1), ∀ t,
        lookupFS fs2 (rc.1 ++ e.1) = some (Node.symlink t) →
        ∃ n', lookupFS fs2 (rc.1 ++ (e.1.dropLast ++ [t])) = some n' ∧
          nodeIsSymlink n' = false ∧
          ∀ t', lookupFS fs2 (bdir ++ rc.1 ++ (e.1.dropLast ++ [t])) ≠
            some (Node.symlink t')) →
      (rcs.map Prod.fst).Nodup →
      (∀ rc ∈ rcs, ∀ p,
        hasBase (bdir ++ rc.1) p = true ∨ hasBase p rc.1 = true ∨
          hasBase rc.1 p = true →
        lookupFS fs p = lookupFS fs2 p) →
      (resetGo noErr noErr (fs, n0)
        ((rcs.map (fun rc => (rglob fs2 rc.2).map
          (fun e => (rc.1, rc.1 ++ e.1, rc.2 ++ e.1)))).flatten)).2 = n0 ∧
      (∀ rc ∈ rcs, ∀ rel, rel ≠ [] →
        lookupFS (resetGo noErr noErr (fs, n0)
          ((rcs.map (fun rc => (rglob fs2 rc.2).map
            (fun e => (rc.1, rc.1 ++ e.1, rc.2 ++ e.1)))).flatten)).1
          (rc.1 ++ rel) =
        midNode fs2 (bdir ++ rc.1) rc.1
          ((rglob fs2 (bdir ++ rc.1)).map Prod.fst) rel) ∧
      (∀ p, (∀ rc ∈ rcs, hasBase rc.1 p = false ∨ p = rc.1) →
        lookupFS (resetGo noErr noErr (fs, n0)
          ((rcs.map (fun rc => (rglob fs2 rc.2).map
            (fun e => (rc.1, rc.1 ++ e.1, rc.2 ++ e.1)))).flatten)).1 p =
        lookupFS fs p) := by
  intro rcs
  induction rcs with
  | nil =>
    intro fs n0 _ _ _ _
    exact ⟨rfl, fun rc hrc => absurd hrc (List.not_mem_nil rc), fun p _ => rfl⟩
  | cons rc rcs ih =>
    intro fs n0 hfacts hlinks hnd hinv
    obtain ⟨hRlen, hbp, hRb, hR0dir, hbrdir⟩ :=
      hfacts rc (List.mem_cons_self rc rcs)
    have hRne : rc.1 ≠ [] := by
      intro hc
      rw [hc] at hRlen
      simp at hRlen
    have hbrne : ∀ t, lookupFS fs2 (bdir ++ rc.1) ≠ some (Node.symlink t) := by
      intro t ht
      rcases hbrdir with ⟨mb, hmb⟩
      rw [hmb] at ht
      exact Node.noConfusion (Option.some.inj ht)
    have hRstore : ∀ x : FPath, hasBase rc.1 (bdir ++ x) = false := by
      intro x
      rcases hb : hasBase rc.1 (bdir ++ x) with _ | _
      · rfl
      · exfalso
        have h1 := take_eq_of_hasBase hb
        rw [hRlen, List.take_append_of_le_length hbne2] at h1
        have h2 : hasBase rc.1 bdir = true := by
          rw [h1]
          exact hasBase_take bdir 2
        rw [h2] at hRb
        exact Bool.noConfusion hRb
    have hd1 : hasBase (bdir ++ rc.1) rc.1 = false :=
      not_hasBase_of_length_lt (by
        rw [List.length_append, hRlen]
        omega)
    have hd2 : hasBase rc.1 (bdir ++ rc.1) = false := hRstore rc.1
    have hloop := resetGo_restore fs2 (bdir ++ rc.1) rc.1 hd1 hd2 hR0dir hW2
      (rglob fs2 (bdir ++ rc.1)) [] fs n0
      (by
        intro e he
        rcases mem_rglob he hbrne with ⟨hne, hmem⟩
        exact ⟨hne, mem_lookupFS_of_nodup hnd2 hmem⟩)
      (rglob_pairwise fs2 _)
      (fun c hc => absurd hc (List.not_mem_nil c))
      (fun e _ hc => absurd hc (List.not_mem_nil e.1))
      (rglob_keys_nodup hnd2 _)
      (by
        intro rel n hl hne
        exact Or.inr (List.mem_map.2
          ⟨(rel, n), rglob_complete (lookupFS_mem hl) hne hbrne, rfl⟩))
      (fun c hc => absurd hc (List.not_mem_nil c))
      (hlinks rc (List.mem_cons_self rc rcs))
      (by
        intro rel hne
        unfold midNode
        rw [if_neg (List.not_mem_nil rel)]
        rw [if_neg (by rintro ⟨c, hc, -⟩; exact List.not_mem_nil c hc)]
        exact hinv rc (List.mem_cons_self rc rcs) _
          (Or.inr (Or.inr (hasBase_append rc.1 rel))))
      (by
        intro p hp
        apply hinv rc (List.mem_cons_self rc rcs)
        rcases hp with hp | hp
        · exact Or.inl hp
        · exact Or.inr (Or.inl hp))
    have hEF := hloop.1
    have hI1F := hloop.2.1
    have hFrameF := hloop.2.2
    simp only [List.nil_append] at hI1F
    simp only [List.map_cons, List.flatten_cons]
    have hsplitGo : resetGo noErr noErr (fs, n0)
        (((rglob fs2 rc.2).map (fun e => (rc.1, rc.1 ++ e.1, rc.2 ++ e.1))) ++
          (rcs.map (fun rc => (rglob fs2 rc.2).map
            (fun e => (rc.1, rc.1 ++ e.1, rc.2 ++ e.1)))).flatten) =
        resetGo noErr noErr
          (resetGo noErr noErr (fs, n0)
            ((rglob fs2 rc.2).map (fun e => (rc.1, rc.1 ++ e.1, rc.2 ++ e.1))))
          ((rcs.map (fun rc => (rglob fs2 rc.2).map
            (fun e => (rc.1, rc.1 ++ e.1, rc.2 ++ e.1)))).flatten) := by
      unfold resetGo
      rw [List.foldl_append]
    rw [hsplitGo]
    have hbq : (rglob fs2 rc.2).map (fun e => (rc.1, rc.1 ++ e.1, rc.2 ++ e.1)) =
        (rglob fs2 (bdir ++ rc.1)).map
          (fun e => (rc.1, rc.1 ++ e.1, bdir ++ rc.1 ++ e.1)) := by
      rw [hbp]
    rw [hbq]
    have hpairH : resetGo noErr noErr (fs, n0)
        ((rglob fs2 (bdir ++ rc.1)).map
          (fun e => (rc.1, rc.1 ++ e.1, bdir ++ rc.1 ++ e.1))) =
        ((resetGo noErr noErr (fs, n0)
          ((rglob fs2 (bdir ++ rc.1)).map
            (fun e => (rc.1, rc.1 ++ e.1, bdir ++ rc.1 ++ e.1)))).1, n0) :=
      Prod.ext rfl hEF
    rw [hpairH]
    generalize hgen : (resetGo noErr noErr (fs, n0)
      ((rglob fs2 (bdir ++ rc.1)).map
        (fun e => (rc.1, rc.1 ++ e.1, bdir ++ rc.1 ++ e.1)))).1 = fsH
      at hI1F hFrameF ⊢
    have hinv' : ∀ rc' ∈ rcs, ∀ p,
        hasBase (bdir ++ rc'.1) p = true ∨ hasBase p rc'.1 = true ∨
          hasBase rc'.1 p = true →
        lookupFS fsH p = lookupFS fs2 p := by
      intro rc' hrc' p hp
      obtain ⟨hRlen', -, -, -, -⟩ := hfacts rc' (List.mem_cons_of_mem rc hrc')
      have hne : rc.1 ≠ rc'.1 := by
        intro hc
        have hndh := (List.nodup_cons.1 (by
          rw [List.map_cons] at hnd
          exact hnd)).1
        apply hndh
        rw [hc]
        exact List.mem_map.2 ⟨rc', hrc', rfl⟩
      have hfr : lookupFS fsH p = lookupFS fs p := by
        apply hFrameF
        by_cases hpe : p = rc.1
        · exact Or.inr hpe
        · left
          rcases hb : hasBase rc.1 p with _ | _
          · rfl
          · exfalso
            rcases hp with hp | hp | hp
            · rcases hasBase_comparable hb hp with h | h
              · rw [hRstore rc'.1] at h
                exact Bool.noConfusion h
              · have hl := hasBase_length h
                rw [List.length_append, hRlen, hRlen'] at hl
                omega
            · have h1 := hasBase_length hb
              have h2 := hasBase_length hp
              rw [hRlen] at h1
              rw [hRlen'] at h2
              exact hpe (hasBase_eq_of_length hb (by omega)).symm
            · rcases hasBase_comparable hb hp with h | h
              · exact hne (hasBase_eq_of_length h (by rw [hRlen, hRlen']))
              · exact hne (hasBase_eq_of_length h (by rw [hRlen', hRlen])).symm
      rw [hfr]
      exact hinv rc' (List.mem_cons_of_mem rc hrc') p hp
    have hrec := ih fsH n0
      (fun rc' h' => hfacts rc' (List.mem_cons_of_mem rc h'))
      (fun rc' h' => hlinks rc' (List.mem_cons_of_mem rc h'))
      (by
        rw [List.map_cons] at hnd
        exact (List.nodup_cons.1 hnd).2)
      hinv'
    refine ⟨hrec.1, ?_, ?_⟩
    · intro rc' hrc' rel hrel
      rcases List.mem_cons.1 hrc' with heq | h'
      · rw [heq]
        have hsafe : ∀ rc'' ∈ rcs,
            hasBase rc''.1 (rc.1 ++ rel) = false ∨ rc.1 ++ rel = rc''.1 := by
          intro rc'' hrc''
          left
          rcases hb : hasBase rc''.1 (rc.1 ++ rel) with _ | _
          · rfl
          · exfalso
            obtain ⟨hRlen'', -, -, -, -⟩ :=
              hfacts rc'' (List.mem_cons_of_mem rc hrc'')
            have hne'' : rc.1 ≠ rc''.1 := by
              intro hc
              have hndh := (List.nodup_cons.1 (by
                rw [List.map_cons] at hnd
                exact hnd)).1
              apply hndh
              rw [hc]
              exact List.mem_map.2 ⟨rc'', hrc'', rfl⟩
            rcases hasBase_comparable hb (hasBase_append rc.1 rel) with h | h
            · exact hne'' (hasBase_eq_of_length h (by rw [hRlen'', hRlen])).symm
            · exact hne'' (hasBase_eq_of_length h (by rw [hRlen, hRlen'']))
        rw [hrec.2.2 _ hsafe]
        exact hI1F rel hrel
      · exact hrec.2.1 rc' h' rel hrel
    · intro p hp
      rw [hrec.2.2 p (fun rc' h' => hp rc' (List.mem_cons_of_mem rc h'))]
      exact hFrameF p (hp rc (List.mem_cons_self rc rcs))

/-! ## Present short paths are untouched by the restore loop -/

theorem mkdirAll_preserve_present {fs fs' : FS} {tgt : FPath}
    (h : mkdirAll fs tgt = some fs') {p : FPath}
    (hp : lookupFS fs p ≠ none) : lookupFS fs' p = lookupFS fs p := by
  rw [mkdirAll_lookup h p]
  rcases hl : lookupFS fs p with _ | n
  · exact absurd hl hp
  · rfl

/-- A present path strictly shorter than the entry's original path is not
touched by one restore step: removal, `mkdir` chains and the `copy2`
write-through all act at the original path's depth or below (a resolved
write-through destination is the original or one of its siblings, of the
same length). -/
theorem resetStep_present_short (eR eS : FPath → Bool) (s : FS × Nat)
    (t : FPath × FPath × FPath) {p : FPath}
    (hlen : p.length < (t.2.1).length)
    (hpres : lookupFS s.1 p ≠ none) :
    lookupFS (resetStep eR eS s t).1 p = lookupFS s.1 p := by
  have h1' : hasBase t.2.1 p = false := not_hasBase_of_length_lt hlen
  have hpo : ¬ p = t.2.1 := by
    intro hc
    rw [hc] at hlen
    omega
  unfold resetStep
  split
  · rfl
  · split
    · rfl
    · rename_i fs1 heq
      have hfs1 : lookupFS fs1 p = lookupFS s.1 p := by
        split at heq
        · split at heq
          · exact Option.noConfusion heq
          · cases Option.some.inj heq
            split
            · rw [lookupFS_eraseKey, if_neg hpo]
            · rw [lookupFS_removeTree, if_neg (by simp [h1'])]
        · cases Option.some.inj heq
          rfl
      have hpres1 : lookupFS fs1 p ≠ none := by
        rw [hfs1]
        exact hpres
      split
      · exact hfs1
      · split
        · split
          · exact hfs1
          · rename_i fs2 hmk
            split
            · rw [mkdirAll_preserve_present hmk hpres1]
              exact hfs1
            · rename_i q hres
              have hqp : q ≠ p := by
                rcases resolveTip_shape _ _ _ hres with rfl | ⟨tg, rfl⟩
                · exact fun hc => hpo hc.symm
                · intro hc
                  have hql := congrArg List.length hc
                  rw [List.length_append, List.length_dropLast] at hql
                  have ht0 : (t.2.1).length ≠ 0 := by omega
                  simp at hql
                  omega
              split
              · rw [mkdirAll_preserve_present hmk hpres1]
                exact hfs1
              · rw [lookupFS_setNode, if_neg (fun hc => hqp hc.symm)]
                rw [mkdirAll_preserve_present hmk hpres1]
                exact hfs1
        · split
          · exact hfs1
          · rename_i fs2 hmk
            split
            · rw [mkdirAll_preserve_present hmk hpres1]
              exact hfs1
            · rw [lookupFS_setNode, if_neg hpo]
              rw [mkdirAll_preserve_present hmk hpres1]
              exact hfs1
        · split
          · exact hfs1
          · rename_i fs2 hmk
            rw [mkdirAll_preserve_present hmk hpres1]
            exact hfs1

theorem resetGo_present_short (eR eS : FPath → Bool) (s : FS × Nat)
    (ts : List (FPath × FPath × FPath)) {p : FPath}
    (hlen : ∀ t ∈ ts, p.length < (t.2.1).length)
    (hpres : lookupFS s.1 p ≠ none) :
    lookupFS (resetGo eR eS s ts).1 p = lookupFS s.1 p := by
  induction ts generalizing s with
  | nil => rfl
  | cons t rest ih =>
    show lookupFS (resetGo eR eS (resetStep eR eS s t) rest).1 p = _
    have hstep := resetStep_present_short eR eS s t
      (hlen t (List.mem_cons_self t rest)) hpres
    rw [ih (resetStep eR eS s t)
      (fun t' h' => hlen t' (List.mem_cons_of_mem t h'))
      (by rw [hstep]; exact hpres)]
    exact hstep

/-! ## The round-trip -/

/-- Bridge for discharging the symlink-safety condition at concrete inputs
by a finite check over the entries. -/
theorem safe_of_entries {fs2 fs0 : FS} {r : FPath}
    (h : fs2.all (fun e =>
      match e.2 with
      | Node.symlink t =>
        !(hasBase r e.1) ||
        ((match lookupFS fs2 (e.1.dropLast ++ [t]) with
          | some n' => !(nodeIsSymlink n')
          | none => false) &&
         (match lookupFS fs0 (e.1.dropLast ++ [t]) with
          | some (Node.symlink _) => false
          | _ => true))
      | _ => true) = true) :
    ∀ p t, hasBase r p = true → lookupFS fs2 p = some (Node.symlink t) →
      ((∃ n', lookupFS fs2 (p.dropLast ++ [t]) = some n' ∧
        nodeIsSymlink n' = false) ∧
      (∀ t', lookupFS fs0 (p.dropLast ++ [t]) ≠ some (Node.symlink t'))) := by
  intro p t hbp hlp
  have hmem := lookupFS_mem hlp
  have h1 : (!(hasBase r p) ||
      ((match lookupFS fs2 (p.dropLast ++ [t]) with
        | some n' => !(nodeIsSymlink n')
        | none => false) &&
       (match lookupFS fs0 (p.dropLast ++ [t]) with
        | some (Node.symlink _) => false
        | _ => true))) = true :=
    List.all_eq_true.1 h (p, Node.symlink t) hmem
  rw [Bool.or_eq_true] at h1
  rcases h1 with hno | hok
  · rw [Bool.not_eq_true', hbp] at hno
    exact Bool.noConfusion hno
  · rw [Bool.and_eq_true] at hok
    constructor
    · rcases hl' : lookupFS fs2 (p.dropLast ++ [t]) with _ | n'
      · rw [hl'] at hok
        exact absurd hok.1 (by simp)
      · refine ⟨n', rfl, ?_⟩
        have h2 := hok.1
        rw [hl'] at h2
        simpa using h2
    · intro t' ht'
      have h2 := hok.2
      rw [ht'] at h2
      exact Bool.noConfusion h2

/-- C1 (amended): track a list of existing directories, pairwise non-nested,
each with at least two path components and unrelated to the store root (the
folder, and its first two components, are neither ancestors nor descendants
of the store root, which itself has at least two components as
`~/.foam_backup` does); then mutate the filesystem only strictly beneath the
tracked folders, creating no entry directly under a tracked folder at a name
absent at track time, and keeping every symlink beneath a tracked folder
pointed at a sibling name that exists and is not itself a symlink (nor was a
symlink at track time).  Then `reset()` reports zero errors and every tracked
folder's tree is structurally identical to its state at track time: same
relative paths, same file bytes, same symlink targets, every directory
present. -/
theorem C1_track_reset_roundtrip (fs0 fs2 : FS) (bdir : FPath)
    (rs : List FPath)
    (hWF0 : WFb fs0 = true) (hWF2 : WFb fs2 = true)
    (hbne2 : 2 ≤ bdir.length)
    (hAncB : ∀ q, q ≠ [] → hasBase q bdir = true → q ≠ bdir →
      isDirAt fs0 q = true)
    (hprops : ∀ r ∈ rs, 2 ≤ r.length ∧
      (∃ m, lookupFS fs0 r = some (Node.dir m)) ∧
      hasBase bdir r = false ∧ hasBase r bdir = false ∧
      hasBase (r.take 2) bdir = false)
    (hpair : List.Pairwise
      (fun r1 r2 => hasBase r1 r2 = false ∧ hasBase r2 r1 = false) rs)
    (hmut : ∀ p, (∀ r ∈ rs, hasBase r p = false ∨ p = r) →
      lookupFS fs2 p = lookupFS (track bdir noErr fs0 rs).fs p)
    (htops : ∀ r ∈ rs, ∀ s : Seg, lookupFS fs2 (r ++ [s]) ≠ none →
      lookupFS fs0 (r ++ [s]) ≠ none)
    (hsafe : ∀ r ∈ rs, ∀ p t, hasBase r p = true →
      lookupFS fs2 p = some (Node.symlink t) →
      ((∃ n', lookupFS fs2 (p.dropLast ++ [t]) = some n' ∧
        nodeIsSymlink n' = false) ∧
      (∀ t', lookupFS fs0 (p.dropLast ++ [t]) ≠ some (Node.symlink t')))) :
    (∃ d f, (reset bdir noErr noErr fs2 []).msgs = [Msg.resetSummary d f 0]) ∧
    ∀ r ∈ rs, sameTreeAt (reset bdir noErr noErr fs2 []).fs fs0 r := by
  have hbne : bdir ≠ [] := by
    intro hc
    rw [hc] at hbne2
    simp at hbne2
  have hnd2 : keysNodupB fs2 = true := WFb_nodup hWF2
  have hsep : ∀ r1 ∈ rs, ∀ r2 ∈ rs, r1 ≠ r2 →
      hasBase r1 r2 = false ∧ hasBase r2 r1 = false :=
    fun r1 h1 r2 h2 hne =>
      hpair.forall (fun a b hab => ⟨hab.2, hab.1⟩) h1 h2 hne
  -- no orphans beneath a missing store root, from well-formedness
  have hNoOrphan : existsAt fs0 bdir = false →
      ∀ q, hasBase bdir q = true → lookupFS fs0 q = none := by
    intro hex q hq
    rcases hl : lookupFS fs0 q with _ | n
    · rfl
    · exfalso
      by_cases hqe : q = bdir
      · subst hqe
        unfold existsAt at hex
        rw [hl] at hex
        exact Bool.noConfusion hex
      · rcases (WFb_ancestors hWF0 q n hl).2 bdir hbne hq
          (fun hc => hqe hc.symm) with ⟨m, hm⟩
        unfold existsAt at hex
        rw [hm] at hex
        exact Bool.noConfusion hex
  have hT := trackMulti_char fs0 bdir hbne hAncB hNoOrphan rs
    (fun r hr => ⟨(by
      intro hc
      have := (hprops r hr).1
      rw [hc] at this
      simp at this), (hprops r hr).2.1, (hprops r hr).2.2.1,
      (hprops r hr).2.2.2.1⟩)
    hpair
  have Tout := hT.2.2.1
  have Tstore := hT.2.2.2
  -- fs2 agrees with the track output on the whole store region
  have S : ∀ x, lookupFS fs2 (bdir ++ x) = storeNodeVal fs0 rs x := by
    intro x
    rw [hmut (bdir ++ x) (by
      intro r' hr'
      left
      rcases hb : hasBase r' (bdir ++ x) with _ | _
      · rfl
      · exfalso
        obtain ⟨-, -, hdb1', hdb2', -⟩ := hprops r' hr'
        rcases hasBase_comparable hb (hasBase_append bdir x) with h | h
        · rw [h] at hdb2'
          exact Bool.noConfusion hdb2'
        · rw [h] at hdb1'
          exact Bool.noConfusion hdb1')]
    exact Tstore x
  -- the tracked folders and their strict ancestors are unmutated
  have hfs2r : ∀ r ∈ rs, lookupFS fs2 r = lookupFS fs0 r := by
    intro r hr
    rw [hmut r (by
      intro r' hr'
      by_cases he : r' = r
      · exact Or.inr he.symm
      · exact Or.inl (hsep r' hr' r hr he).1)]
    exact Tout r (hprops r hr).2.2.1
  have hancEq : ∀ r ∈ rs, ∀ q, hasBase q r = true → q ≠ r →
      lookupFS fs2 q = lookupFS fs0 q := by
    intro r hr q hq hqne
    rw [hmut q (by
      intro r' hr'
      left
      rcases hb : hasBase r' q with _ | _
      · rfl
      · exfalso
        by_cases he : r' = r
        · subst he
          exact hqne (hasBase_antisymm hq hb)
        · have hbr : hasBase r' r = true := hasBase_trans hb hq
          have hf := (hsep r' hr' r hr he).1
          rw [hbr] at hf
          exact Bool.noConfusion hf)]
    apply Tout
    rcases hb : hasBase bdir q with _ | _
    · rfl
    · exfalso
      have hbr : hasBase bdir r = true := hasBase_trans hb hq
      have hdb1 := (hprops r hr).2.2.1
      rw [hbr] at hdb1
      exact Bool.noConfusion hdb1
  -- store lookups
  have S1m : ∀ r ∈ rs, ∀ x, lookupFS fs2 (bdir ++ r ++ x) =
      (lookupFS fs0 (r ++ x)).map captureNode := by
    intro r hr x
    rw [List.append_assoc, S (r ++ x)]
    unfold storeNodeVal
    rw [if_neg (by
      intro hc
      have := (hprops r hr).1
      rcases List.append_eq_nil.1 hc with ⟨h1, -⟩
      rw [h1] at this
      simp at this)]
    rw [if_pos ⟨r, hr, hasBase_append r x⟩]
  have S2 : lookupFS fs2 bdir = some (Node.dir defaultDirMode) := by
    have h0 := S []
    rw [List.append_nil] at h0
    rw [h0]
    rfl
  have S3m : ∀ r ∈ rs, ∀ k, 0 < k → k < r.length →
      lookupFS fs2 (bdir ++ r.take k) = some (Node.dir defaultDirMode) := by
    intro r hr k hk hkr
    have htk := take_length_eq (show k ≤ r.length from Nat.le_of_lt hkr)
    rw [S (r.take k)]
    unfold storeNodeVal
    rw [if_neg (by
      intro hc
      rw [hc] at htk
      simp at htk
      omega)]
    rw [if_neg (by
      rintro ⟨r', hr', hb⟩
      have hlb := hasBase_length hb
      rw [htk] at hlb
      have hbr : hasBase r' r = true := hasBase_trans hb (hasBase_take r k)
      have hne : r' ≠ r := by
        intro hc
        subst hc
        omega
      have hf := (hsep r' hr' r hr hne).1
      rw [hbr] at hf
      exact Bool.noConfusion hf)]
    rw [if_pos ⟨r, hr, hasBase_take r k, (by
      intro hc
      rw [hc] at htk
      omega)⟩]
  -- the store-side top of each root is a directory
  have hv2 : ∀ r ∈ rs, ∃ mm,
      lookupFS fs2 (bdir ++ r.take 2) = some (Node.dir mm) := by
    intro r hr
    by_cases hr2 : r.length ≤ 2
    · have hteq : r.take 2 = r := List.take_of_length_le hr2
      obtain ⟨-, ⟨m, hm⟩, -, -, -⟩ := hprops r hr
      refine ⟨m, ?_⟩
      rw [hteq]
      have h2 := S1m r hr []
      rw [List.append_nil, List.append_nil] at h2
      rw [h2, hm]
      rfl
    · exact ⟨defaultDirMode, S3m r hr 2 (by omega) (by omega)⟩
  -- the keys of each root's backup subtree
  have hkeys : ∀ r ∈ rs, ∀ rel n,
      lookupFS fs2 (bdir ++ r.take 2 ++ rel) = some n → rel ≠ [] →
      rel ∈ (rglob fs2 (bdir ++ r.take 2)).map Prod.fst := by
    intro r hr rel n hl hne
    have hbrne : ∀ t, lookupFS fs2 (bdir ++ r.take 2) ≠
        some (Node.symlink t) := by
      intro t ht
      rcases hv2 r hr with ⟨mm, hmm⟩
      rw [hmm] at ht
      exact Node.noConfusion (Option.some.inj ht)
    exact List.mem_map.2
      ⟨(rel, n), rglob_complete (lookupFS_mem hl) hne hbrne, rfl⟩
  -- path algebra for the split of a root at depth 2
  have hjoin : ∀ r : FPath, ∀ x : FPath,
      r.take 2 ++ (r.drop 2 ++ x) = r ++ x := by
    intro r x
    rw [← List.append_assoc, List.take_append_drop]
  have hsplit : ∀ r : FPath, ∀ x : FPath,
      bdir ++ r.take 2 ++ (r.drop 2 ++ x) = bdir ++ r ++ x := by
    intro r x
    rw [List.append_assoc bdir (r.take 2) (r.drop 2 ++ x), hjoin r x,
      ← List.append_assoc]
  have hrootkey : ∀ r ∈ rs, r.drop 2 ≠ [] →
      r.drop 2 ∈ (rglob fs2 (bdir ++ r.take 2)).map Prod.fst := by
    intro r hr hne
    obtain ⟨-, ⟨m, hm⟩, -, -, -⟩ := hprops r hr
    apply hkeys r hr _ (captureNode (Node.dir m))
    · have h1 := hsplit r []
      rw [List.append_nil, List.append_nil] at h1
      rw [h1]
      have h2 := S1m r hr []
      rw [List.append_nil, List.append_nil] at h2
      rw [h2, hm]
      rfl
    · exact hne
  have hfs0none : ∀ r ∈ rs, ∀ x : FPath, x ≠ [] →
      ¬ (r.drop 2 ++ x) ∈ (rglob fs2 (bdir ++ r.take 2)).map Prod.fst →
      lookupFS fs0 (r ++ x) = none := by
    intro r hr x hx hnk
    rcases hl : lookupFS fs0 (r ++ x) with _ | n0
    · rfl
    · exfalso
      apply hnk
      apply hkeys r hr _ (captureNode n0)
      · rw [hsplit r x, S1m r hr x, hl]
        rfl
      · intro hc
        have hlc := congrArg List.length hc
        simp at hlc
        exact hx hlc.2
  -- characterization of the enumerated roots
  have hRootsChar : ∀ rc ∈ trackedRoots bdir fs2,
      ∃ r ∈ rs, rc.1 = r.take 2 ∧ rc.2 = bdir ++ rc.1 ∧ rc.1.length = 2 := by
    intro rc hrc
    rcases mem_trackedRoots hrc with ⟨s1, s2, hR, hbp, -, hc2⟩
    rcases mem_childrenDirsOf hc2 with ⟨n2, hmem2, -, -, -⟩
    have hl2 : lookupFS fs2 (bdir ++ [s1, s2]) = some n2 := by
      have hh := mem_lookupFS_of_nodup hnd2 hmem2
      rw [hbp] at hh
      exact hh
    have hsv := S [s1, s2]
    rw [hl2] at hsv
    unfold storeNodeVal at hsv
    rw [if_neg (by simp)] at hsv
    by_cases hb2 : ∃ r' ∈ rs, hasBase r' [s1, s2] = true
    · rcases hb2 with ⟨r', hr', hbr'⟩
      obtain ⟨hrlen', -, -, -, -⟩ := hprops r' hr'
      have hlen' := hasBase_length hbr'
      have hre : r' = [s1, s2] := hasBase_eq_of_length hbr' (by
        simp at hlen' ⊢
        omega)
      subst hre
      refine ⟨[s1, s2], hr', ?_, ?_, ?_⟩
      · rw [hR]
        rfl
      · rw [hbp, hR]
      · rw [hR]
        rfl
    · rw [if_neg hb2] at hsv
      by_cases hb3 : ∃ r' ∈ rs, hasBase [s1, s2] r' = true ∧ [s1, s2] ≠ r'
      · rcases hb3 with ⟨r', hr', hbr', -⟩
        refine ⟨r', hr', ?_, ?_, ?_⟩
        · rw [hR]
          have ht := take_eq_of_hasBase hbr'
          simpa using ht
        · rw [hbp, hR]
        · rw [hR]
          rfl
      · rw [if_neg hb3] at hsv
        exact Option.noConfusion hsv
  have hRootsCompl : ∀ r ∈ rs,
      (r.take 2, bdir ++ r.take 2) ∈ trackedRoots bdir fs2 := by
    intro r hr
    obtain ⟨hrlen, -, -, -, -⟩ := hprops r hr
    rcases r with _ | ⟨s1, r1⟩
    · simp at hrlen
    rcases r1 with _ | ⟨s2, r2⟩
    · simp at hrlen
    have ht1 : (s1 :: s2 :: r2).take 1 = [s1] := rfl
    have ht2 : (s1 :: s2 :: r2).take 2 = [s1, s2] := rfl
    have hlv1 : lookupFS fs2 (bdir ++ [s1]) = some (Node.dir defaultDirMode) := by
      have hh := S3m (s1 :: s2 :: r2) hr 1 (by omega) (by simp)
      rw [ht1] at hh
      exact hh
    rcases hv2 (s1 :: s2 :: r2) hr with ⟨mm, hmm⟩
    rw [ht2] at hmm
    rw [ht2]
    apply trackedRoots_mem
    · apply childrenDirsOf_mem (lookupFS_mem hlv1)
      · simp
      · exact hasBase_append bdir [s1]
      · exact isDirFollow_dir hlv1
    · apply childrenDirsOf_mem (lookupFS_mem (show
        lookupFS fs2 (bdir ++ [s1, s2]) = some (Node.dir mm) from hmm))
      · simp
      · show hasBase (bdir ++ [s1]) (bdir ++ [s1, s2]) = true
        rw [hasBase_append_same_iff]
        exact hasBase_single_cons s1 [s2]
      · exact isDirFollow_dir hmm
  -- hypotheses of the block lemma
  have hW2L : ∀ p n, lookupFS fs2 p = some n → ∀ q, q ≠ [] →
      hasBase q p = true → q ≠ p → ∃ m, lookupFS fs2 q = some (Node.dir m) :=
    fun p n h => (WFb_ancestors hWF2 p n h).2
  have hfactsB : ∀ rc ∈ trackedRoots bdir fs2,
      rc.1.length = 2 ∧ rc.2 = bdir ++ rc.1 ∧ hasBase rc.1 bdir = false ∧
      (∃ m0, lookupFS fs2 rc.1 = some (Node.dir m0)) ∧
      (∃ mb, lookupFS fs2 (bdir ++ rc.1) = some (Node.dir mb)) := by
    intro rc hrc
    obtain ⟨r, hr, h1, h2, hlen2⟩ := hRootsChar rc hrc
    obtain ⟨hrlen, ⟨m, hm⟩, -, -, htk2⟩ := hprops r hr
    refine ⟨hlen2, h2, by rw [h1]; exact htk2, ?_, by rw [h1]; exact hv2 r hr⟩
    rw [h1]
    by_cases hr2 : r.length ≤ 2
    · have hteq : r.take 2 = r := List.take_of_length_le hr2
      refine ⟨m, ?_⟩
      rw [hteq, hfs2r r hr, hm]
    · have htk : (r.take 2).length = 2 := take_length_eq (by omega)
      have hne : r.take 2 ≠ r := by
        intro hc
        rw [hc] at htk
        omega
      rw [hancEq r hr (r.take 2) (hasBase_take r 2) hne]
      exact (WFb_ancestors hWF0 r (Node.dir m) hm).2 (r.take 2)
        (by
          intro hc
          rw [hc] at htk
          simp at htk)
        (hasBase_take r 2) hne
  have hlinksB : ∀ rc ∈ trackedRoots bdir fs2,
      ∀ e ∈ rglob fs2 (bdir ++ rc.1), ∀ t,
      lookupFS fs2 (rc.1 ++ e.1) = some (Node.symlink t) →
      ∃ n', lookupFS fs2 (rc.1 ++ (e.1.dropLast ++ [t])) = some n' ∧
        nodeIsSymlink n' = false ∧
        ∀ t', lookupFS fs2 (bdir ++ rc.1 ++ (e.1.dropLast ++ [t])) ≠
          some (Node.symlink t') := by
    intro rc hrc e he t hsym
    obtain ⟨r, hr, h1, h2, hlen2⟩ := hRootsChar rc hrc
    have hbrne : ∀ tt, lookupFS fs2 (bdir ++ rc.1) ≠
        some (Node.symlink tt) := by
      rw [h1]
      intro tt htt
      rcases hv2 r hr with ⟨mm, hmm⟩
      rw [hmm] at htt
      exact Node.noConfusion (Option.some.inj htt)
    rcases mem_rglob he hbrne with ⟨hene, hmem⟩
    have hstoreE : lookupFS fs2 (bdir ++ (rc.1 ++ e.1)) = some e.2 := by
      have hh := mem_lookupFS_of_nodup hnd2 hmem
      rw [← List.append_assoc]
      exact hh
    have hsv := S (rc.1 ++ e.1)
    rw [hstoreE] at hsv
    have hkne : rc.1 ++ e.1 ≠ [] := by
      intro hc
      exact hene (List.append_eq_nil.1 hc).2
    unfold storeNodeVal at hsv
    rw [if_neg hkne] at hsv
    by_cases hb2 : ∃ r' ∈ rs, hasBase r' (rc.1 ++ e.1) = true
    · rcases hb2 with ⟨r', hr', hbr'⟩
      obtain ⟨⟨n', hn'eq, hn'nl⟩, hs0⟩ := hsafe r' hr' (rc.1 ++ e.1) t hbr' hsym
      have hpath : rc.1 ++ (e.1.dropLast ++ [t]) =
          (rc.1 ++ e.1).dropLast ++ [t] := by
        rw [dropLast_append_left hene, List.append_assoc]
      refine ⟨n', ?_, hn'nl, ?_⟩
      · rw [hpath]
        exact hn'eq
      · intro t' ht'
        have hsv2 := S (rc.1 ++ (e.1.dropLast ++ [t]))
        rw [← List.append_assoc] at hsv2
        rw [ht'] at hsv2
        have hsne : rc.1 ++ (e.1.dropLast ++ [t]) ≠ [] := by
          intro hc
          have := congrArg List.length hc
          simp at this
        unfold storeNodeVal at hsv2
        rw [if_neg hsne] at hsv2
        by_cases hb2' : ∃ r'' ∈ rs, hasBase r'' (rc.1 ++ (e.1.dropLast ++ [t])) = true
        · rw [if_pos hb2'] at hsv2
          rw [hpath] at hsv2
          rcases hl0 : lookupFS fs0 ((rc.1 ++ e.1).dropLast ++ [t]) with _ | n0
          · rw [hl0] at hsv2
            exact Option.noConfusion hsv2
          · rw [hl0] at hsv2
            have hcap : captureNode n0 = Node.symlink t' :=
              (Option.some.inj hsv2).symm
            cases n0 with
            | symlink tz => exact hs0 tz hl0
            | file c m mt => exact Node.noConfusion hcap
            | dir m => exact Node.noConfusion hcap
        · rw [if_neg hb2'] at hsv2
          by_cases hb3' : ∃ r'' ∈ rs,
              hasBase (rc.1 ++ (e.1.dropLast ++ [t])) r'' = true ∧
              rc.1 ++ (e.1.dropLast ++ [t]) ≠ r''
          · rw [if_pos hb3'] at hsv2
            exact Node.noConfusion (Option.some.inj hsv2)
          · rw [if_neg hb3'] at hsv2
            exact Option.noConfusion hsv2
    · rw [if_neg hb2] at hsv
      by_cases hb3 : ∃ r' ∈ rs, hasBase (rc.1 ++ e.1) r' = true ∧
          rc.1 ++ e.1 ≠ r'
      · exfalso
        rcases hb3 with ⟨r', hr', hbp', hnep'⟩
        have hfs2p := hancEq r' hr' (rc.1 ++ e.1) hbp' hnep'
        obtain ⟨-, ⟨m', hm'⟩, -, -, -⟩ := hprops r' hr'
        rcases (WFb_ancestors hWF0 r' (Node.dir m') hm').2 (rc.1 ++ e.1)
          hkne hbp' hnep' with ⟨md, hmd⟩
        rw [hfs2p, hmd] at hsym
        exact Node.noConfusion (Option.some.inj hsym)
      · rw [if_neg hb3] at hsv
        exact Option.noConfusion hsv
  -- run the blocks
  have hBlocks := resetBlocks fs2 bdir hbne2 hW2L hnd2
    (trackedRoots bdir fs2) fs2 0 hfactsB hlinksB
    (trackedRoots_fst_nodup hnd2) (fun rc _ p _ => rfl)
  have hEnum : resetEnum bdir fs2 =
      ((trackedRoots bdir fs2).map (fun rc => (rglob fs2 rc.2).map
        (fun e => (rc.1, rc.1 ++ e.1, rc.2 ++ e.1)))).flatten := rfl
  -- the call itself
  have hexb : existsAt fs2 bdir = true := by
    unfold existsAt
    rw [S2]
    rfl
  have hmsg : (reset bdir noErr noErr fs2 []).msgs = [Msg.resetSummary
      (((resetStats bdir fs2).1.length : Int) -
        ((resetStats bdir fs2).2.1.length : Int))
      (resetStats bdir fs2).2.2
      (resetGo noErr noErr (fs2, 0) (resetEnum bdir fs2)).2] := by
    unfold reset
    rw [if_neg (by simp [hexb]), if_neg (by simp)]
  have hfs : (reset bdir noErr noErr fs2 []).fs =
      (resetGo noErr noErr (fs2, 0) (resetEnum bdir fs2)).1 := by
    unfold reset
    rw [if_neg (by simp [hexb]), if_neg (by simp)]
  refine ⟨⟨((resetStats bdir fs2).1.length : Int) -
      ((resetStats bdir fs2).2.1.length : Int),
    (resetStats bdir fs2).2.2, ?_⟩, ?_⟩
  · rw [hmsg, hEnum, hBlocks.1]
  · -- per-root round trip
    intro r hr relr
    obtain ⟨hrlen, ⟨m, hm⟩, -, -, -⟩ := hprops r hr
    have hrne : r ≠ [] := by
      intro hc
      rw [hc] at hrlen
      simp at hrlen
    rw [hfs, hEnum]
    have hChar := hBlocks.2.1 (r.take 2, bdir ++ r.take 2) (hRootsCompl r hr)
    have hFrame := hBlocks.2.2
    by_cases hrel0 : r.drop 2 ++ relr = []
    · rcases List.append_eq_nil.1 hrel0 with ⟨hdr2, hrelr⟩
      subst hrelr
      have hl2 : r.length ≤ 2 := by
        have := congrArg List.length hdr2
        simp at this
        omega
      rw [List.append_nil]
      rw [hFrame r (by
        intro rc' hrc'
        obtain ⟨r', hr', h1', -, hlen2'⟩ := hRootsChar rc' hrc'
        by_cases hpe : r = rc'.1
        · exact Or.inr hpe
        · left
          rcases hb : hasBase rc'.1 r with _ | _
          · rfl
          · exfalso
            have hlr := hasBase_length hb
            rw [hlen2'] at hlr
            exact hpe (hasBase_eq_of_length hb (by omega)).symm)]
      rw [hfs2r r hr, hm]
      trivial
    · have hI1val := hChar (r.drop 2 ++ relr) hrel0
      rw [hjoin r relr] at hI1val
      rw [hI1val]
      unfold midNode
      by_cases hmem : (r.drop 2 ++ relr) ∈
          (rglob fs2 (bdir ++ r.take 2)).map Prod.fst
      · rw [if_pos hmem]
        have hS := S1m r hr relr
        rw [← hsplit r relr] at hS
        rw [hS, Option.map_map]
        exact matchNodes_restore_capture _
      · rw [if_neg hmem]
        have hrelrne : relr ≠ [] := by
          rintro rfl
          rw [List.append_nil] at hrel0 hmem
          exact hmem (hrootkey r hr hrel0)
        have hfs0n := hfs0none r hr relr hrelrne hmem
        by_cases hw : ∃ c ∈ (rglob fs2 (bdir ++ r.take 2)).map Prod.fst,
            c ≠ r.drop 2 ++ relr ∧ hasBase c (r.drop 2 ++ relr) = true
        · rw [if_pos hw]
          rw [hfs0n]
          trivial
        · rw [if_neg hw]
          rw [hjoin r relr]
          by_cases hdr : r.drop 2 = []
          · have hl2 : r.length ≤ 2 := by
              have := congrArg List.length hdr
              simp at this
              omega
            have hteq : r.take 2 = r := List.take_of_length_le hl2
            rw [hdr] at hmem hw
            simp only [List.nil_append] at hmem hw
            rcases relr with _ | ⟨s, rtl⟩
            · exact absurd rfl hrelrne
            · have hf2n : lookupFS fs2 (r ++ s :: rtl) = none := by
                rcases hl : lookupFS fs2 (r ++ s :: rtl) with _ | n
                · rfl
                · exfalso
                  have hsome : lookupFS fs2 (r ++ [s]) ≠ none := by
                    rcases rtl with _ | ⟨t0, ttl⟩
                    · rw [hl]
                      simp
                    · rcases (WFb_ancestors hWF2 _ n hl).2 (r ++ [s])
                        (by
                          intro hc
                          have := congrArg List.length hc
                          simp at this)
                        (by
                          rw [hasBase_append_same_iff]
                          exact hasBase_single_cons s (t0 :: ttl))
                        (by
                          intro hc
                          have hcc := List.append_cancel_left hc
                          exact List.noConfusion (List.cons.inj hcc).2)
                        with ⟨mq, hmq⟩
                      rw [hmq]
                      simp
                  have h0 := htops r hr s hsome
                  rcases hl0 : lookupFS fs0 (r ++ [s]) with _ | n0
                  · exact h0 hl0
                  · have hk : [s] ∈
                        (rglob fs2 (bdir ++ r.take 2)).map Prod.fst := by
                      apply hkeys r hr [s] (captureNode n0)
                      · rw [hteq]
                        have h2 := S1m r hr [s]
                        rw [h2, hl0]
                        rfl
                      · simp
                    rcases rtl with _ | ⟨t0, ttl⟩
                    · exact hmem hk
                    · exact hw ⟨[s], hk, by
                        constructor
                        · intro hc
                          have := congrArg List.length hc
                          simp at this
                        · exact hasBase_single_cons s (t0 :: ttl)⟩
              rw [hf2n, hfs0n]
              trivial
          · exfalso
            apply hw
            refine ⟨r.drop 2, hrootkey r hr hdr, ?_, hasBase_append _ _⟩
            intro hc
            exact append_ne_self hrelrne hc.symm

/-- C1 counterexample (claim as stated): tracking the one-component directory
`/data` succeeds and snapshots its file, and the subsequent `reset()` reports
zero errors — but the mutated bytes survive at `/data/a.txt`: the two-level
store walk never decodes a one-component TrackedRoot, so nothing is
restored. -/
theorem C1_roundtrip_cex :
    (track ["home", ".foam_backup"] noErr
      [ (["home"], Node.dir 493), (["data"], Node.dir 493),
        (["data", "a.txt"], Node.file [1] 420 0) ] [["data"]]).msgs =
      [Msg.trackedFolder ["data"], Msg.foldersTracked] ∧
    lookupFS (track ["home", ".foam_backup"] noErr
      [ (["home"], Node.dir 493), (["data"], Node.dir 493),
        (["data", "a.txt"], Node.file [1] 420 0) ] [["data"]]).fs
      ["home", ".foam_backup", "data", "a.txt"] =
      some (Node.file [1] 420 0) ∧
    (reset ["home", ".foam_backup"] noErr noErr
      (setNode (track ["home", ".foam_backup"] noErr
        [ (["home"], Node.dir 493), (["data"], Node.dir 493),
          (["data", "a.txt"], Node.file [1] 420 0) ] [["data"]]).fs
        ["data", "a.txt"] (Node.file [2] 420 1)) []).msgs =
      [Msg.resetSummary 0 0 0] ∧
    lookupFS (reset ["home", ".foam_backup"] noErr noErr
      (setNode (track ["home", ".foam_backup"] noErr
        [ (["home"], Node.dir 493), (["data"], Node.dir 493),
          (["data", "a.txt"], Node.file [1] 420 0) ] [["data"]]).fs
        ["data", "a.txt"] (Node.file [2] 420 1)) []).fs ["data", "a.txt"] =
      some (Node.file [2] 420 1) := by
  decide

/-- Witness for C1 (amended) at a concrete input: `/data/proj` (one file, one
symlink to it) is tracked, the file is then mutated beneath the root, and
`reset()` reports zero errors and restores the tree — symlink included — to
its tracked state. -/
theorem C1_track_reset_roundtrip_witness :
    (∃ d f, (reset ["home", ".foam_backup"] noErr noErr c1fs2 []).msgs =
      [Msg.resetSummary d f 0]) ∧
    ∀ r ∈ [["data", "proj"]], sameTreeAt
      (reset ["home", ".foam_backup"] noErr noErr c1fs2 []).fs c1fs0 r :=
  C1_track_reset_roundtrip c1fs0 c1fs2 ["home", ".foam_backup"]
    [["data", "proj"]]
    (by decide) (by decide) (by decide)
    (by
      intro q hq hqb hqne
      have hall : (strictBases (["home", ".foam_backup"] : FPath)).all
          (fun q => isDirAt c1fs0 q) = true := by decide
      exact List.all_eq_true.1 hall q ((strictBases_iff q _).2 ⟨hq, hqb, hqne⟩))
    (by
      intro r hrm
      have hre := List.mem_singleton.1 hrm
      subst hre
      exact ⟨by decide, ⟨493, by decide⟩, by decide, by decide, by decide⟩)
    (by simp)
    (by
      intro p hp
      show lookupFS (setNode
        (track ["home", ".foam_backup"] noErr c1fs0 [["data", "proj"]]).fs
        ["data", "proj", "a.txt"] (Node.file [98, 121, 101] 420 9)) p = _
      rw [lookupFS_setNode]
      rw [if_neg (by
        rintro rfl
        rcases hp ["data", "proj"] (by decide) with hp' | hp'
        · exact absurd hp' (by decide)
        · exact absurd hp' (by decide))])
    (by
      intro r hrm
      have hre := List.mem_singleton.1 hrm
      subst hre
      exact tops_of_entries (by decide))
    (by
      intro r hrm
      have hre := List.mem_singleton.1 hrm
      subst hre
      exact safe_of_entries (by decide))

/-! ## C8: the store region is a frame of `reset` -/

/-- C8 (amended): when no enumerated TrackedRoot is an ancestor of the store
root or lies inside the store (and symlink targets resolve beside their own
location, as single-component targets do), the whole store region — the
BackupStore directory and every entry beneath it — is unchanged by
`reset()`: removal, `mkdir` chains and restore writes all land at or beneath
the enumerated roots' original locations, never under the store root. -/
theorem C8_reset_preserves_store (fs : FS) (bdir : FPath)
    (hroots : ∀ rc ∈ trackedRoots bdir fs,
      hasBase rc.1 bdir = false ∧ hasBase bdir rc.1 = false) :
    ∀ p, hasBase bdir p = true →
      lookupFS (reset bdir noErr noErr fs []).fs p = lookupFS fs p := by
  intro p hp
  unfold reset
  by_cases hex : existsAt fs bdir = true
  · rw [if_neg (by simp [hex]), if_neg (by simp)]
    show lookupFS (resetGo noErr noErr (fs, 0) (resetEnum bdir fs)).1 p = _
    apply resetGo_frame
    intro t ht
    rcases mem_resetEnum ht with ⟨R, bp, rel, n, hrc, he, rfl⟩
    obtain ⟨hR1, hR2⟩ := hroots (R, bp) hrc
    rcases mem_rglob_resolved he with ⟨hrelne, -⟩
    constructor
    · show hasBase (R ++ rel).dropLast p = false
      rcases hb : hasBase (R ++ rel).dropLast p with _ | _
      · rfl
      · exfalso
        have hbR : hasBase R p = true := by
          refine hasBase_trans ?_ hb
          rw [dropLast_append_left hrelne]
          exact hasBase_append R rel.dropLast
        rcases hasBase_comparable hbR hp with h | h
        · rw [h] at hR1
          exact Bool.noConfusion hR1
        · rw [h] at hR2
          exact Bool.noConfusion hR2
    · show hasBase p (R ++ rel) = false
      rcases hb : hasBase p (R ++ rel) with _ | _
      · rfl
      · exfalso
        have hbdR : hasBase bdir (R ++ rel) = true := hasBase_trans hp hb
        rcases hasBase_comparable hbdR (hasBase_append R rel) with h | h
        · rw [h] at hR2
          exact Bool.noConfusion hR2
        · rw [h] at hR1
          exact Bool.noConfusion hR1
  · rw [if_pos hex]

/-- Witness for C8 at a concrete input: after tracking `/data/proj` and
mutating a file, `reset()` leaves the store entry holding the snapshotted
file bytes untouched. -/
theorem C8_reset_preserves_store_witness :
    (∀ rc ∈ trackedRoots ["home", ".foam_backup"] c1fs2,
      hasBase rc.1 ["home", ".foam_backup"] = false ∧
      hasBase ["home", ".foam_backup"] rc.1 = false) ∧
    lookupFS (reset ["home", ".foam_backup"] noErr noErr c1fs2 []).fs
      ["home", ".foam_backup", "data", "proj", "a.txt"] =
    lookupFS c1fs2 ["home", ".foam_backup", "data", "proj", "a.txt"] :=
  ⟨by decide, C8_reset_preserves_store c1fs2 ["home", ".foam_backup"]
    (by decide) ["home", ".foam_backup", "data", "proj", "a.txt"]
    (by decide)⟩

/-! ## C9: the two-level enumeration -/

/-- C9 counterexample (claim as stated): a *symlink* two levels below the
store root whose chain resolves to a directory is enumerated as a
TrackedRoot by the walk (`is_dir()` follows symlinks), so the enumerated
roots are not exactly the *directories* two levels below the store root. -/
theorem C9_symlink_root_cex :
    lookupFS
      [ (["home"], Node.dir 493),
        (["home", ".foam_backup"], Node.dir 493),
        (["home", ".foam_backup", "data"], Node.dir 493),
        (["home", ".foam_backup", "data", "real"], Node.dir 493),
        (["home", ".foam_backup", "data", "link"], Node.symlink "real") ]
      ["home", ".foam_backup", "data", "link"] = some (Node.symlink "real") ∧
    (["data", "link"], ["home", ".foam_backup", "data", "link"]) ∈
      trackedRoots ["home", ".foam_backup"]
      [ (["home"], Node.dir 493),
        (["home", ".foam_backup"], Node.dir 493),
        (["home", ".foam_backup", "data"], Node.dir 493),
        (["home", ".foam_backup", "data", "real"], Node.dir 493),
        (["home", ".foam_backup", "data", "link"], Node.symlink "real") ] := by
  decide

/-- C9 (amended): on the posix branch, `reset` (and `list`, which runs the
same walk) treats as TrackedRoots exactly the paths two levels below the
store root on which `is_dir()` succeeds — entries whose symlink chain
resolves to a directory included; every enumerated root has exactly two
components, so a one-component tracked folder is never itself a root; and
every restore target lies at least three components deep, so any present
path of at most two components — in particular a file lying directly inside
a one-component folder, or the folder itself — is untouched by `reset()`. -/
theorem C9_two_level_enumeration (bdir : FPath) (fs : FS) :
    (∀ R bp, (R, bp) ∈ trackedRoots bdir fs ↔
      ∃ s1 s2, R = [s1, s2] ∧ bp = bdir ++ R ∧
        isDirFollow fs (bdir ++ [s1]) = true ∧
        isDirFollow fs (bdir ++ R) = true) ∧
    (∀ R bp, (R, bp) ∈ trackedRoots bdir fs → R.length = 2) ∧
    (∀ t ∈ resetEnum bdir fs, 2 < (t.2.1).length) ∧
    (∀ p, p.length ≤ 2 → lookupFS fs p ≠ none →
      lookupFS (reset bdir noErr noErr fs []).fs p = lookupFS fs p) := by
  have hlookup : ∀ q : FPath, q ≠ [] → isDirFollow fs q = true →
      ∃ n, lookupFS fs q = some n := by
    intro q hq hdf
    rcases hl : lookupFS fs q with _ | n
    · exfalso
      have hdf2 : isDirAt fs q = true := by
        unfold isDirFollow at hdf
        rw [resolveFS_not_symlink (fun t ht => by
          rw [hl] at ht
          exact Option.noConfusion ht)] at hdf
        exact hdf
      rw [isDirAt_of_ne_nil fs hq, hl] at hdf2
      exact Bool.noConfusion hdf2
    · exact ⟨n, rfl⟩
  have henum : ∀ t ∈ resetEnum bdir fs, 2 < (t.2.1).length := by
    intro t ht
    rcases mem_resetEnum ht with ⟨R, bp, rel, n, hrc, he, rfl⟩
    rcases mem_trackedRoots hrc with ⟨s1, s2, hR, -, -, -⟩
    rcases mem_rglob_resolved he with ⟨hrelne, -⟩
    show 2 < (R ++ rel).length
    rw [List.length_append, hR]
    have : rel.length ≠ 0 :=
      fun hc => hrelne (List.eq_nil_of_length_eq_zero hc)
    simp
    omega
  refine ⟨?_, ?_, henum, ?_⟩
  · intro R bp
    constructor
    · intro h
      rcases mem_trackedRoots h with ⟨s1, s2, hR, hbp, hc1, hc2⟩
      rcases mem_childrenDirsOf hc1 with ⟨n1, -, -, -, hd1⟩
      rcases mem_childrenDirsOf hc2 with ⟨n2, -, -, -, hd2⟩
      refine ⟨s1, s2, hR, by rw [hbp, hR], hd1, ?_⟩
      rw [hR, ← hbp]
      exact hd2
    · rintro ⟨s1, s2, rfl, rfl, hd1, hd2⟩
      rcases hlookup (bdir ++ [s1]) (by simp) hd1 with ⟨n1, hn1⟩
      rcases hlookup (bdir ++ [s1, s2]) (by simp) hd2 with ⟨n2, hn2⟩
      apply trackedRoots_mem
      · apply childrenDirsOf_mem (lookupFS_mem hn1)
        · simp
        · exact hasBase_append bdir [s1]
        · exact hd1
      · apply childrenDirsOf_mem (lookupFS_mem hn2)
        · simp
        · show hasBase (bdir ++ [s1]) (bdir ++ [s1, s2]) = true
          rw [hasBase_append_same_iff]
          exact hasBase_single_cons s1 [s2]
        · exact hd2
  · intro R bp h
    rcases mem_trackedRoots h with ⟨s1, s2, hR, -, -, -⟩
    rw [hR]
    rfl
  · intro p hplen hpres
    unfold reset
    by_cases hex : existsAt fs bdir = true
    · rw [if_neg (by simp [hex]), if_neg (by simp)]
      show lookupFS (resetGo noErr noErr (fs, 0) (resetEnum bdir fs)).1 p = _
      apply resetGo_present_short
      · intro t ht
        have := henum t ht
        omega
      · exact hpres
    · rw [if_pos hex]

/-- Witness for C9 at a concrete input: the tracked root `/data/proj` is
enumerated via the two-level walk (backward direction of the
characterization), and the two-component original path `/data/proj` itself —
present at reset time — is untouched by `reset()`. -/
theorem C9_two_level_enumeration_witness :
    (["data", "proj"], ["home", ".foam_backup", "data", "proj"]) ∈
      trackedRoots ["home", ".foam_backup"] c1fs2 ∧
    lookupFS (reset ["home", ".foam_backup"] noErr noErr c1fs2 []).fs
      ["data", "proj"] = lookupFS c1fs2 ["data", "proj"] :=
  ⟨((C9_two_level_enumeration ["home", ".foam_backup"] c1fs2).1
      ["data", "proj"] ["home", ".foam_backup", "data", "proj"]).2
    ⟨"data", "proj", rfl, rfl, by decide, by decide⟩,
   (C9_two_level_enumeration ["home", ".foam_backup"] c1fs2).2.2.2
     ["data", "proj"] (by decide) (by decide)⟩

end Foam
